import Mathlib

/-!
A shallow embedding of the dynamic/differencing-disk core of the blktap VHD
driver (`drivers/block-vhd.c`): the BAT, the bitmap cache, the transaction
engine, the request router and the completion finishers.  Pure functions of
the C source become Lean functions on an explicit state record; the
asynchronous completion loop becomes a step function over events; failed
`ASSERT`s (compiled in, they dereference NULL) and C undefined behaviour
(out-of-bounds reads) are modelled by returning `none`.  An instrumentation
log records every issued I/O, every received completion and every caller
callback, so that ordering properties can be stated over execution traces.
-/

namespace BlkVhd

/-- Sector size is 512 bytes (`VHD_SECTOR_SIZE`, `VHD_SECTOR_SHIFT = 9`). -/
def VHD_SECTOR_SIZE : Nat := 512

/-- `DD_BLK_UNUSED`: the BAT sentinel for an unallocated block. -/
def DD_BLK_UNUSED : Nat := 0xffffffff

/-- `VHD_CACHE_SIZE`: number of bitmap-cache slots. -/
def VHD_CACHE_SIZE : Nat := 32

/-- `-EINVAL`. -/
def errInval : Int := -22
/-- `-EBUSY`. -/
def errBusy : Int := -16
/-- `-ENOMEM`. -/
def errNoMem : Int := -12
/-- `-EIO`. -/
def errIO : Int := -5

/-- Modelled from the spec: `BLK_NOT_ALLOCATED` (declared in the missing
`tapdisk.h`) is the sentinel passed to the caller callback for a read of an
unallocated span; it is "a distinct sentinel, not an error", in particular
distinct from `-EBUSY`. -/
def BLK_NOT_ALLOCATED : Int := -99

/-- Disk type from the footer: `HD_TYPE_FIXED`, `HD_TYPE_DYNAMIC`, `HD_TYPE_DIFF`. -/
inductive HdType where
  | fixed
  | dynamic
  | diff
  deriving DecidableEq, Repr

/-- Request op codes that live in request structures (`VHD_OP_DATA_READ`,
`VHD_OP_DATA_WRITE`, `VHD_OP_ZERO_BM_WRITE`); bitmap reads/writes and the BAT
write use dedicated request slots and are tracked by the in-flight list. -/
inductive VhdOp where
  | dataRead
  | dataWrite
  | zeroBmWrite
  deriving DecidableEq, Repr

/-- The kind of an asynchronous I/O, as dispatched by `vhd_do_callbacks`. -/
inductive IoKind where
  | dataRead
  | dataWrite
  | bitmapRead
  | bitmapWrite
  | zeroBmWrite
  | batWrite
  deriving DecidableEq, Repr

/-- Instrumentation record of one observable event: an I/O submission
(`aio_read`/`aio_write`), an I/O completion (delivered by the poll loop), or
a caller-callback invocation (made by `signal_completion` or by the router
synchronously).  `sn` is the model identity (serial number) of the I/O or of
the signalled request; `tag` identifies the transaction incarnation a
metadata write serves, or that a signalled request was a member of. -/
inductive LogEvent where
  | issue (k : IoKind) (sn : Nat) (tag : Option Nat)
  | complete (k : IoKind) (sn : Nat) (err : Int)
  | callback (err : Int) (lsec : Nat) (nrSecs : Nat) (id : Nat) (tag : Option Nat) (sn : Nat)
  deriving DecidableEq, Repr

/-- `struct vhd_request` (pool requests only): op, logical sector, count,
caller id, error, and the four `VHD_FLAG_REQ_*` flags.  `serial` models the
identity of one allocation lifetime of the request. -/
structure VhdRequest where
  serial : Nat
  id : Nat
  error : Int
  op : VhdOp
  lsec : Nat
  nrSecs : Nat
  fUpdateBat : Bool
  fUpdateBitmap : Bool
  fQueued : Bool
  fFinished : Bool
  deriving DecidableEq, Repr

/-- `struct vhd_transaction`.  `tag` models the identity of one incarnation
of a bitmap's transaction (reset by `init_tx`); `live`/`updateBat` are the
`VHD_FLAG_TX_LIVE`/`VHD_FLAG_TX_UPDATE_BAT` status bits. -/
structure VhdTransaction where
  tag : Nat
  error : Int
  closed : Bool
  started : Nat
  finished : Nat
  live : Bool
  updateBat : Bool
  requests : List VhdRequest
  deriving DecidableEq, Repr

/-- `struct vhd_bitmap`: block number, LRU sequence number, the
`VHD_FLAG_BM_*` status bits, the committed (`map`) and pending (`shadow`)
bitmap buffers (one `Bool` per in-block sector index), the transaction, the
queue of writes waiting for the next transaction, and the list of requests
waiting for the bitmap read. -/
structure VhdBitmap where
  blk : Nat
  seqno : Nat
  readPending : Bool
  writePending : Bool
  locked : Bool
  map : Nat → Bool
  shadow : Nat → Bool
  tx : VhdTransaction
  queue : List VhdRequest
  waiting : List VhdRequest

/-- One in-flight asynchronous I/O (an entry of the submitted iocb set). -/
inductive Inflight where
  | data (sn : Nat)
  | bitmapRead (blk : Nat) (sn : Nat)
  | bitmapWrite (blk : Nat) (sn : Nat) (tag : Nat)
  | zeroBm (blk : Nat) (sn : Nat) (tag : Nat)
  | batWrite (sn : Nat) (tag : Nat)
  deriving DecidableEq, Repr

/-- `struct vhd_state`: geometry, the BAT with its lock and pending-write
bookkeeping (`pbw_blk`, `pbw_offset`, `bat.req.tx`), the bitmap cache, the
request pool free count, the in-flight I/O set and the instrumentation log.
`plain` holds live pool requests that are in no bitmap list (data reads and
data writes without metadata updates). -/
structure VhdState where
  hdType : HdType
  spb : Nat
  spp : Nat
  bmSecs : Nat
  maxBatSize : Nat
  nextDb : Nat
  bat : List Nat
  batLocked : Bool
  batWriteStarted : Bool
  batReqTx : Bool
  pbwBlk : Nat
  pbwOffset : Nat
  cache : List VhdBitmap
  bmFreeCount : Nat
  bmLru : Nat
  vreqFreeCount : Nat
  plain : List VhdRequest
  inflight : List Inflight
  nextSerial : Nat
  nextTag : Nat
  log : List LogEvent

/-- `bat_entry(s, blk)`: read of `s->bat.bat[blk]`; `none` models an
out-of-bounds access (the array holds exactly `max_bat_size` entries). -/
def batEntry (s : VhdState) (blk : Nat) : Option Nat :=
  s.bat.get? blk

/-- `get_bitmap(s, block)`: linear scan of the cache. -/
def getBitmap (s : VhdState) (blk : Nat) : Option VhdBitmap :=
  s.cache.find? (fun bm => bm.blk == blk)

/-- Apply `f` to the cached bitmap for `blk` (C mutates it in place). -/
def updateBm (s : VhdState) (blk : Nat) (f : VhdBitmap → VhdBitmap) : VhdState :=
  { s with cache := s.cache.map (fun bm => if bm.blk == blk then f bm else bm) }

/-- `bitmap_valid`: no read pending. -/
def bitmapValid (bm : VhdBitmap) : Bool :=
  !bm.readPending

/-- `bitmap_in_use`. -/
def bitmapInUse (bm : VhdBitmap) : Bool :=
  bm.readPending || bm.writePending || bm.tx.updateBat ||
    !bm.waiting.isEmpty || !bm.tx.requests.isEmpty || !bm.queue.isEmpty

/-- `transaction_completed`. -/
def transactionCompleted (tx : VhdTransaction) : Bool :=
  tx.started == tx.finished

/-- `init_tx`: zero the transaction; the model hands the fresh incarnation a
new tag. -/
def initTx (tag : Nat) : VhdTransaction :=
  { tag := tag, error := 0, closed := false, started := 0, finished := 0,
    live := false, updateBat := false, requests := [] }

/-- `add_to_transaction` minus the `ASSERT(!tx->closed)` (checked by callers
of the model): append the request, bump `started`, set `TX_LIVE`. -/
def addToTransaction (tx : VhdTransaction) (r : VhdRequest) : VhdTransaction :=
  { tx with started := tx.started + 1, requests := tx.requests ++ [r], live := true }

/-- Set `nr` contiguous bits starting at `sec` (the `set_bit` loops of
`finish_data_write` and `start_new_bitmap_transaction`). -/
def setBits (m : Nat → Bool) (sec : Nat) (nr : Nat) : Nat → Bool :=
  fun i => if sec ≤ i ∧ i < sec + nr then true else m i

/-! ## The classifier: `read_bitmap_cache` and `read_bitmap_cache_span` -/

/-- The classification returned by `read_bitmap_cache` (`VHD_BM_*`, plus the
`-EINVAL` out-of-range return). -/
inductive BmClass where
  | einval
  | batLocked
  | batClear
  | bitClear
  | bitSet
  | notCached
  | readPending
  deriving DecidableEq, Repr

/-- `__bitmap_lru_seqno`: on counter overflow halve every sequence number and
restart the counter from their maximum; returns the fresh sequence number. -/
def bitmapLruSeqno (s : VhdState) : Nat × VhdState :=
  if s.bmLru == 0xffffffff then
    let cache' := s.cache.map (fun bm => { bm with seqno := bm.seqno / 2 })
    let m := cache'.foldl (fun a bm => max a bm.seqno) 0
    (m + 1, { s with bmLru := m + 1, cache := cache' })
  else
    (s.bmLru + 1, { s with bmLru := s.bmLru + 1 })

/-- `touch_bitmap`. -/
def touchBitmap (s : VhdState) (blk : Nat) : VhdState :=
  let p := bitmapLruSeqno s
  updateBm p.2 blk (fun bm => { bm with seqno := p.1 })

/-- `read_bitmap_cache(s, sector, op)`.  Returns the classification together
with the state updated by the LRU touch; `none` models the out-of-bounds BAT
read that the code performs when `blk == max_bat_size` (the range check is
`blk > s->hdr.max_bat_size`). -/
def readBitmapCache (s : VhdState) (sector : Nat) (isWrite : Bool) :
    Option (BmClass × VhdState) :=
  if s.hdType = HdType.fixed then
    some (BmClass.bitSet, s)
  else
    let blk := sector / s.spb
    let sec := sector % s.spb
    if blk > s.maxBatSize then
      some (BmClass.einval, s)
    else
      match batEntry s blk with
      | none => none
      | some e =>
        if e = DD_BLK_UNUSED then
          if isWrite ∧ s.pbwBlk ≠ blk ∧ s.batLocked then
            some (BmClass.batLocked, s)
          else
            some (BmClass.batClear, s)
        else if s.hdType = HdType.dynamic then
          some (BmClass.bitSet, s)
        else
          match getBitmap s blk with
          | none => some (BmClass.notCached, s)
          | some bm =>
            let s := touchBitmap s blk
            if bm.readPending then
              some (BmClass.readPending, s)
            else if bm.map sec then
              some (BmClass.bitSet, s)
            else
              some (BmClass.bitClear, s)

/-- The bit-counting loop of `read_bitmap_cache_span`:
`for (ret = 0; sec < spb && ret < nr_secs; sec++, ret++) if (test_bit(sec) != value) break;`. -/
def spanLoop (m : Nat → Bool) (spb : Nat) (sec : Nat) (nrSecs : Nat) (value : Bool) : Nat :=
  match nrSecs with
  | 0 => 0
  | n + 1 =>
    if sec < spb ∧ m sec = value then
      spanLoop m spb (sec + 1) n value + 1
    else
      0

/-- `read_bitmap_cache_span(s, sector, nr_secs, value)`; `none` models the
failed `ASSERT(bm && bitmap_valid(bm))` on differencing disks. -/
def readBitmapCacheSpan (s : VhdState) (sector : Nat) (nrSecs : Nat) (value : Bool) :
    Option Nat :=
  if s.hdType = HdType.fixed then
    some nrSecs
  else
    let sec := sector % s.spb
    if s.hdType = HdType.dynamic then
      some (min nrSecs (s.spb - sec))
    else
      let blk := sector / s.spb
      match getBitmap s blk with
      | none => none
      | some bm =>
        if bm.readPending then none
        else some (spanLoop bm.map s.spb sec nrSecs value)

/-! ## Byte-level model of `schedule_bat_write`'s buffer construction -/

/-- `cpu_to_be32` at byte granularity: the four bytes of `x`'s low 32 bits,
most significant first. -/
def cpuToBe32 (x : Nat) : List Nat :=
  [x / 2 ^ 24 % 256, x / 2 ^ 16 % 256, x / 2 ^ 8 % 256, x % 256]

/-- The 512-byte buffer built by `schedule_bat_write`: `memcpy` of the 128
BAT entries starting at `blk - blk % 128`, the entry at index `blk % 128`
overwritten with `pbw_offset` (truncated to `u32` by the store), then every
entry converted to big-endian in place. -/
def scheduleBatWriteBuf (bat : List Nat) (blk : Nat) (pbwOffset : Nat) : List Nat :=
  let base := blk - blk % 128
  let window := ((bat.drop base).take 128).set (blk % 128) pbwOffset
  (window.map cpuToBe32).flatten

/-- The file offset written by `schedule_bat_write`:
`hdr.table_offset + (blk - (blk % 128)) * 4`. -/
def scheduleBatWriteOffset (tableOffset : Nat) (blk : Nat) : Nat :=
  tableOffset + (blk - blk % 128) * 4

/-- Big-endian 32-bit decode of the 4 bytes of `buf` starting at `4 * i`. -/
def be32At (buf : List Nat) (i : Nat) : Nat :=
  buf.getD (4 * i) 0 * 2 ^ 24 + buf.getD (4 * i + 1) 0 * 2 ^ 16 +
    buf.getD (4 * i + 2) 0 * 2 ^ 8 + buf.getD (4 * i + 3) 0

/-! ## Scheduling -/

/-- Outcome of a scheduling routine: a failed `ASSERT`/undefined behaviour
(`crash`), an error return propagated to the router (`err`), or success. -/
inductive SRes (α : Type) where
  | crash
  | err (e : Int)
  | ok (a : α)

/-- Sequencing for `SRes`. -/
def SRes.bind : SRes α → (α → SRes β) → SRes β
  | .crash, _ => .crash
  | .err e, _ => .err e
  | .ok a, f => f a

/-- `alloc_vhd_request`: pop a zeroed descriptor from the pool free list, or
fail with out-of-memory.  The model hands out a fresh serial number. -/
def allocVhdRequest (s : VhdState) : Option (VhdRequest × VhdState) :=
  if s.vreqFreeCount > 0 then
    some ({ serial := s.nextSerial, id := 0, error := 0, op := VhdOp.dataRead,
            lsec := 0, nrSecs := 0, fUpdateBat := false, fUpdateBitmap := false,
            fQueued := false, fFinished := false },
          { s with vreqFreeCount := s.vreqFreeCount - 1, nextSerial := s.nextSerial + 1 })
  else none

/-- Hand out a fresh transaction tag. -/
def freshTag (s : VhdState) : Nat × VhdState :=
  (s.nextTag, { s with nextTag := s.nextTag + 1 })

/-- `init_vhd_bitmap`: zeroed status, buffers and lists. -/
def initVhdBitmap (blk : Nat) (tag : Nat) : VhdBitmap :=
  { blk := blk, seqno := 0, readPending := false, writePending := false, locked := false,
    map := fun _ => false, shadow := fun _ => false, tx := initTx tag,
    queue := [], waiting := [] }

/-- The selection loop of `remove_lru_bitmap`: lowest-sequence unlocked
bitmap, starting the comparison from the current LRU counter. -/
def findLru (cache : List VhdBitmap) (seq : Nat) : Option VhdBitmap :=
  (cache.foldl (fun (acc : Option VhdBitmap × Nat) bm =>
    if bm.seqno < acc.2 ∧ !bm.locked then (some bm, bm.seqno) else acc) (none, seq)).1

/-- `alloc_vhd_bitmap`: pop a free bitmap, or evict the LRU entry; evicting a
bitmap that is in use fails the `ASSERT(!bitmap_in_use(lru))`. -/
def allocVhdBitmap (s : VhdState) (blk : Nat) : SRes (VhdBitmap × VhdState) :=
  if s.bmFreeCount > 0 then
    let s1 := { s with bmFreeCount := s.bmFreeCount - 1 }
    let p := freshTag s1
    SRes.ok (initVhdBitmap blk p.1, p.2)
  else
    match findLru s.cache s.bmLru with
    | none => SRes.err errBusy
    | some lru =>
      if bitmapInUse lru then SRes.crash
      else
        let s1 := { s with cache := s.cache.eraseP (fun bm => bm.blk == lru.blk) }
        let p := freshTag s1
        SRes.ok (initVhdBitmap blk p.1, p.2)

/-- `install_bitmap`: place the bitmap in an empty slot (bumping its LRU
sequence number); a full cache fails the `ASSERT(0)`. -/
def installBitmap (s : VhdState) (bm : VhdBitmap) : Option VhdState :=
  if s.cache.length < VHD_CACHE_SIZE then
    let p := bitmapLruSeqno s
    some { p.2 with cache := p.2.cache ++ [{ bm with seqno := p.1 }] }
  else none

/-- `reserve_new_block`: `ASSERT(!bat_locked && !BAT_WRITE_STARTED)`, record
the pending block and its offset, take the BAT lock. -/
def reserveNewBlock (s : VhdState) (blk : Nat) : Option VhdState :=
  if s.batLocked || s.batWriteStarted then none
  else some { s with pbwBlk := blk, pbwOffset := s.nextDb, batLocked := true }

/-- `schedule_zero_bm_write`: lock the bitmap, add the shared zero request to
the transaction (`ASSERT(!tx->closed)`), and enqueue a write of `bm_secs`
zero sectors at `pbw_offset`. -/
def scheduleZeroBmWrite (s : VhdState) : Option VhdState :=
  match getBitmap s s.pbwBlk with
  | none => none
  | some bm =>
    if bm.tx.closed then none
    else
      let sn := s.nextSerial
      let zreq : VhdRequest :=
        { serial := sn, id := 0, error := 0, op := VhdOp.zeroBmWrite,
          lsec := s.pbwBlk * s.spb, nrSecs := s.bmSecs, fUpdateBat := false,
          fUpdateBitmap := false, fQueued := false, fFinished := false }
      let s1 := updateBm s s.pbwBlk
        (fun b => { b with locked := true, tx := addToTransaction b.tx zreq })
      some { s1 with
             nextSerial := sn + 1,
             inflight := s1.inflight ++ [Inflight.zeroBm s.pbwBlk sn bm.tx.tag],
             log := s1.log ++ [LogEvent.issue IoKind.zeroBmWrite sn (some bm.tx.tag)] }

/-- `update_bat`: `ASSERT(bat_entry == DD_BLK_UNUSED)`; if the BAT lock is
held the pending block must be this one (`ASSERT(pbw_blk == blk)`) and
nothing more is done; otherwise install an empty bitmap if none is cached,
reserve the block, schedule the zero-bitmap write and mark the transaction
`TX_UPDATE_BAT`. -/
def updateBat (s : VhdState) (blk : Nat) : SRes VhdState :=
  match batEntry s blk with
  | none => SRes.crash
  | some e =>
    if e ≠ DD_BLK_UNUSED then SRes.crash
    else if s.batLocked then
      if s.pbwBlk = blk then SRes.ok s else SRes.crash
    else
      let withBm : SRes VhdState :=
        match getBitmap s blk with
        | some _ => SRes.ok s
        | none =>
          SRes.bind (allocVhdBitmap s blk) fun p =>
            match installBitmap p.2 p.1 with
            | none => SRes.crash
            | some s2 => SRes.ok s2
      SRes.bind withBm fun s1 =>
        match reserveNewBlock s1 blk with
        | none => SRes.crash
        | some s2 =>
          match scheduleZeroBmWrite s2 with
          | none => SRes.crash
          | some s3 =>
            SRes.ok (updateBm s3 blk
              (fun b => { b with tx := { b.tx with updateBat := true } }))

/-- `schedule_data_read`: on dynamic/differencing disks read the BAT entry
for the data offset (a differencing disk asserts that the block is allocated
and its bitmap cached and valid), allocate a pool request and enqueue the
read. -/
def scheduleDataRead (s : VhdState) (sector nrSecs id : Nat) : SRes VhdState :=
  let checks : SRes Unit :=
    if s.hdType = HdType.fixed then SRes.ok ()
    else
      match batEntry s (sector / s.spb) with
      | none => SRes.crash
      | some off =>
        if s.hdType = HdType.diff then
          if off = DD_BLK_UNUSED then SRes.crash
          else
            match getBitmap s (sector / s.spb) with
            | none => SRes.crash
            | some bm => if bitmapValid bm then SRes.ok () else SRes.crash
        else SRes.ok ()
  SRes.bind checks fun _ =>
    match allocVhdRequest s with
    | none => SRes.err errNoMem
    | some (r0, s1) =>
      let r := { r0 with lsec := sector, nrSecs := nrSecs, id := id, op := VhdOp.dataRead }
      SRes.ok { s1 with
                plain := s1.plain ++ [r],
                inflight := s1.inflight ++ [Inflight.data r.serial],
                log := s1.log ++ [LogEvent.issue IoKind.dataRead r.serial none] }

/-- `schedule_data_write`: read the BAT entry, run `update_bat` when the
write allocates, allocate a pool request, and for `UPDATE_BITMAP` writes
either join the open transaction or queue on the bitmap (when the
transaction is closed); finally enqueue the write. -/
def scheduleDataWrite (s : VhdState) (sector nrSecs : Nat) (fBat fBitmap : Bool) (id : Nat) :
    SRes VhdState :=
  let blk := sector / s.spb
  let pre : SRes VhdState :=
    if s.hdType = HdType.fixed then SRes.ok s
    else
      match batEntry s blk with
      | none => SRes.crash
      | some _ => if fBat then updateBat s blk else SRes.ok s
  SRes.bind pre fun s1 =>
    match allocVhdRequest s1 with
    | none => SRes.err errNoMem
    | some (r0, s2) =>
      let r := { r0 with
                 lsec := sector, nrSecs := nrSecs, id := id, op := VhdOp.dataWrite,
                 fUpdateBat := fBat, fUpdateBitmap := fBitmap }
      if fBitmap then
        match getBitmap s2 blk with
        | none => SRes.crash
        | some bm =>
          if !bitmapValid bm then SRes.crash
          else if bm.tx.closed then
            let rq := { r with fQueued := true }
            let s3 := updateBm s2 blk
              (fun b => { b with locked := true, queue := b.queue ++ [rq] })
            SRes.ok { s3 with
                      inflight := s3.inflight ++ [Inflight.data rq.serial],
                      log := s3.log ++ [LogEvent.issue IoKind.dataWrite rq.serial none] }
          else
            let s3 := updateBm s2 blk
              (fun b => { b with locked := true, tx := addToTransaction b.tx r })
            SRes.ok { s3 with
                      inflight := s3.inflight ++ [Inflight.data r.serial],
                      log := s3.log ++ [LogEvent.issue IoKind.dataWrite r.serial (some bm.tx.tag)] }
      else
        SRes.ok { s2 with
                  plain := s2.plain ++ [r],
                  inflight := s2.inflight ++ [Inflight.data r.serial],
                  log := s2.log ++ [LogEvent.issue IoKind.dataWrite r.serial none] }

/-- `schedule_bitmap_read`: assert the block allocated and not cached,
allocate and install a locked `READ_PENDING` bitmap and enqueue the read of
`bm_secs` sectors. -/
def scheduleBitmapRead (s : VhdState) (blk : Nat) : SRes VhdState :=
  if s.hdType = HdType.fixed then SRes.crash
  else
    match batEntry s blk with
    | none => SRes.crash
    | some off =>
      if off = DD_BLK_UNUSED then SRes.crash
      else
        match getBitmap s blk with
        | some _ => SRes.crash
        | none =>
          SRes.bind (allocVhdBitmap s blk) fun p =>
            let sn := p.2.nextSerial
            let s1 := { p.2 with nextSerial := sn + 1 }
            let bm := { p.1 with locked := true, readPending := true }
            match installBitmap s1 bm with
            | none => SRes.crash
            | some s2 =>
              SRes.ok { s2 with
                        inflight := s2.inflight ++ [Inflight.bitmapRead blk sn],
                        log := s2.log ++ [LogEvent.issue IoKind.bitmapRead sn none] }

/-- `schedule_bitmap_write`: assert a valid cached bitmap with no write
pending; an `UNUSED` BAT entry is permitted only for the pending block
(`ASSERT(pbw_blk == blk)`); enqueue a write of `shadow`, lock and touch the
bitmap and set `WRITE_PENDING`. -/
def scheduleBitmapWrite (s : VhdState) (blk : Nat) : SRes VhdState :=
  match getBitmap s blk, batEntry s blk with
  | some bm, some off =>
    if s.hdType = HdType.fixed then SRes.crash
    else if !bitmapValid bm || bm.writePending then SRes.crash
    else if off = DD_BLK_UNUSED ∧ s.pbwBlk ≠ blk then SRes.crash
    else
      let sn := s.nextSerial
      let s1 := { s with nextSerial := sn + 1 }
      let s2 := updateBm s1 blk (fun b => { b with locked := true, writePending := true })
      let s3 := touchBitmap s2 blk
      SRes.ok { s3 with
                inflight := s3.inflight ++ [Inflight.bitmapWrite blk sn bm.tx.tag],
                log := s3.log ++ [LogEvent.issue IoKind.bitmapWrite sn (some bm.tx.tag)] }
  | _, _ => SRes.crash

/-- `schedule_bat_write` (state part): `ASSERT(bat_locked)`, enqueue the
512-byte BAT sector write and set `BAT_WRITE_STARTED`.  The buffer contents
and file offset are modelled by `scheduleBatWriteBuf`/`scheduleBatWriteOffset`.
The tag instruments which transaction incarnation the write serves. -/
def scheduleBatWrite (s : VhdState) (tag : Nat) : Option VhdState :=
  if !s.batLocked then none
  else
    let sn := s.nextSerial
    some { s with
           nextSerial := sn + 1,
           batWriteStarted := true,
           inflight := s.inflight ++ [Inflight.batWrite sn tag],
           log := s.log ++ [LogEvent.issue IoKind.batWrite sn (some tag)] }

/-- `__vhd_queue_request`: assert the bitmap cached and `READ_PENDING`,
allocate a pool request and append it to the bitmap's `waiting` list without
issuing any I/O. -/
def queueRequest (s : VhdState) (op : VhdOp) (sector nrSecs id : Nat) : SRes VhdState :=
  if s.hdType = HdType.fixed then SRes.crash
  else
    let blk := sector / s.spb
    match getBitmap s blk with
    | none => SRes.crash
    | some bm =>
      if !bm.readPending then SRes.crash
      else
        match allocVhdRequest s with
        | none => SRes.err errNoMem
        | some (r0, s1) =>
          let r := { r0 with lsec := sector, nrSecs := nrSecs, id := id, op := op }
          SRes.ok (updateBm s1 blk
            (fun b => { b with locked := true, waiting := b.waiting ++ [r] }))

/-! ## Completion finishers and the transaction engine

`cb err lsec nrSecs id` is the caller callback; its integer return values
are summed and propagated exactly as the driver does. -/

section Driver

variable (cb : Int → Nat → Nat → Nat → Int)

/-- Append one caller-callback invocation to the log. -/
def logCb (s : VhdState) (err : Int) (lsec nrSecs id : Nat) : VhdState :=
  { s with log := s.log ++ [LogEvent.callback err lsec nrSecs id none 0] }

/-- `signal_completion`: walk the request chain; each callback receives the
list error if non-zero, otherwise the request's own error; requests are
freed back to the pool; returns the sum of the callback returns.  `tag`
instruments which transaction incarnation (if any) the requests belonged
to. -/
def signalCompletion (s : VhdState) (reqs : List VhdRequest) (error : Int) (tag : Option Nat) :
    VhdState × Int :=
  reqs.foldl (fun (p : VhdState × Int) r =>
    let err := if error ≠ 0 then error else r.error
    ({ p.1 with
       vreqFreeCount := p.1.vreqFreeCount + 1,
       log := p.1.log ++ [LogEvent.callback err r.lsec r.nrSecs r.id tag r.serial] },
     p.2 + cb err r.lsec r.nrSecs r.id)) (s, 0)

/-- Fuel handed to the mutually recursive transaction-finishing routines;
the call chain `finish_bitmap_transaction → start_new_bitmap_transaction →
finish_data_transaction → finish_bitmap_transaction → …` terminates because
the promoted queue is empty the second time around, so any fuel ≥ 5
suffices on reachable states. -/
def txFuel : Nat := 9

/-- The promotion loop of `start_new_bitmap_transaction`: clear `REQ_QUEUED`;
requests that already carry an error are diverted to the completed list; the
rest join the fresh transaction, and those already `FINISHED` bump the
`finished` counter (setting their sector bits in `shadow` on differencing
disks). -/
def promoteQueue (ht : HdType) (spb : Nat) (rs : List VhdRequest)
    (tx : VhdTransaction) (shadow : Nat → Bool) :
    VhdTransaction × (Nat → Bool) × List VhdRequest :=
  rs.foldl (fun acc r =>
    let r := { r with fQueued := false }
    if r.error ≠ 0 then (acc.1, acc.2.1, acc.2.2 ++ [r])
    else
      let tx1 := addToTransaction acc.1 r
      if r.fFinished then
        let sh := if ht = HdType.diff then setBits acc.2.1 (r.lsec % spb) r.nrSecs else acc.2.1
        ({ tx1 with finished := tx1.finished + 1 }, sh, acc.2.2)
      else (tx1, acc.2.1, acc.2.2)) (tx, shadow, [])

mutual

/-- `finish_bitmap_transaction(dd, bm, error)`: fold `error` into the
transaction error; while `TX_UPDATE_BAT` is set, park on `bat.req.tx`
(asserting the pending block matches and the BAT write started) and defer;
otherwise signal every member with the transaction error, reset the
transaction, promote the queued writes, and unlock the bitmap if it fell
out of use. -/
def finishBitmapTransaction : Nat → VhdState → Nat → Int → Option (VhdState × Int)
  | 0, _, _, _ => none
  | fuel + 1, s, blk, error =>
    match getBitmap s blk with
    | none => none
    | some bm =>
      let txError := if bm.tx.error ≠ 0 then bm.tx.error else error
      let s := updateBm s blk (fun b => { b with tx := { b.tx with error := txError } })
      if bm.tx.updateBat then
        if blk = s.pbwBlk ∧ s.batWriteStarted then
          some ({ s with batReqTx := true }, 0)
        else none
      else
        let p := signalCompletion cb s bm.tx.requests txError (some bm.tx.tag)
        let tag := p.1.nextTag
        let s2 := updateBm { p.1 with nextTag := tag + 1 } blk
          (fun b => { b with tx := initTx tag })
        match startNewBitmapTransaction fuel s2 blk with
        | none => none
        | some (s3, rsp2) =>
          match getBitmap s3 blk with
          | none => none
          | some bm' =>
            let s4 :=
              if !bitmapInUse bm' then
                updateBm s3 blk (fun b => { b with locked := false })
              else s3
            some (s4, p.2 + rsp2)

/-- `start_new_bitmap_transaction`: nothing to do when the queue is empty;
if the block's BAT entry is (still) `UNUSED`, fail every queued request with
`-EIO`; otherwise promote the queue into the fresh transaction, finish the
transaction at once if every promoted write already completed, and signal
the diverted requests (with their own errors). -/
def startNewBitmapTransaction : Nat → VhdState → Nat → Option (VhdState × Int)
  | 0, _, _ => none
  | fuel + 1, s, blk =>
    match getBitmap s blk with
    | none => none
    | some bm =>
      if bm.queue.isEmpty then some (s, 0)
      else
        let rs := bm.queue
        let s := updateBm s blk (fun b => { b with queue := [] })
        match batEntry s blk with
        | none => none
        | some e =>
          if e = DD_BLK_UNUSED then
            some (signalCompletion cb s rs errIO none)
          else if bm.tx.closed ∧ rs.any (fun r => r.error == 0) then
            none
          else
            let pr := promoteQueue s.hdType s.spb rs bm.tx bm.shadow
            let s1 := updateBm s blk (fun b => { b with tx := pr.1, shadow := pr.2.1 })
            let next : Option (VhdState × Int) :=
              if transactionCompleted pr.1 then finishDataTransaction fuel s1 blk
              else some (s1, 0)
            match next with
            | none => none
            | some (s2, rsp) =>
              let q := signalCompletion cb s2 pr.2.2 0 none
              some (q.1, rsp + q.2)

/-- `finish_data_transaction`: close the transaction; with no error on a
differencing disk schedule the bitmap write, otherwise finish the bitmap
transaction immediately. -/
def finishDataTransaction : Nat → VhdState → Nat → Option (VhdState × Int)
  | 0, _, _ => none
  | fuel + 1, s, blk =>
    match getBitmap s blk with
    | none => none
    | some bm =>
      let s1 := updateBm s blk (fun b => { b with tx := { b.tx with closed := true } })
      if bm.tx.error = 0 ∧ s.hdType = HdType.diff then
        match scheduleBitmapWrite s1 blk with
        | SRes.ok s2 => some (s2, 0)
        | _ => none
      else
        finishBitmapTransaction fuel s1 blk 0

end

/-- `finish_bat_write`: on success commit `bat[pbw_blk] = pbw_offset` (a
`u32` store) and advance `next_db` past the new block, padding so that
`(next_db + bm_secs) % spp == 0`; on failure record the error in the
transaction.  Clear `TX_UPDATE_BAT`; if a transaction parked on
`bat.req.tx`, finish it; release the BAT lock and reset the
pending-allocation state. -/
def finishBatWrite (s : VhdState) (err : Int) : Option (VhdState × Int) :=
  match getBitmap s s.pbwBlk with
  | none => none
  | some bm =>
    if !bitmapValid bm then none
    else if !(s.batLocked ∧ s.batWriteStarted) then none
    else if !bm.tx.live then none
    else
      let s1 :=
        if err = 0 then
          let nd := s.nextDb + s.spb + s.bmSecs
          let nd :=
            if (nd + s.bmSecs) % s.spp ≠ 0 then nd + (s.spp - (nd + s.bmSecs) % s.spp)
            else nd
          { s with bat := s.bat.set s.pbwBlk (s.pbwOffset % 2 ^ 32), nextDb := nd }
        else
          updateBm s s.pbwBlk (fun b => { b with tx := { b.tx with error := err } })
      let s2 := updateBm s1 s.pbwBlk (fun b => { b with tx := { b.tx with updateBat := false } })
      let next : Option (VhdState × Int) :=
        if s2.batReqTx then finishBitmapTransaction cb txFuel s2 s.pbwBlk err
        else some (s2, 0)
      match next with
      | none => none
      | some (s3, rsp) =>
        some ({ s3 with
                batLocked := false, batWriteStarted := false,
                batReqTx := false, pbwBlk := 0, pbwOffset := 0 }, rsp)

/-- Remove the first request with the given serial (the pointer-based
`remove_from_req_list`). -/
def removeReq : List VhdRequest → Nat → List VhdRequest
  | [], _ => []
  | r :: rest, sn => if r.serial = sn then rest else r :: removeReq rest sn

/-- `finish_zero_bm_write`: assert the BAT locked for this block and the
bitmap valid and locked; count the member finished and drop it from the
member list; on error abort the allocation (release the BAT lock, record
the error, clear `TX_UPDATE_BAT`, finish the transaction if complete); on
success schedule the BAT write. -/
def finishZeroBmWrite (s : VhdState) (blk sn : Nat) (err : Int) : Option (VhdState × Int) :=
  match getBitmap s blk with
  | none => none
  | some bm =>
    if !(s.batLocked ∧ s.pbwBlk = blk) then none
    else if !(bitmapValid bm ∧ bm.locked) then none
    else
      let tx1 := { bm.tx with
                   finished := bm.tx.finished + 1, requests := removeReq bm.tx.requests sn }
      let s1 := updateBm s blk (fun b => { b with tx := tx1 })
      if err ≠ 0 then
        let s2 := { s1 with
                    batLocked := false, batWriteStarted := false,
                    batReqTx := false, pbwBlk := 0, pbwOffset := 0 }
        let s3 := updateBm s2 blk
          (fun b => { b with tx := { b.tx with error := err, updateBat := false } })
        if transactionCompleted tx1 then finishDataTransaction cb txFuel s3 blk
        else some (s3, 0)
      else
        match scheduleBatWrite s1 bm.tx.tag with
        | none => none
        | some s2 => some (s2, 0)

/-- Find a live pool request among the plain (listless) ones. -/
def findPlain (s : VhdState) (sn : Nat) : Option VhdRequest :=
  s.plain.find? (fun r => r.serial == sn)

/-- Where a completing data request lives: in a transaction member list, in
a bitmap queue, or in no list. -/
inductive ReqLoc where
  | member (blk : Nat)
  | queued (blk : Nat)
  | plain
  deriving DecidableEq, Repr

/-- Locate a completing data request by its identity (C: the `iocb`'s
request pointer). -/
def findDataLoc (s : VhdState) (sn : Nat) : Option (ReqLoc × VhdRequest) :=
  match s.cache.findSome? (fun bm =>
    match bm.tx.requests.find? (fun r => r.serial == sn) with
    | some r => some (ReqLoc.member bm.blk, r)
    | none =>
      match bm.queue.find? (fun r => r.serial == sn) with
      | some r => some (ReqLoc.queued bm.blk, r)
      | none => none) with
  | some x => some x
  | none =>
    match findPlain s sn with
    | some r => some (ReqLoc.plain, r)
    | none => none

/-- `finish_data_read`: signal the request. -/
def finishDataRead (s : VhdState) (sn : Nat) (err : Int) : Option (VhdState × Int) :=
  match findPlain s sn with
  | none => none
  | some r =>
    let r := { r with error := err }
    let s1 := { s with plain := s.plain.filter (fun q => q.serial != sn) }
    some (signalCompletion cb s1 [r] 0 none)

/-- `finish_data_write`: set `REQ_FINISHED`; a transaction member bumps the
`finished` counter, sets its sector bits in `shadow` on a successful write
to a differencing disk, and finishes the transaction when it was the last
outstanding member; a queued request merely records its state; a plain
request is signalled at once. -/
def finishDataWrite (s : VhdState) (sn : Nat) (err : Int) : Option (VhdState × Int) :=
  match findDataLoc s sn with
  | none => none
  | some (loc, r0) =>
    if r0.op ≠ VhdOp.dataWrite then none
    else
      match loc with
      | ReqLoc.member blk =>
        if r0.lsec / s.spb ≠ blk then none
        else
          match getBitmap s blk with
          | none => none
          | some bm =>
            if !(bitmapValid bm ∧ bm.locked) then none
            else
              let sec := r0.lsec % s.spb
              let tx1 := { bm.tx with
                           finished := bm.tx.finished + 1,
                           requests := bm.tx.requests.map (fun r =>
                             if r.serial == sn then { r with error := err, fFinished := true }
                             else r) }
              let s1 := updateBm s blk (fun b =>
                { b with
                  tx := tx1,
                  shadow :=
                    if err = 0 ∧ s.hdType = HdType.diff then setBits b.shadow sec r0.nrSecs
                    else b.shadow })
              if transactionCompleted tx1 then finishDataTransaction cb txFuel s1 blk
              else some (s1, 0)
      | ReqLoc.queued blk =>
        some (updateBm s blk (fun b =>
          { b with queue := b.queue.map (fun r =>
              if r.serial == sn then { r with error := err, fFinished := true } else r) }), 0)
      | ReqLoc.plain =>
        let r := { r0 with error := err, fFinished := true }
        let s1 := { s with plain := s.plain.filter (fun q => q.serial != sn) }
        some (signalCompletion cb s1 [r] 0 none)

/-- `vhd_queue_read`'s span walk.  The triple is the final state, the return
value and whether the walk ran to completion (`false`: a span terminated it
through one of the `return cb(...)` error exits, which discard the
accumulated sum). -/
def vhdQueueReadGo : Nat → VhdState → Nat → Nat → Nat → Int →
    Option (VhdState × Int × Bool)
  | 0, s, sec, endd, _, acc =>
    if sec < endd then none else some (s, acc, true)
  | fuel + 1, s, sec, endd, id, acc =>
    if sec < endd then
      let remaining := endd - sec
      match readBitmapCache s sec false with
      | none => none
      | some (cls, s) =>
        match cls with
        | BmClass.einval =>
          some (logCb s errInval sec remaining id, cb errInval sec remaining id, false)
        | BmClass.batClear =>
          let n := min remaining (s.spb - sec % s.spb)
          let ret := cb BLK_NOT_ALLOCATED sec n id
          let s := logCb s BLK_NOT_ALLOCATED sec n id
          if ret = errBusy then
            some (logCb s errBusy (sec + n) (remaining - n) id,
                  cb errBusy (sec + n) (remaining - n) id, false)
          else vhdQueueReadGo fuel s (sec + n) endd id (acc + ret)
        | BmClass.bitClear =>
          match readBitmapCacheSpan s sec remaining false with
          | none => none
          | some n =>
            let ret := cb BLK_NOT_ALLOCATED sec n id
            let s := logCb s BLK_NOT_ALLOCATED sec n id
            if ret = errBusy then
              some (logCb s errBusy (sec + n) (remaining - n) id,
                    cb errBusy (sec + n) (remaining - n) id, false)
            else vhdQueueReadGo fuel s (sec + n) endd id (acc + ret)
        | BmClass.bitSet =>
          match readBitmapCacheSpan s sec remaining true with
          | none => none
          | some n =>
            match scheduleDataRead s sec n id with
            | SRes.crash => none
            | SRes.err e =>
              some (logCb s e sec remaining id, cb e sec remaining id, false)
            | SRes.ok s1 => vhdQueueReadGo fuel s1 (sec + n) endd id acc
        | BmClass.notCached =>
          let n := min remaining (s.spb - sec % s.spb)
          match scheduleBitmapRead s (sec / s.spb) with
          | SRes.crash => none
          | SRes.err e =>
            some (logCb s e sec remaining id, cb e sec remaining id, false)
          | SRes.ok s1 =>
            match queueRequest s1 VhdOp.dataRead sec n id with
            | SRes.crash => none
            | SRes.err e =>
              some (logCb s1 e sec remaining id, cb e sec remaining id, false)
            | SRes.ok s2 => vhdQueueReadGo fuel s2 (sec + n) endd id acc
        | BmClass.readPending =>
          let n := min remaining (s.spb - sec % s.spb)
          match queueRequest s VhdOp.dataRead sec n id with
          | SRes.crash => none
          | SRes.err e =>
            some (logCb s e sec remaining id, cb e sec remaining id, false)
          | SRes.ok s1 => vhdQueueReadGo fuel s1 (sec + n) endd id acc
        | BmClass.batLocked => none
    else some (s, acc, true)

/-- `vhd_queue_write`'s span walk; a normal completion returns 0. -/
def vhdQueueWriteGo : Nat → VhdState → Nat → Nat → Nat →
    Option (VhdState × Int × Bool)
  | 0, s, sec, endd, _ =>
    if sec < endd then none else some (s, 0, true)
  | fuel + 1, s, sec, endd, id =>
    if sec < endd then
      let remaining := endd - sec
      match readBitmapCache s sec true with
      | none => none
      | some (cls, s) =>
        match cls with
        | BmClass.einval =>
          some (logCb s errInval sec remaining id, cb errInval sec remaining id, false)
        | BmClass.batLocked =>
          some (logCb s errBusy sec remaining id, cb errBusy sec remaining id, false)
        | BmClass.batClear =>
          let n := min remaining (s.spb - sec % s.spb)
          match scheduleDataWrite s sec n true true id with
          | SRes.crash => none
          | SRes.err e =>
            some (logCb s e sec remaining id, cb e sec remaining id, false)
          | SRes.ok s1 => vhdQueueWriteGo fuel s1 (sec + n) endd id
        | BmClass.bitClear =>
          match readBitmapCacheSpan s sec remaining false with
          | none => none
          | some n =>
            match scheduleDataWrite s sec n false true id with
            | SRes.crash => none
            | SRes.err e =>
              some (logCb s e sec remaining id, cb e sec remaining id, false)
            | SRes.ok s1 => vhdQueueWriteGo fuel s1 (sec + n) endd id
        | BmClass.bitSet =>
          match readBitmapCacheSpan s sec remaining true with
          | none => none
          | some n =>
            match scheduleDataWrite s sec n false false id with
            | SRes.crash => none
            | SRes.err e =>
              some (logCb s e sec remaining id, cb e sec remaining id, false)
            | SRes.ok s1 => vhdQueueWriteGo fuel s1 (sec + n) endd id
        | BmClass.notCached =>
          let n := min remaining (s.spb - sec % s.spb)
          match scheduleBitmapRead s (sec / s.spb) with
          | SRes.crash => none
          | SRes.err e =>
            some (logCb s e sec remaining id, cb e sec remaining id, false)
          | SRes.ok s1 =>
            match queueRequest s1 VhdOp.dataWrite sec n id with
            | SRes.crash => none
            | SRes.err e =>
              some (logCb s1 e sec remaining id, cb e sec remaining id, false)
            | SRes.ok s2 => vhdQueueWriteGo fuel s2 (sec + n) endd id
        | BmClass.readPending =>
          let n := min remaining (s.spb - sec % s.spb)
          match queueRequest s VhdOp.dataWrite sec n id with
          | SRes.crash => none
          | SRes.err e =>
            some (logCb s e sec remaining id, cb e sec remaining id, false)
          | SRes.ok s1 => vhdQueueWriteGo fuel s1 (sec + n) endd id
    else some (s, 0, true)

/-- `vhd_queue_read(dd, sector, nr_sectors, ...)`.  `nr_sectors + 1` walk
iterations always suffice (every span advances by at least one sector). -/
def vhdQueueRead (s : VhdState) (sector nrSecs id : Nat) : Option (VhdState × Int × Bool) :=
  vhdQueueReadGo cb (nrSecs + 1) s sector (sector + nrSecs) id 0

/-- `vhd_queue_write(dd, sector, nr_sectors, ...)`. -/
def vhdQueueWrite (s : VhdState) (sector nrSecs id : Nat) : Option (VhdState × Int × Bool) :=
  vhdQueueWriteGo cb (nrSecs + 1) s sector (sector + nrSecs) id

/-- `finish_bitmap_read`: assert the bitmap cached and `READ_PENDING`; drain
`waiting` and clear the flag; on success install the read data, copy
`map → shadow` and resubmit every waiting request through the router; on
failure signal the waiting chain with the error stored in its first request
and return the bitmap to the free list — which fails the
`ASSERT(!bitmap_locked(bm))` inside `free_vhd_bitmap`, since the bitmap is
only unlocked afterwards. -/
def finishBitmapRead (s : VhdState) (blk _sn : Nat) (err : Int) (data : Nat → Bool) :
    Option (VhdState × Int) :=
  match getBitmap s blk with
  | none => none
  | some bm =>
    if !bm.readPending then none
    else
      let waiting := bm.waiting
      let s := updateBm s blk (fun b => { b with waiting := [], readPending := false })
      if err = 0 then
        let s := updateBm s blk (fun b => { b with map := data, shadow := data })
        let resubmitted := waiting.foldl (fun acc tmp =>
          match acc with
          | none => none
          | some (st, rsp) =>
            let st := { st with vreqFreeCount := st.vreqFreeCount + 1 }
            match tmp.op with
            | VhdOp.dataRead =>
              match vhdQueueRead cb st tmp.lsec tmp.nrSecs tmp.id with
              | none => none
              | some (st2, r, _) => some (st2, rsp + r)
            | VhdOp.dataWrite =>
              match vhdQueueWrite cb st tmp.lsec tmp.nrSecs tmp.id with
              | none => none
              | some (st2, r, _) => some (st2, rsp + r)
            | VhdOp.zeroBmWrite => none) (some (s, 0))
        match resubmitted with
        | none => none
        | some (s1, rsp) =>
          let s2 :=
            match getBitmap s1 blk with
            | none => s1
            | some b =>
              if !bitmapInUse b then updateBm s1 blk (fun x => { x with locked := false })
              else s1
          some (s2, rsp)
      else
        match waiting with
        | [] => none
        | r0 :: _ =>
          let p := signalCompletion cb s waiting r0.error none
          match getBitmap p.1 blk with
          | none => none
          | some b =>
            if b.locked then none
            else if bitmapInUse b then none
            else
              some ({ p.1 with
                      cache := p.1.cache.eraseP (fun x => x.blk == blk),
                      bmFreeCount := p.1.bmFreeCount + 1 }, p.2)

/-- `finish_bitmap_write`: assert the transaction closed, the bitmap valid
and a write pending; clear `WRITE_PENDING`; on failure roll `shadow` back to
`map`, on success commit `shadow` into `map`; then finish the bitmap
transaction. -/
def finishBitmapWrite (s : VhdState) (blk : Nat) (err : Int) : Option (VhdState × Int) :=
  match getBitmap s blk with
  | none => none
  | some bm =>
    if !(bm.tx.closed ∧ bitmapValid bm ∧ bm.writePending) then none
    else
      let s1 := updateBm s blk (fun b =>
        { b with
          writePending := false,
          map := if err ≠ 0 then b.map else b.shadow,
          shadow := if err ≠ 0 then b.map else b.shadow })
      finishBitmapTransaction cb txFuel s1 blk err

/-! ## The event loop -/

/-- An externally visible transition: a router entry point, or the delivery
of one asynchronous completion (`vhd_do_callbacks` sets `req->error` from
the result and dispatches on the op).  Completion events name the in-flight
I/O they complete; a bitmap-read completion carries the sectors read. -/
inductive VhdEvent where
  | queueRead (sector nrSecs id : Nat)
  | queueWrite (sector nrSecs id : Nat)
  | completeData (sn : Nat) (err : Int)
  | completeBitmapRead (blk sn : Nat) (err : Int) (data : Nat → Bool)
  | completeBitmapWrite (blk sn tag : Nat) (err : Int)
  | completeZeroBm (blk sn tag : Nat) (err : Int)
  | completeBatWrite (sn tag : Nat) (err : Int)

/-- One driver step.  `none` means the event is not enabled (no such
in-flight I/O), the code path fails an `ASSERT`, or it runs into undefined
behaviour. -/
def step (s : VhdState) : VhdEvent → Option VhdState
  | VhdEvent.queueRead sector n id =>
    (vhdQueueRead cb s sector n id).map (fun p => p.1)
  | VhdEvent.queueWrite sector n id =>
    (vhdQueueWrite cb s sector n id).map (fun p => p.1)
  | VhdEvent.completeData sn err =>
    if Inflight.data sn ∈ s.inflight then
      match findDataLoc s sn with
      | none => none
      | some (_, r) =>
        match r.op with
        | VhdOp.dataRead =>
          (finishDataRead cb { s with
            inflight := s.inflight.erase (Inflight.data sn),
            log := s.log ++ [LogEvent.complete IoKind.dataRead sn err] } sn err).map (·.1)
        | VhdOp.dataWrite =>
          (finishDataWrite cb { s with
            inflight := s.inflight.erase (Inflight.data sn),
            log := s.log ++ [LogEvent.complete IoKind.dataWrite sn err] } sn err).map (·.1)
        | VhdOp.zeroBmWrite => none
    else none
  | VhdEvent.completeBitmapRead blk sn err data =>
    if Inflight.bitmapRead blk sn ∈ s.inflight then
      (finishBitmapRead cb { s with
        inflight := s.inflight.erase (Inflight.bitmapRead blk sn),
        log := s.log ++ [LogEvent.complete IoKind.bitmapRead sn err] } blk sn err data).map (·.1)
    else none
  | VhdEvent.completeBitmapWrite blk sn tag err =>
    if Inflight.bitmapWrite blk sn tag ∈ s.inflight then
      (finishBitmapWrite cb { s with
        inflight := s.inflight.erase (Inflight.bitmapWrite blk sn tag),
        log := s.log ++ [LogEvent.complete IoKind.bitmapWrite sn err] } blk err).map (·.1)
    else none
  | VhdEvent.completeZeroBm blk sn tag err =>
    if Inflight.zeroBm blk sn tag ∈ s.inflight then
      (finishZeroBmWrite cb { s with
        inflight := s.inflight.erase (Inflight.zeroBm blk sn tag),
        log := s.log ++ [LogEvent.complete IoKind.zeroBmWrite sn err] } blk sn err).map (·.1)
    else none
  | VhdEvent.completeBatWrite sn tag err =>
    if Inflight.batWrite sn tag ∈ s.inflight then
      (finishBatWrite cb { s with
        inflight := s.inflight.erase (Inflight.batWrite sn tag),
        log := s.log ++ [LogEvent.complete IoKind.batWrite sn err] } err).map (·.1)
    else none

/-- The state right after `__vhd_open`: empty cache and pools, no pending
BAT write, empty log; `bat` is the table read from disk, and `max_bat_size`
its entry count. -/
def initState (t : HdType) (spb spp bmSecs : Nat) (bat : List Nat) (nextDb : Nat)
    (vreqs : Nat) : VhdState :=
  { hdType := t, spb := spb, spp := spp, bmSecs := bmSecs, maxBatSize := bat.length,
    nextDb := nextDb, bat := bat, batLocked := false, batWriteStarted := false,
    batReqTx := false, pbwBlk := 0, pbwOffset := 0, cache := [],
    bmFreeCount := VHD_CACHE_SIZE, bmLru := 0, vreqFreeCount := vreqs,
    plain := [], inflight := [], nextSerial := 1, nextTag := 1, log := [] }

/-- Reachability under the driver's step function. -/
inductive Reach : VhdState → VhdState → Prop where
  | refl (s : VhdState) : Reach s s
  | tail {s t u : VhdState} {e : VhdEvent} :
      Reach s t → step cb t e = some u → Reach s u

/-- Events in which no zero-bitmap write and no BAT write fails. -/
def VhdEvent.metaOk : VhdEvent → Prop
  | VhdEvent.completeZeroBm _ _ _ err => err = 0
  | VhdEvent.completeBatWrite _ _ err => err = 0
  | _ => True

/-- Reachability along executions in which every zero-bitmap write and every
BAT write completes successfully. -/
inductive ReachMetaOk : VhdState → VhdState → Prop where
  | refl (s : VhdState) : ReachMetaOk s s
  | tail {s t u : VhdState} {e : VhdEvent} :
      ReachMetaOk s t → e.metaOk → step cb t e = some u → ReachMetaOk s u

end Driver

instance : Inhabited VhdState := ⟨initState HdType.fixed 0 0 0 [] 0 0⟩

/-! ## Basic lemmas about the state operations -/

theorem find?_map_upd (l : List VhdBitmap) (blk : Nat) (f : VhdBitmap → VhdBitmap)
    (hf : ∀ b, (f b).blk = b.blk) :
    (l.map (fun bm => if bm.blk == blk then f bm else bm)).find? (fun bm => bm.blk == blk)
      = (l.find? (fun bm => bm.blk == blk)).map f := by
  induction l with
  | nil => rfl
  | cons b rest ih =>
    by_cases hb : b.blk = blk
    · have h1 : (b.blk == blk) = true := by simpa using hb
      have h2 : ((f b).blk == blk) = true := by simp [hf b, hb]
      rw [List.map_cons, if_pos h1]
      simp [List.find?_cons, h1, h2]
    · have h1 : (b.blk == blk) = false := by simpa using hb
      rw [List.map_cons, if_neg (by simp [h1])]
      simp only [List.find?_cons, h1, ih]

theorem find?_map_upd_other (l : List VhdBitmap) (blk blk' : Nat) (f : VhdBitmap → VhdBitmap)
    (hf : ∀ b, (f b).blk = b.blk) (hne : blk' ≠ blk) :
    (l.map (fun bm => if bm.blk == blk then f bm else bm)).find? (fun bm => bm.blk == blk')
      = l.find? (fun bm => bm.blk == blk') := by
  induction l with
  | nil => rfl
  | cons b rest ih =>
    by_cases hb : b.blk = blk
    · have h1 : (b.blk == blk) = true := by simpa using hb
      have h2 : ((f b).blk == blk') = false := by
        simp only [hf b, hb, beq_eq_false_iff_ne]
        omega
      have h3 : (b.blk == blk') = false := by
        simp only [beq_eq_false_iff_ne]
        omega
      rw [List.map_cons, if_pos h1]
      simp only [List.find?_cons, h2, h3, ih]
    · have h1 : (b.blk == blk) = false := by simpa using hb
      by_cases hq : b.blk = blk'
      · have h2 : (b.blk == blk') = true := by simpa using hq
        rw [List.map_cons, if_neg (by simp [h1])]
        simp only [List.find?_cons, h2]
      · have h2 : (b.blk == blk') = false := by simpa using hq
        rw [List.map_cons, if_neg (by simp [h1])]
        simp only [List.find?_cons, h2, ih]

theorem getBitmap_updateBm_self (s : VhdState) (blk : Nat) (f : VhdBitmap → VhdBitmap)
    (hf : ∀ b, (f b).blk = b.blk) :
    getBitmap (updateBm s blk f) blk = (getBitmap s blk).map f :=
  find?_map_upd s.cache blk f hf

theorem getBitmap_updateBm_other (s : VhdState) (blk blk' : Nat) (f : VhdBitmap → VhdBitmap)
    (hf : ∀ b, (f b).blk = b.blk) (hne : blk' ≠ blk) :
    getBitmap (updateBm s blk f) blk' = getBitmap s blk' :=
  find?_map_upd_other s.cache blk blk' f hf hne

/-- `signal_completion` in closed form: it frees every request, appends one
callback log entry per request, and returns the sum of the callback
returns. -/
theorem signalCompletion_eq (cb : Int → Nat → Nat → Nat → Int) (s : VhdState)
    (rs : List VhdRequest) (e : Int) (t : Option Nat) :
    signalCompletion cb s rs e t =
      ({ s with
         vreqFreeCount := s.vreqFreeCount + rs.length,
         log := s.log ++ rs.map (fun r =>
           LogEvent.callback (if e ≠ 0 then e else r.error) r.lsec r.nrSecs r.id t r.serial) },
       (rs.map (fun r => cb (if e ≠ 0 then e else r.error) r.lsec r.nrSecs r.id)).sum) := by
  have key : ∀ (rs : List VhdRequest) (s : VhdState) (a : Int),
      rs.foldl (fun (p : VhdState × Int) r =>
        let err := if e ≠ 0 then e else r.error
        ({ p.1 with
           vreqFreeCount := p.1.vreqFreeCount + 1,
           log := p.1.log ++ [LogEvent.callback err r.lsec r.nrSecs r.id t r.serial] },
         p.2 + cb err r.lsec r.nrSecs r.id)) (s, a) =
      ({ s with
         vreqFreeCount := s.vreqFreeCount + rs.length,
         log := s.log ++ rs.map (fun r =>
           LogEvent.callback (if e ≠ 0 then e else r.error) r.lsec r.nrSecs r.id t r.serial) },
       a + (rs.map (fun r => cb (if e ≠ 0 then e else r.error) r.lsec r.nrSecs r.id)).sum) := by
    intro rs
    induction rs with
    | nil => intro s a; simp
    | cons r rest ih =>
      intro s a
      rw [List.foldl_cons, ih]
      rw [Prod.ext_iff]
      refine ⟨?_, by simp; ring⟩
      rcases s with ⟨⟩
      simp only [List.map_cons, List.length_cons]
      congr 1
      · omega
      · simp
  unfold signalCompletion
  rw [key rs s 0]
  simp

/-! ## List index helpers -/

theorem getD_set_self : ∀ (l : List Nat) (i : Nat) (v : Nat), i < l.length →
    (l.set i v).getD i 0 = v
  | [], i, v, h => absurd h (by simp)
  | _ :: _, 0, v, _ => rfl
  | _ :: l, i + 1, v, h =>
    getD_set_self l i v (by simpa using h)

theorem getD_set_other : ∀ (l : List Nat) (i j : Nat) (v : Nat), i ≠ j →
    (l.set i v).getD j 0 = l.getD j 0
  | [], _, _, _, _ => rfl
  | _ :: _, 0, 0, v, h => absurd rfl h
  | _ :: _, 0, _ + 1, v, _ => rfl
  | _ :: _, _ + 1, 0, v, _ => rfl
  | _ :: l, i + 1, j + 1, v, h =>
    getD_set_other l i j v (by omega)

theorem getD_take : ∀ (l : List Nat) (n i : Nat), i < n →
    (l.take n).getD i 0 = l.getD i 0
  | [], n, i, _ => by simp
  | _ :: _, n + 1, 0, _ => rfl
  | _ :: l, n + 1, i + 1, h => getD_take l n i (by omega)

theorem getD_drop : ∀ (l : List Nat) (n i : Nat),
    (l.drop n).getD i 0 = l.getD (n + i) 0
  | [], n, i => by simp
  | _ :: _, 0, i => by simp
  | a :: l, n + 1, i => by
    show (l.drop n).getD i 0 = (a :: l).getD (n + 1 + i) 0
    have hidx : n + 1 + i = n + i + 1 := by omega
    rw [hidx]
    simp only [List.getD_cons_succ]
    exact getD_drop l n i

theorem flatten_map_be32_length : ∀ ws : List Nat,
    ((ws.map cpuToBe32).flatten).length = 4 * ws.length
  | [] => rfl
  | w :: ws => by
    simp only [List.map_cons, List.flatten_cons, List.length_append,
      flatten_map_be32_length ws, List.length_cons]
    simp [cpuToBe32]
    ring

/-- Decoding four big-endian bytes of entry `i` recovers the entry modulo
`2 ^ 32`. -/
theorem be32At_flatten_map : ∀ (ws : List Nat) (i : Nat), i < ws.length →
    be32At ((ws.map cpuToBe32).flatten) i = ws.getD i 0 % 2 ^ 32
  | [], i, h => absurd h (by simp)
  | w :: ws, 0, _ => by
    show be32At (cpuToBe32 w ++ (ws.map cpuToBe32).flatten) 0 = w % 2 ^ 32
    have e : be32At (cpuToBe32 w ++ (ws.map cpuToBe32).flatten) 0 =
        w / 16777216 % 256 * 16777216 + w / 65536 % 256 * 65536 +
          w / 256 % 256 * 256 + w % 256 := rfl
    have h32 : (2 : Nat) ^ 32 = 4294967296 := by norm_num
    rw [e, h32]
    omega
  | w :: ws, i + 1, h => by
    have hlen : (cpuToBe32 w).length = 4 := rfl
    have shift : ∀ j : Nat,
        (cpuToBe32 w ++ (ws.map cpuToBe32).flatten).getD (4 + j) 0 =
          ((ws.map cpuToBe32).flatten).getD j 0 := by
      intro j
      have := List.getD_append_right (cpuToBe32 w)
        ((ws.map cpuToBe32).flatten) 0 (4 + j) (by omega)
      simpa [hlen] using this
    show be32At (cpuToBe32 w ++ (ws.map cpuToBe32).flatten) (i + 1) = _
    have ihyp := be32At_flatten_map ws i (by simpa using h)
    unfold be32At at ihyp ⊢
    have a0 : 4 * (i + 1) = 4 + 4 * i := by ring
    rw [a0]
    have a1 : 4 + 4 * i + 1 = 4 + (4 * i + 1) := by omega
    have a2 : 4 + 4 * i + 2 = 4 + (4 * i + 2) := by omega
    have a3 : 4 + 4 * i + 3 = 4 + (4 * i + 3) := by omega
    rw [a1, a2, a3, shift, shift, shift, shift, ihyp]
    rfl

/-- A trivial caller callback used to instantiate theorems on concrete
states. -/
def cbZero : Int → Nat → Nat → Nat → Int := fun _ _ _ _ => 0

/-! ## C8: the BAT-write buffer -/

/-- C8: when a BAT write is scheduled for pending block `blk`, the buffer is
512 bytes long and equals the 128-entry in-memory BAT window starting at
index `blk - blk % 128` with the entry at position `blk % 128` replaced by
`pbw_offset` (a `u32` store), every entry converted to big-endian; the write
is enqueued at file offset `header.table_offset + (blk - blk % 128) * 4`,
and scheduling sets the `BAT_WRITE_STARTED` flag. -/
theorem scheduleBatWrite_buffer_spec (bat : List Nat) (blk off tableOffset : Nat)
    (hwin : blk - blk % 128 + 128 ≤ bat.length) :
    (scheduleBatWriteBuf bat blk off).length = 512 ∧
    (∀ i, i < 128 →
      be32At (scheduleBatWriteBuf bat blk off) i =
        (if i = blk % 128 then off else bat.getD (blk - blk % 128 + i) 0) % 2 ^ 32) ∧
    scheduleBatWriteOffset tableOffset blk = tableOffset + (blk - blk % 128) * 4 ∧
    (∀ (s s' : VhdState) (tag : Nat), scheduleBatWrite s tag = some s' →
      s'.batWriteStarted = true ∧
      s'.log = s.log ++ [LogEvent.issue IoKind.batWrite s.nextSerial (some tag)]) := by
  have hmod : blk % 128 < 128 := Nat.mod_lt _ (by norm_num)
  have hdroplen : (bat.drop (blk - blk % 128)).length = bat.length - (blk - blk % 128) := by
    simp
  have htakelen : ((bat.drop (blk - blk % 128)).take 128).length = 128 := by
    simp only [List.length_take, hdroplen]
    omega
  have hwinlen : (((bat.drop (blk - blk % 128)).take 128).set (blk % 128) off).length = 128 := by
    simp [htakelen]
  refine ⟨?_, ?_, rfl, ?_⟩
  · unfold scheduleBatWriteBuf
    rw [flatten_map_be32_length, hwinlen]
  · intro i hi
    unfold scheduleBatWriteBuf
    rw [be32At_flatten_map _ i (by rw [hwinlen]; exact hi)]
    by_cases hieq : i = blk % 128
    · subst hieq
      rw [getD_set_self _ _ _ (by rw [htakelen]; exact hmod), if_pos rfl]
    · rw [getD_set_other _ _ _ _ (fun he => hieq he.symm), if_neg hieq,
        getD_take _ _ _ hi, getD_drop]
  · intro s s' tag h
    unfold scheduleBatWrite at h
    by_cases hl : !s.batLocked
    · rw [if_pos hl] at h
      exact absurd h (by simp)
    · rw [if_neg hl] at h
      cases h
      exact ⟨rfl, rfl⟩

/-- Witness for the BAT-write buffer theorem on a concrete 128-entry BAT. -/
theorem scheduleBatWrite_buffer_spec_witness :
    (scheduleBatWriteBuf (List.replicate 128 DD_BLK_UNUSED) 5 77).length = 512 ∧
    (∀ i, i < 128 →
      be32At (scheduleBatWriteBuf (List.replicate 128 DD_BLK_UNUSED) 5 77) i =
        (if i = 5 % 128 then 77
         else (List.replicate 128 DD_BLK_UNUSED).getD (5 - 5 % 128 + i) 0) % 2 ^ 32) ∧
    scheduleBatWriteOffset 3 5 = 3 + (5 - 5 % 128) * 4 ∧
    (∀ (s s' : VhdState) (tag : Nat), scheduleBatWrite s tag = some s' →
      s'.batWriteStarted = true ∧
      s'.log = s.log ++ [LogEvent.issue IoKind.batWrite s.nextSerial (some tag)]) :=
  scheduleBatWrite_buffer_spec (List.replicate 128 DD_BLK_UNUSED) 5 77 3 (by simp)

/-! ## C5: the out-of-range check is off by one -/

/-- A dynamic disk with `max_bat_size = 2`: the in-memory BAT holds exactly
two entries. -/
def c5State : VhdState := initState HdType.dynamic 4 8 1 [5, DD_BLK_UNUSED] 11 16

/-- C5 (code bug): the range check in `read_bitmap_cache` is
`blk > max_bat_size`, so a sector in block `max_bat_size` is not classified
out-of-range; instead the code reads `bat.bat[max_bat_size]`, one entry past
the allocated array (undefined behaviour, `none` in the model), for reads
and writes alike.  Blocks strictly beyond `max_bat_size` do get the
`-EINVAL` classification. -/
theorem read_bitmap_cache_off_by_one :
    batEntry c5State 2 = none ∧
    readBitmapCache c5State (2 * 4) true = none ∧
    readBitmapCache c5State (2 * 4) false = none ∧
    readBitmapCache c5State (3 * 4) true = some (BmClass.einval, c5State) ∧
    readBitmapCache c5State (3 * 4) false = some (BmClass.einval, c5State) :=
  ⟨rfl, rfl, rfl, rfl, rfl⟩

/-! ## C7: BAT_LOCKED handling -/

/-- Reads are never classified `VHD_BM_BAT_LOCKED`: the classifier only
returns it for `VHD_OP_DATA_WRITE`. -/
theorem readBitmapCache_read_never_locked (s : VhdState) (sector : Nat)
    (out : BmClass × VhdState) (h : readBitmapCache s sector false = some out) :
    out.1 ≠ BmClass.batLocked := by
  unfold readBitmapCache at h
  by_cases hf : s.hdType = HdType.fixed
  · rw [if_pos hf] at h
    cases h
    simp
  · rw [if_neg hf] at h
    by_cases hr : sector / s.spb > s.maxBatSize
    · rw [if_pos hr] at h
      cases h
      simp
    · rw [if_neg hr] at h
      rcases hb : batEntry s (sector / s.spb) with _ | e
      · rw [hb] at h
        cases h
      · rw [hb] at h
        simp only at h
        by_cases he : e = DD_BLK_UNUSED
        · rw [if_pos he] at h
          rw [if_neg (by simp : ¬((false = true) ∧ s.pbwBlk ≠ sector / s.spb ∧
              s.batLocked = true))] at h
          cases h
          simp
        · rw [if_neg he] at h
          by_cases hd : s.hdType = HdType.dynamic
          · rw [if_pos hd] at h
            cases h
            simp
          · rw [if_neg hd] at h
            rcases hg : getBitmap s (sector / s.spb) with _ | bm
            · rw [hg] at h
              cases h
              simp
            · rw [hg] at h
              simp only at h
              by_cases hp : bm.readPending
              · rw [if_pos hp] at h
                cases h
                simp
              · rw [if_neg hp] at h
                by_cases hbit : bm.map (sector % s.spb)
                · rw [if_pos hbit] at h
                  cases h
                  simp
                · rw [if_neg hbit] at h
                  cases h
                  simp

/-- C7: a queued write whose current sector lies in a block with an UNUSED
BAT entry, while the BAT lock is held for a different block, makes the
router invoke the caller callback exactly once, with `-EBUSY` and covering
the whole remaining range, and return its value immediately; and reads are
never classified `BAT_LOCKED`. -/
theorem vhd_queue_write_bat_locked (cb : Int → Nat → Nat → Nat → Int) (fuel : Nat)
    (s : VhdState) (sec endd id : Nat)
    (hty : s.hdType ≠ HdType.fixed)
    (hrange : sec / s.spb ≤ s.maxBatSize)
    (hbat : batEntry s (sec / s.spb) = some DD_BLK_UNUSED)
    (hpbw : s.pbwBlk ≠ sec / s.spb)
    (hlock : s.batLocked = true)
    (hsec : sec < endd) :
    vhdQueueWriteGo cb (fuel + 1) s sec endd id =
      some (logCb s errBusy sec (endd - sec) id, cb errBusy sec (endd - sec) id, false) ∧
    (∀ (s' : VhdState) (sector : Nat) (out : BmClass × VhdState),
      readBitmapCache s' sector false = some out → out.1 ≠ BmClass.batLocked) := by
  have hcls : readBitmapCache s sec true = some (BmClass.batLocked, s) := by
    unfold readBitmapCache
    rw [if_neg hty, if_neg (by omega : ¬ sec / s.spb > s.maxBatSize), hbat]
    simp only
    rw [if_pos trivial, if_pos ⟨trivial, hpbw, hlock⟩]
  refine ⟨?_, readBitmapCache_read_never_locked⟩
  rw [vhdQueueWriteGo, if_pos hsec, hcls]

/-- The state of the witness below: a dynamic disk whose BAT lock is held
for block 1 while block 0 is unallocated. -/
def c7State : VhdState :=
  { initState HdType.dynamic 4 8 1 [DD_BLK_UNUSED, DD_BLK_UNUSED] 11 16 with
    batLocked := true, pbwBlk := 1, pbwOffset := 11 }

/-- Witness: the BAT_LOCKED write path evaluated on a concrete state. -/
theorem vhd_queue_write_bat_locked_witness :
    vhdQueueWriteGo cbZero 1 c7State 0 2 7 =
      some (logCb c7State errBusy 0 (2 - 0) 7, cbZero errBusy 0 (2 - 0) 7, false) :=
  (vhd_queue_write_bat_locked cbZero 0 c7State 0 2 7 (by decide) (by decide) rfl
    (by decide) rfl (by decide)).1

/-! ## C4: `finish_bat_write` -/

/-- The volume-state fields that the transaction-finishing routines never
touch: geometry, the BAT array, `next_db` and the BAT lock state. -/
def frameOf (s : VhdState) :
    HdType × Nat × Nat × Nat × Nat × List Nat × Nat × Bool × Bool × Nat × Nat :=
  (s.hdType, s.spb, s.spp, s.bmSecs, s.maxBatSize, s.bat, s.nextDb,
   s.batLocked, s.batWriteStarted, s.pbwBlk, s.pbwOffset)

theorem frameOf_touch (s : VhdState) (blk : Nat) :
    frameOf (touchBitmap s blk) = frameOf s := by
  unfold touchBitmap bitmapLruSeqno updateBm frameOf
  split <;> rfl

theorem frameOf_signal (cb : Int → Nat → Nat → Nat → Int) (s : VhdState)
    (rs : List VhdRequest) (e : Int) (t : Option Nat) :
    frameOf (signalCompletion cb s rs e t).1 = frameOf s := by
  rw [signalCompletion_eq]
  rfl

theorem frameOf_scheduleBitmapWrite {s s' : VhdState} {blk : Nat}
    (h : scheduleBitmapWrite s blk = SRes.ok s') : frameOf s' = frameOf s := by
  unfold scheduleBitmapWrite at h
  rcases hg : getBitmap s blk with _ | bm <;> rw [hg] at h
  · cases h
  · rcases hb : batEntry s blk with _ | off <;> rw [hb] at h
    · cases h
    · simp only at h
      by_cases h1 : s.hdType = HdType.fixed
      · rw [if_pos h1] at h; cases h
      · rw [if_neg h1] at h
        by_cases h2 : (!bitmapValid bm || bm.writePending) = true
        · rw [if_pos h2] at h; cases h
        · rw [if_neg h2] at h
          by_cases h3 : off = DD_BLK_UNUSED ∧ s.pbwBlk ≠ blk
          · rw [if_pos h3] at h; cases h
          · rw [if_neg h3] at h
            cases h
            exact frameOf_touch _ blk

/-- The transaction-finishing trio preserves the BAT, `next_db`, the lock
bits and the pending-allocation fields. -/
theorem trio_frameOf (cb : Int → Nat → Nat → Nat → Int) : ∀ fuel : Nat,
    (∀ s blk e out, finishBitmapTransaction cb fuel s blk e = some out →
      frameOf out.1 = frameOf s) ∧
    (∀ s blk out, startNewBitmapTransaction cb fuel s blk = some out →
      frameOf out.1 = frameOf s) ∧
    (∀ s blk out, finishDataTransaction cb fuel s blk = some out →
      frameOf out.1 = frameOf s) := by
  intro fuel
  induction fuel with
  | zero =>
    refine ⟨?_, ?_, ?_⟩ <;> intro s blk
    · intro e out h; cases h
    · intro out h; cases h
    · intro out h; cases h
  | succ n ih =>
    obtain ⟨ihF, ihS, ihD⟩ := ih
    have hBmt : ∀ s blk e out, finishBitmapTransaction cb (n + 1) s blk e = some out →
        frameOf out.1 = frameOf s := by
      intro s blk e out h
      simp only [finishBitmapTransaction] at h
      rcases hg : getBitmap s blk with _ | bm <;> rw [hg] at h
      · cases h
      · simp only [updateBm] at h
        by_cases hu : bm.tx.updateBat = true
        · rw [if_pos hu] at h
          by_cases hc : blk = s.pbwBlk ∧ s.batWriteStarted = true
          · rw [if_pos hc] at h
            cases h
            rfl
          · rw [if_neg hc] at h; cases h
        · rw [if_neg hu] at h
          rcases hsn : startNewBitmapTransaction cb n _ blk with _ | out2 <;> rw [hsn] at h
          · cases h
          · obtain ⟨s3, rsp2⟩ := out2
            simp only at h
            rcases hg2 : getBitmap s3 blk with _ | bm2 <;> rw [hg2] at h
            · cases h
            · simp only at h
              cases h
              have base := (ihS _ _ _ hsn).trans (frameOf_signal cb _ _ _ _)
              by_cases hb : (!bitmapInUse bm2) = true
              · rw [if_pos hb]
                exact base
              · rw [if_neg hb]
                exact base
    have hSnt : ∀ s blk out, startNewBitmapTransaction cb (n + 1) s blk = some out →
        frameOf out.1 = frameOf s := by
      intro s blk out h
      simp only [startNewBitmapTransaction] at h
      rcases hg : getBitmap s blk with _ | bm <;> rw [hg] at h
      · cases h
      · simp only [updateBm, batEntry] at h
        by_cases hq : bm.queue.isEmpty = true
        · rw [if_pos hq] at h
          cases h
          rfl
        · rw [if_neg hq] at h
          rcases hb : s.bat.get? blk with _ | e <;> rw [hb] at h
          · cases h
          · simp only at h
            by_cases he : e = DD_BLK_UNUSED
            · rw [if_pos he] at h
              cases h
              exact frameOf_signal cb _ _ _ _
            · rw [if_neg he] at h
              by_cases hcl : bm.tx.closed = true ∧ bm.queue.any (fun r => r.error == 0) = true
              · rw [if_pos hcl] at h; cases h
              · rw [if_neg hcl] at h
                by_cases hcomp : transactionCompleted
                    (promoteQueue s.hdType s.spb bm.queue bm.tx bm.shadow).1 = true
                · rw [if_pos hcomp] at h
                  rcases hfd : finishDataTransaction cb n _ blk with _ | out2 <;>
                    rw [hfd] at h
                  · cases h
                  · obtain ⟨s2, rsp⟩ := out2
                    simp only at h
                    cases h
                    exact (frameOf_signal cb _ _ _ _).trans (ihD _ _ _ hfd)
                · rw [if_neg hcomp] at h
                  simp only at h
                  cases h
                  exact frameOf_signal cb _ _ _ _
    have hFdt : ∀ s blk out, finishDataTransaction cb (n + 1) s blk = some out →
        frameOf out.1 = frameOf s := by
      intro s blk out h
      simp only [finishDataTransaction] at h
      rcases hg : getBitmap s blk with _ | bm <;> rw [hg] at h
      · cases h
      · simp only at h
        by_cases hc : bm.tx.error = 0 ∧ s.hdType = HdType.diff
        · rw [if_pos hc] at h
          rcases hw : scheduleBitmapWrite
              (updateBm s blk (fun b => { b with tx := { b.tx with closed := true } })) blk
            with _ | e | s2 <;> rw [hw] at h
          · cases h
          · cases h
          · cases h
            exact (frameOf_scheduleBitmapWrite hw).trans rfl
        · rw [if_neg hc] at h
          exact (ihF _ _ _ _ h).trans rfl
    exact ⟨hBmt, hSnt, hFdt⟩

/-- The `next_db` padding of `finish_bat_write` picks the least sector
number `v ≥ nd + spb + bm` with `(v + bm) % spp = 0`. -/
theorem nextDb_padding_least (nd spb bm spp : Nat) (hspp : 0 < spp) :
    nd + spb + bm ≤
      (if (nd + spb + bm + bm) % spp ≠ 0 then
        nd + spb + bm + (spp - (nd + spb + bm + bm) % spp)
      else nd + spb + bm) ∧
    ((if (nd + spb + bm + bm) % spp ≠ 0 then
        nd + spb + bm + (spp - (nd + spb + bm + bm) % spp)
      else nd + spb + bm) + bm) % spp = 0 ∧
    (∀ w, nd + spb + bm ≤ w → (w + bm) % spp = 0 →
      (if (nd + spb + bm + bm) % spp ≠ 0 then
        nd + spb + bm + (spp - (nd + spb + bm + bm) % spp)
      else nd + spb + bm) ≤ w) := by
  set base := nd + spb + bm with hbase
  by_cases h : (base + bm) % spp = 0
  · rw [if_neg (by simpa using h)]
    exact ⟨le_refl _, h, fun w hw _ => hw⟩
  · rw [if_pos (by simpa using h)]
    set r := (base + bm) % spp with hr
    have hrpos : 0 < r := Nat.pos_of_ne_zero h
    have hrlt : r < spp := Nat.mod_lt _ hspp
    have hq : spp * ((base + bm) / spp) + r = base + bm := Nat.div_add_mod _ _
    set q := (base + bm) / spp with hqd
    have hmul : spp * (q + 1) = spp * q + spp := by ring
    refine ⟨Nat.le_add_right _ _, ?_, ?_⟩
    · have : base + (spp - r) + bm = spp * (q + 1) := by omega
      rw [this]
      exact Nat.mul_mod_right _ _
    · intro w hw hwmod
      have hk : spp * ((w + bm) / spp) + (w + bm) % spp = w + bm := Nat.div_add_mod _ _
      rw [hwmod] at hk
      set k := (w + bm) / spp with hkd
      have hgt : spp * q < spp * k := by omega
      have hkq : q < k := Nat.lt_of_mul_lt_mul_left hgt
      have : spp * (q + 1) ≤ spp * k := Nat.mul_le_mul_left _ hkq
      omega

/-- C4: `finish_bat_write` with `error == 0` commits
`bat[pbw_blk] = pbw_offset` and advances `next_db` to the smallest
`v ≥ next_db + SPB + BM` with `(v + BM) mod SPP == 0`; with a nonzero error
it leaves the BAT and `next_db` unchanged (the entry stays `UNUSED`); in
both cases it releases the BAT lock and resets the pending-allocation state
(`pbw_blk`, `pbw_offset`, the status flags and `bat.req.tx`). -/
theorem finish_bat_write_spec (cb : Int → Nat → Nat → Nat → Int) (s : VhdState) (err : Int)
    (s' : VhdState) (rsp : Int)
    (h : finishBatWrite cb s err = some (s', rsp))
    (hspp : 0 < s.spp)
    (hoff : s.pbwOffset < 2 ^ 32)
    (hun : batEntry s s.pbwBlk = some DD_BLK_UNUSED) :
    (err = 0 → s'.bat = s.bat.set s.pbwBlk s.pbwOffset ∧
       s.nextDb + s.spb + s.bmSecs ≤ s'.nextDb ∧
       (s'.nextDb + s.bmSecs) % s.spp = 0 ∧
       (∀ w, s.nextDb + s.spb + s.bmSecs ≤ w → (w + s.bmSecs) % s.spp = 0 →
         s'.nextDb ≤ w)) ∧
    (err ≠ 0 → s'.bat = s.bat ∧ s'.nextDb = s.nextDb ∧
       s'.bat.get? s.pbwBlk = some DD_BLK_UNUSED) ∧
    s'.batLocked = false ∧ s'.batWriteStarted = false ∧ s'.batReqTx = false ∧
    s'.pbwBlk = 0 ∧ s'.pbwOffset = 0 := by
  unfold finishBatWrite at h
  rcases hg : getBitmap s s.pbwBlk with _ | bm <;> rw [hg] at h
  · cases h
  · simp only at h
    by_cases h1 : (!bitmapValid bm) = true
    · rw [if_pos h1] at h; cases h
    · rw [if_neg h1] at h
      by_cases h2 : (!(s.batLocked ∧ s.batWriteStarted)) = true
      · rw [if_pos h2] at h; cases h
      · rw [if_neg h2] at h
        by_cases h3 : (!bm.tx.live) = true
        · rw [if_pos h3] at h; cases h
        · rw [if_neg h3] at h
          by_cases he : err = 0
          · rw [if_pos he] at h
            set nd1 := s.nextDb + s.spb + s.bmSecs with hnd1
            set ndF := if (nd1 + s.bmSecs) % s.spp ≠ 0 then
              nd1 + (s.spp - (nd1 + s.bmSecs) % s.spp) else nd1 with hndF
            set s1 : VhdState :=
              { s with bat := s.bat.set s.pbwBlk (s.pbwOffset % 2 ^ 32), nextDb := ndF }
              with hs1
            set s2 := updateBm s1 s.pbwBlk
              (fun b => { b with tx := { b.tx with updateBat := false } }) with hs2
            have hfr2 : frameOf s2 = frameOf s1 := rfl
            by_cases hrt : s2.batReqTx = true
            · rw [if_pos hrt] at h
              rcases hfb : finishBitmapTransaction cb txFuel s2 s.pbwBlk err
                with _ | out3 <;> rw [hfb] at h
              · cases h
              · obtain ⟨s3, rsp3⟩ := out3
                simp only at h
                cases h
                have hfr : frameOf s3 = frameOf s1 :=
                  ((trio_frameOf cb txFuel).1 _ _ _ _ hfb).trans hfr2
                have hbat : s3.bat = s1.bat := congrArg (fun t => t.2.2.2.2.2.1) hfr
                have hnd : s3.nextDb = s1.nextDb := congrArg (fun t => t.2.2.2.2.2.2.1) hfr
                refine ⟨fun _ => ?_, fun hne => absurd he hne, rfl, rfl, rfl, rfl, rfl⟩
                have hoff4 : s.pbwOffset < 4294967296 := by omega
                have hb1 : s1.bat = s.bat.set s.pbwBlk s.pbwOffset := by
                  simp [hs1, Nat.mod_eq_of_lt hoff4]
                have hn1 : s1.nextDb = ndF := rfl
                refine ⟨by simp [hbat, hb1, Nat.mod_eq_of_lt hoff4], ?_, ?_, ?_⟩
                · rw [hnd, hn1, hndF]
                  exact (nextDb_padding_least s.nextDb s.spb s.bmSecs s.spp hspp).1
                · rw [hnd, hn1, hndF]
                  exact (nextDb_padding_least s.nextDb s.spb s.bmSecs s.spp hspp).2.1
                · intro w hw hwm
                  rw [hnd, hn1, hndF]
                  exact (nextDb_padding_least s.nextDb s.spb s.bmSecs s.spp hspp).2.2 w hw hwm
            · rw [if_neg hrt] at h
              simp only at h
              cases h
              refine ⟨fun _ => ?_, fun hne => absurd he hne, rfl, rfl, rfl, rfl, rfl⟩
              have hoff4 : s.pbwOffset < 4294967296 := by omega
              have hb1 : s1.bat = s.bat.set s.pbwBlk s.pbwOffset := by
                simp [hs1, Nat.mod_eq_of_lt hoff4]
              refine ⟨by simp [hs2, updateBm, hb1, Nat.mod_eq_of_lt hoff4], ?_, ?_, ?_⟩
              · exact (nextDb_padding_least s.nextDb s.spb s.bmSecs s.spp hspp).1
              · exact (nextDb_padding_least s.nextDb s.spb s.bmSecs s.spp hspp).2.1
              · exact (nextDb_padding_least s.nextDb s.spb s.bmSecs s.spp hspp).2.2
          · rw [if_neg he] at h
            set s1 := updateBm s s.pbwBlk
              (fun b => { b with tx := { b.tx with error := err } }) with hs1
            set s2 := updateBm s1 s.pbwBlk
              (fun b => { b with tx := { b.tx with updateBat := false } }) with hs2
            by_cases hrt : s2.batReqTx = true
            · rw [if_pos hrt] at h
              rcases hfb : finishBitmapTransaction cb txFuel s2 s.pbwBlk err
                with _ | out3 <;> rw [hfb] at h
              · cases h
              · obtain ⟨s3, rsp3⟩ := out3
                simp only at h
                cases h
                have hfr : frameOf s3 = frameOf s :=
                  ((trio_frameOf cb txFuel).1 _ _ _ _ hfb).trans rfl
                have hbat : s3.bat = s.bat := congrArg (fun t => t.2.2.2.2.2.1) hfr
                have hnd : s3.nextDb = s.nextDb := congrArg (fun t => t.2.2.2.2.2.2.1) hfr
                refine ⟨fun heq => absurd heq he, fun _ => ?_, rfl, rfl, rfl, rfl, rfl⟩
                refine ⟨hbat, hnd, ?_⟩
                rw [show (s3.bat.get? s.pbwBlk) = s.bat.get? s.pbwBlk from by rw [hbat]]
                exact hun
            · rw [if_neg hrt] at h
              simp only at h
              cases h
              refine ⟨fun heq => absurd heq he, fun _ => ?_, rfl, rfl, rfl, rfl, rfl⟩
              exact ⟨rfl, rfl, hun⟩

/-- A bitmap mid-allocation: transaction live with `TX_UPDATE_BAT`, all
members retired, the BAT write outstanding. -/
def c4Bitmap : VhdBitmap :=
  { blk := 0, seqno := 1, readPending := false, writePending := false, locked := true,
    map := fun _ => false, shadow := fun _ => false,
    tx := { tag := 1, error := 0, closed := false, started := 1, finished := 1,
            live := true, updateBat := true, requests := [] },
    queue := [], waiting := [] }

/-- A state in which a BAT write for block 0 (reserved at offset 5) is in
flight. -/
def c4State : VhdState :=
  { initState HdType.dynamic 4 8 1 [DD_BLK_UNUSED] 3 16 with
    batLocked := true, batWriteStarted := true, pbwBlk := 0, pbwOffset := 5,
    cache := [c4Bitmap] }

/-- The state `finish_bat_write` produces on `c4State` with error 0. -/
def c4Res : VhdState × Int := (finishBatWrite cbZero c4State 0).getD default

/-- Witness: `finish_bat_write` applied at the concrete state `c4State`. -/
theorem finish_bat_write_spec_witness :
    ((0 : Int) = 0 → c4Res.1.bat = c4State.bat.set c4State.pbwBlk c4State.pbwOffset ∧
       c4State.nextDb + c4State.spb + c4State.bmSecs ≤ c4Res.1.nextDb ∧
       (c4Res.1.nextDb + c4State.bmSecs) % c4State.spp = 0 ∧
       (∀ w, c4State.nextDb + c4State.spb + c4State.bmSecs ≤ w →
         (w + c4State.bmSecs) % c4State.spp = 0 → c4Res.1.nextDb ≤ w)) ∧
    ((0 : Int) ≠ 0 → c4Res.1.bat = c4State.bat ∧ c4Res.1.nextDb = c4State.nextDb ∧
       c4Res.1.bat.get? c4State.pbwBlk = some DD_BLK_UNUSED) ∧
    c4Res.1.batLocked = false ∧ c4Res.1.batWriteStarted = false ∧
    c4Res.1.batReqTx = false ∧ c4Res.1.pbwBlk = 0 ∧ c4Res.1.pbwOffset = 0 :=
  finish_bat_write_spec cbZero c4State 0 c4Res.1 c4Res.2 rfl (by decide) (by decide) rfl

/-! ## C10: promotion onto a block whose allocation failed -/

/-- C10: when the queued writes of a bitmap are promoted after the previous
transaction finished and the block's BAT entry is still `UNUSED`, every
queued request is completed with `-EIO` (one callback each), none of them
joins the new transaction (the transaction is untouched, the queue merely
cleared), no I/O is issued and no allocation is started. -/
theorem start_new_tx_unused_fails_queue (cb : Int → Nat → Nat → Nat → Int) (fuel : Nat)
    (s : VhdState) (blk : Nat) (bm : VhdBitmap) (s' : VhdState) (rsp : Int)
    (hg : getBitmap s blk = some bm)
    (hq : bm.queue.isEmpty = false)
    (hbat : s.bat.get? blk = some DD_BLK_UNUSED)
    (h : startNewBitmapTransaction cb (fuel + 1) s blk = some (s', rsp)) :
    s'.log = s.log ++ bm.queue.map (fun r =>
      LogEvent.callback errIO r.lsec r.nrSecs r.id none r.serial) ∧
    getBitmap s' blk = some { bm with queue := [] } ∧
    s'.inflight = s.inflight ∧
    s'.bat = s.bat ∧
    s'.batLocked = s.batLocked ∧ s'.batWriteStarted = s.batWriteStarted ∧
    s'.pbwBlk = s.pbwBlk ∧ s'.pbwOffset = s.pbwOffset := by
  simp only [startNewBitmapTransaction] at h
  rw [hg] at h
  simp only [updateBm, batEntry] at h
  rw [hq, hbat] at h
  simp only [Bool.false_eq_true, if_false, if_pos rfl] at h
  rw [signalCompletion_eq] at h
  cases h
  have herr : ∀ r : VhdRequest, (if errIO ≠ 0 then errIO else r.error) = errIO := by
    intro r
    rw [if_pos (by decide)]
  refine ⟨?_, ?_, rfl, rfl, rfl, rfl, rfl, rfl⟩
  · simp only [updateBm]
    simp [herr]
  · have h2 := find?_map_upd s.cache blk (fun b => { b with queue := [] }) (fun b => rfl)
    simp only [getBitmap] at hg ⊢
    rw [h2, hg]
    rfl

/-- A bitmap with one completed queued write, its earlier allocating
transaction already reset. -/
def c10Bitmap : VhdBitmap :=
  { blk := 0, seqno := 1, readPending := false, writePending := false, locked := true,
    map := fun _ => false, shadow := fun _ => false,
    tx := initTx 2,
    queue := [{ serial := 7, id := 3, error := 0, op := VhdOp.dataWrite, lsec := 1,
                nrSecs := 1, fUpdateBat := false, fUpdateBitmap := true, fQueued := true,
                fFinished := true }],
    waiting := [] }

/-- A state whose block 0 is unallocated (the BAT write failed) but still
has a queued write. -/
def c10State : VhdState :=
  { initState HdType.dynamic 4 8 1 [DD_BLK_UNUSED] 3 16 with cache := [c10Bitmap] }

/-- The result of promoting `c10State`'s queue. -/
def c10Res : VhdState × Int :=
  (startNewBitmapTransaction cbZero 1 c10State 0).getD default

/-- Witness: queue promotion onto the unallocated block 0 of `c10State`. -/
theorem start_new_tx_unused_fails_queue_witness :
    c10Res.1.log = c10State.log ++ c10Bitmap.queue.map (fun r =>
      LogEvent.callback errIO r.lsec r.nrSecs r.id none r.serial) ∧
    getBitmap c10Res.1 0 = some { c10Bitmap with queue := [] } ∧
    c10Res.1.inflight = c10State.inflight ∧
    c10Res.1.bat = c10State.bat ∧
    c10Res.1.batLocked = c10State.batLocked ∧
    c10Res.1.batWriteStarted = c10State.batWriteStarted ∧
    c10Res.1.pbwBlk = c10State.pbwBlk ∧ c10Res.1.pbwOffset = c10State.pbwOffset :=
  start_new_tx_unused_fails_queue cbZero 0 c10State 0 c10Bitmap c10Res.1 c10Res.2
    rfl rfl rfl rfl

/-! ## C9: a failed bitmap read trips the locked assertion -/

/-- A differencing disk whose block 0 is allocated at offset 5. -/
def c9Init : VhdState := initState HdType.diff 4 8 1 [5, DD_BLK_UNUSED] 11 16

/-- `c9Init` after a read of sector 0: the bitmap read for block 0 is in
flight and the data read waits on the bitmap. -/
def c9State : VhdState := (step cbZero c9Init (VhdEvent.queueRead 0 1 7)).getD default

/-- C9 (code bug): when the bitmap read completes with a nonzero error
while a request waits, the driver reaches `free_vhd_bitmap` with the bitmap
still LOCKED (`unlock_bitmap` only runs afterwards), so the
`ASSERT(!bitmap_locked(bm))` inside `free_vhd_bitmap` fails and the process
dies (`none` in the model) before the bitmap is returned to the free
list. -/
theorem finish_bitmap_read_error_asserts :
    step cbZero c9Init (VhdEvent.queueRead 0 1 7) = some c9State ∧
    Inflight.bitmapRead 0 1 ∈ c9State.inflight ∧
    (getBitmap c9State 0).map (fun b => (b.locked, b.readPending, b.waiting.length))
      = some (true, true, 1) ∧
    step cbZero c9State (VhdEvent.completeBitmapRead 0 1 errIO (fun _ => false)) = none :=
  ⟨rfl, by decide, rfl, rfl⟩

/-! ## C6: return values are the sums of synchronous callbacks -/

/-- Is the log event a caller-callback invocation? -/
def isCbEvt : LogEvent → Bool
  | LogEvent.callback _ _ _ _ _ _ => true
  | _ => false

/-- The value a logged caller-callback invocation returned (0 for
non-callback events). -/
def cbVal (cb : Int → Nat → Nat → Nat → Int) : LogEvent → Int
  | LogEvent.callback err l n id _ _ => cb err l n id
  | _ => 0

/-- Sum of the returns of the caller-callback invocations in a log
fragment. -/
def logCbSum (cb : Int → Nat → Nat → Nat → Int) (es : List LogEvent) : Int :=
  (es.map (cbVal cb)).sum

/-- `s'` extends `s`'s log without adding caller-callback entries. -/
def NoNewCb (s s' : VhdState) : Prop :=
  ∃ E, s'.log = s.log ++ E ∧ E.all (fun e => !isCbEvt e) = true

theorem noNewCb_refl (s : VhdState) : NoNewCb s s :=
  ⟨[], by simp, by simp⟩

theorem noNewCb_trans {s t u : VhdState} (h1 : NoNewCb s t) (h2 : NoNewCb t u) :
    NoNewCb s u := by
  obtain ⟨E1, hl1, hc1⟩ := h1
  obtain ⟨E2, hl2, hc2⟩ := h2
  refine ⟨E1 ++ E2, ?_, ?_⟩
  · rw [hl2, hl1, List.append_assoc]
  · simp only [List.all_append, hc1, hc2, Bool.and_self]

theorem noNewCb_of_log_eq {s t : VhdState} (h : t.log = s.log) : NoNewCb s t :=
  ⟨[], by simp [h], by simp⟩

theorem noNewCb_issue {s t : VhdState} (E : List LogEvent)
    (h : t.log = s.log ++ E) (hE : E.all (fun e => !isCbEvt e) = true) : NoNewCb s t :=
  ⟨E, h, hE⟩

theorem logCbSum_nil (cb : Int → Nat → Nat → Nat → Int) : logCbSum cb [] = 0 := rfl

theorem logCbSum_append (cb : Int → Nat → Nat → Nat → Int) (E1 E2 : List LogEvent) :
    logCbSum cb (E1 ++ E2) = logCbSum cb E1 + logCbSum cb E2 := by
  simp [logCbSum]

theorem logCbSum_noCb (cb : Int → Nat → Nat → Nat → Int) (E : List LogEvent)
    (hE : E.all (fun e => !isCbEvt e) = true) : logCbSum cb E = 0 := by
  induction E with
  | nil => rfl
  | cons e E ih =>
    simp only [List.all_cons, Bool.and_eq_true] at hE
    have : cbVal cb e = 0 := by
      cases e <;> simp_all [isCbEvt, cbVal]
    simp [logCbSum, this, ih hE.2]
    exact ih hE.2

theorem touchBitmap_log (s : VhdState) (blk : Nat) : (touchBitmap s blk).log = s.log := by
  unfold touchBitmap bitmapLruSeqno updateBm
  split <;> rfl

/-- The classifier only touches the LRU bookkeeping; the log is unchanged. -/
theorem readBitmapCache_log {s : VhdState} {sector : Nat} {w : Bool}
    {out : BmClass × VhdState} (h : readBitmapCache s sector w = some out) :
    out.2.log = s.log := by
  unfold readBitmapCache at h
  by_cases hf : s.hdType = HdType.fixed
  · rw [if_pos hf] at h; cases h; rfl
  · rw [if_neg hf] at h
    by_cases hr : sector / s.spb > s.maxBatSize
    · rw [if_pos hr] at h; cases h; rfl
    · rw [if_neg hr] at h
      rcases hb : batEntry s (sector / s.spb) with _ | e <;> rw [hb] at h
      · cases h
      · simp only at h
        by_cases he : e = DD_BLK_UNUSED
        · rw [if_pos he] at h
          by_cases hw : (w = true) ∧ s.pbwBlk ≠ sector / s.spb ∧ s.batLocked = true
          · rw [if_pos hw] at h; cases h; rfl
          · rw [if_neg hw] at h; cases h; rfl
        · rw [if_neg he] at h
          by_cases hd : s.hdType = HdType.dynamic
          · rw [if_pos hd] at h; cases h; rfl
          · rw [if_neg hd] at h
            rcases hg : getBitmap s (sector / s.spb) with _ | bm <;> rw [hg] at h
            · cases h; rfl
            · simp only at h
              by_cases hp : bm.readPending = true
              · rw [if_pos hp] at h; cases h; exact touchBitmap_log _ _
              · rw [if_neg hp] at h
                by_cases hbit : bm.map (sector % s.spb) = true
                · rw [if_pos hbit] at h; cases h; exact touchBitmap_log _ _
                · rw [if_neg hbit] at h; cases h; exact touchBitmap_log _ _

theorem allocVhdRequest_log {s : VhdState} {p : VhdRequest × VhdState}
    (h : allocVhdRequest s = some p) : p.2.log = s.log := by
  unfold allocVhdRequest at h
  split at h
  · cases h; rfl
  · cases h

theorem allocVhdBitmap_log {s : VhdState} {blk : Nat} {p : VhdBitmap × VhdState}
    (h : allocVhdBitmap s blk = SRes.ok p) : p.2.log = s.log := by
  unfold allocVhdBitmap freshTag at h
  split at h
  · cases h; rfl
  · split at h
    · cases h
    · split at h
      · cases h
      · cases h; rfl

theorem installBitmap_log {s : VhdState} {bm : VhdBitmap} {s' : VhdState}
    (h : installBitmap s bm = some s') : s'.log = s.log := by
  unfold installBitmap bitmapLruSeqno at h
  split at h
  · split at h <;> (cases h; rfl)
  · cases h

theorem reserveNewBlock_log {s : VhdState} {blk : Nat} {s' : VhdState}
    (h : reserveNewBlock s blk = some s') : s'.log = s.log := by
  unfold reserveNewBlock at h
  split at h
  · cases h
  · cases h; rfl

theorem scheduleZeroBmWrite_log {s s' : VhdState}
    (h : scheduleZeroBmWrite s = some s') : NoNewCb s s' := by
  unfold scheduleZeroBmWrite at h
  rcases hg : getBitmap s s.pbwBlk with _ | bm <;> rw [hg] at h
  · cases h
  · simp only at h
    by_cases hc : bm.tx.closed = true
    · rw [if_pos hc] at h; cases h
    · rw [if_neg hc] at h
      cases h
      refine noNewCb_issue [LogEvent.issue IoKind.zeroBmWrite s.nextSerial (some bm.tx.tag)]
        ?_ (by simp [isCbEvt])
      simp [updateBm]

theorem updateBat_noNewCb {s : VhdState} {blk : Nat} {s' : VhdState}
    (h : updateBat s blk = SRes.ok s') : NoNewCb s s' := by
  unfold updateBat at h
  rcases hb : batEntry s blk with _ | e <;> rw [hb] at h
  · cases h
  · simp only at h
    by_cases he : e ≠ DD_BLK_UNUSED
    · rw [if_pos he] at h; cases h
    · rw [if_neg he] at h
      by_cases hl : s.batLocked = true
      · rw [if_pos hl] at h
        by_cases hp : s.pbwBlk = blk
        · rw [if_pos hp] at h; cases h; exact noNewCb_refl s
        · rw [if_neg hp] at h; cases h
      · rw [if_neg hl] at h
        rcases hg : getBitmap s blk with _ | bm <;> rw [hg] at h
        · rcases ha : allocVhdBitmap s blk with _ | _ | p <;> rw [ha] at h <;>
            simp only [SRes.bind] at h
          · cases h
          · cases h
          · rcases hi : installBitmap p.2 p.1 with _ | s2 <;> rw [hi] at h
            · cases h
            · simp only at h
              rcases hrn : reserveNewBlock s2 blk with _ | s3 <;> rw [hrn] at h
              · cases h
              · simp only at h
                rcases hz : scheduleZeroBmWrite s3 with _ | s4 <;> rw [hz] at h
                · cases h
                · cases h
                  have h1 : NoNewCb s s2 := noNewCb_of_log_eq
                    ((installBitmap_log hi).trans (allocVhdBitmap_log ha))
                  have h2 : NoNewCb s2 s3 := noNewCb_of_log_eq (reserveNewBlock_log hrn)
                  have h3 : NoNewCb s3 s4 := scheduleZeroBmWrite_log hz
                  have h4 : NoNewCb s4 (updateBm s4 blk
                    (fun b => { b with tx := { b.tx with updateBat := true } })) :=
                    noNewCb_of_log_eq rfl
                  exact noNewCb_trans (noNewCb_trans (noNewCb_trans h1 h2) h3) h4
        · simp only [SRes.bind] at h
          rcases hrn : reserveNewBlock s blk with _ | s3 <;> rw [hrn] at h
          · cases h
          · simp only at h
            rcases hz : scheduleZeroBmWrite s3 with _ | s4 <;> rw [hz] at h
            · cases h
            · cases h
              have h2 : NoNewCb s s3 := noNewCb_of_log_eq (reserveNewBlock_log hrn)
              have h3 : NoNewCb s3 s4 := scheduleZeroBmWrite_log hz
              have h4 : NoNewCb s4 (updateBm s4 blk
                (fun b => { b with tx := { b.tx with updateBat := true } })) :=
                noNewCb_of_log_eq rfl
              exact noNewCb_trans (noNewCb_trans h2 h3) h4

theorem scheduleDataRead_noNewCb {s : VhdState} {sector nrSecs id : Nat} {s' : VhdState}
    (h : scheduleDataRead s sector nrSecs id = SRes.ok s') : NoNewCb s s' := by
  unfold scheduleDataRead at h
  simp only [SRes.bind] at h
  split at h
  · cases h
  · cases h
  · rcases hp : allocVhdRequest s with _ | ⟨r0, s1⟩ <;> rw [hp] at h
    · cases h
    · simp only at h
      cases h
      refine noNewCb_issue [LogEvent.issue IoKind.dataRead r0.serial none] ?_
        (by simp [isCbEvt])
      show s1.log ++ [LogEvent.issue IoKind.dataRead r0.serial none]
        = s.log ++ [LogEvent.issue IoKind.dataRead r0.serial none]
      rw [show s1.log = s.log from allocVhdRequest_log hp]

theorem scheduleDataWrite_noNewCb {s : VhdState} {sector nrSecs : Nat} {fB fM : Bool}
    {id : Nat} {s' : VhdState}
    (h : scheduleDataWrite s sector nrSecs fB fM id = SRes.ok s') : NoNewCb s s' := by
  unfold scheduleDataWrite at h
  simp only [SRes.bind] at h
  split at h
  · cases h
  · cases h
  · rename_i s1 hs1
    have h1 : NoNewCb s s1 := by
      split at hs1
      · cases hs1; exact noNewCb_refl s
      · split at hs1
        · cases hs1
        · split at hs1
          · exact updateBat_noNewCb hs1
          · cases hs1; exact noNewCb_refl s
    simp only at h
    rcases hp : allocVhdRequest s1 with _ | ⟨r0, s2⟩ <;> rw [hp] at h
    · cases h
    · simp only at h
      have hlp : s2.log = s1.log := allocVhdRequest_log hp
      by_cases hfm : fM = true
      · rw [if_pos hfm] at h
        rcases hbm : getBitmap s2 (sector / s.spb) with _ | bm <;> rw [hbm] at h
        · cases h
        · simp only at h
          by_cases hv : (!bitmapValid bm) = true
          · rw [if_pos hv] at h; cases h
          · rw [if_neg hv] at h
            by_cases hcl : bm.tx.closed = true
            · rw [if_pos hcl] at h
              cases h
              refine noNewCb_trans h1 (noNewCb_issue
                [LogEvent.issue IoKind.dataWrite r0.serial none] ?_ (by simp [isCbEvt]))
              show (updateBm s2 (sector / s.spb) _).log ++ _ = s1.log ++ _
              rw [show ∀ f, (updateBm s2 (sector / s.spb) f).log = s2.log
                from fun f => rfl, hlp]
            · rw [if_neg hcl] at h
              cases h
              refine noNewCb_trans h1 (noNewCb_issue
                [LogEvent.issue IoKind.dataWrite r0.serial (some bm.tx.tag)] ?_
                (by simp [isCbEvt]))
              show (updateBm s2 (sector / s.spb) _).log ++ _ = s1.log ++ _
              rw [show ∀ f, (updateBm s2 (sector / s.spb) f).log = s2.log
                from fun f => rfl, hlp]
      · rw [if_neg hfm] at h
        cases h
        refine noNewCb_trans h1 (noNewCb_issue
          [LogEvent.issue IoKind.dataWrite r0.serial none] ?_ (by simp [isCbEvt]))
        show s2.log ++ _ = s1.log ++ _
        rw [hlp]

theorem scheduleBitmapRead_noNewCb {s : VhdState} {blk : Nat} {s' : VhdState}
    (h : scheduleBitmapRead s blk = SRes.ok s') : NoNewCb s s' := by
  unfold scheduleBitmapRead at h
  by_cases hf : s.hdType = HdType.fixed
  · rw [if_pos hf] at h; cases h
  · rw [if_neg hf] at h
    rcases hb : batEntry s blk with _ | off <;> rw [hb] at h
    · cases h
    · simp only at h
      by_cases hu : off = DD_BLK_UNUSED
      · rw [if_pos hu] at h; cases h
      · rw [if_neg hu] at h
        rcases hg : getBitmap s blk with _ | bm <;> rw [hg] at h
        · simp only [SRes.bind] at h
          rcases ha : allocVhdBitmap s blk with _ | _ | p <;> rw [ha] at h
          · cases h
          · cases h
          · simp only at h
            rcases hi : installBitmap { p.2 with nextSerial := p.2.nextSerial + 1 }
              { p.1 with locked := true, readPending := true } with _ | s2 <;> rw [hi] at h
            · cases h
            · simp only at h
              cases h
              refine noNewCb_issue [LogEvent.issue IoKind.bitmapRead p.2.nextSerial none] ?_
                (by simp [isCbEvt])
              show s2.log ++ _ = s.log ++ _
              rw [installBitmap_log hi]
              show p.2.log ++ _ = s.log ++ _
              rw [allocVhdBitmap_log ha]
        · cases h

theorem queueRequest_log {s : VhdState} {op : VhdOp} {sector nrSecs id : Nat} {s' : VhdState}
    (h : queueRequest s op sector nrSecs id = SRes.ok s') : NoNewCb s s' := by
  unfold queueRequest at h
  by_cases hf : s.hdType = HdType.fixed
  · rw [if_pos hf] at h; cases h
  · rw [if_neg hf] at h
    simp only at h
    rcases hg : getBitmap s (sector / s.spb) with _ | bm <;> rw [hg] at h
    · cases h
    · simp only at h
      by_cases hp : (!bm.readPending) = true
      · rw [if_pos hp] at h; cases h
      · rw [if_neg hp] at h
        rcases ha : allocVhdRequest s with _ | ⟨r0, s1⟩ <;> rw [ha] at h
        · cases h
        · simp only at h
          cases h
          refine noNewCb_of_log_eq ?_
          show s1.log = s.log
          exact allocVhdRequest_log ha

theorem logCbSum_cons (cb : Int → Nat → Nat → Nat → Int) (e : LogEvent) (E : List LogEvent) :
    logCbSum cb (e :: E) = cbVal cb e + logCbSum cb E := by
  simp [logCbSum]

/-- Induction invariant of the read walk: a normally-completed walk returns
the accumulator plus the sum of the caller callbacks it appended. -/
def ReadGoSumIH (cb : Int → Nat → Nat → Nat → Int) (fuel : Nat) : Prop :=
  ∀ s sec endd id acc s' ret,
    vhdQueueReadGo cb fuel s sec endd id acc = some (s', ret, true) →
    ∃ E, s'.log = s.log ++ E ∧ ret = acc + logCbSum cb E

/-- Induction invariant of the write walk: a normally-completed walk returns
0 and appends no caller callbacks. -/
def WriteGoSumIH (cb : Int → Nat → Nat → Nat → Int) (fuel : Nat) : Prop :=
  ∀ s sec endd id s' ret,
    vhdQueueWriteGo cb fuel s sec endd id = some (s', ret, true) →
    NoNewCb s s' ∧ ret = 0

theorem go_sum_cb_step (cb : Int → Nat → Nat → Nat → Int) {fuel : Nat} {s2 : VhdState}
    {sec n endd id : Nat} {acc : Int} {s' : VhdState} {ret : Int}
    (ih : ReadGoSumIH cb fuel)
    (h : vhdQueueReadGo cb fuel (logCb s2 BLK_NOT_ALLOCATED sec n id) (sec + n) endd id
          (acc + cb BLK_NOT_ALLOCATED sec n id) = some (s', ret, true)) :
    ∃ E, s'.log = s2.log ++ E ∧ ret = acc + logCbSum cb E := by
  obtain ⟨E2, hlog2, hret2⟩ := ih _ _ _ _ _ _ _ h
  refine ⟨LogEvent.callback BLK_NOT_ALLOCATED sec n id none 0 :: E2, ?_, ?_⟩
  · rw [hlog2]
    show (s2.log ++ [LogEvent.callback BLK_NOT_ALLOCATED sec n id none 0]) ++ E2 = _
    simp
  · rw [hret2, logCbSum_cons]
    show _ = acc + (cb BLK_NOT_ALLOCATED sec n id + logCbSum cb E2)
    ring

theorem go_sum_noise_step (cb : Int → Nat → Nat → Nat → Int) {fuel : Nat} {s2 s1 : VhdState}
    {sec2 endd id : Nat} {acc : Int} {s' : VhdState} {ret : Int}
    (ih : ReadGoSumIH cb fuel) (hn : NoNewCb s2 s1)
    (h : vhdQueueReadGo cb fuel s1 sec2 endd id acc = some (s', ret, true)) :
    ∃ E, s'.log = s2.log ++ E ∧ ret = acc + logCbSum cb E := by
  obtain ⟨En, hl, hc⟩ := hn
  obtain ⟨E2, hlog2, hret2⟩ := ih _ _ _ _ _ _ _ h
  refine ⟨En ++ E2, ?_, ?_⟩
  · rw [hlog2, hl, List.append_assoc]
  · rw [hret2, logCbSum_append, logCbSum_noCb cb En hc]
    ring

theorem vhdQueueReadGo_sum (cb : Int → Nat → Nat → Nat → Int) :
    ∀ fuel, ReadGoSumIH cb fuel := by
  intro fuel
  induction fuel with
  | zero =>
    intro s sec endd id acc s' ret h
    simp only [vhdQueueReadGo] at h
    by_cases hlt : sec < endd
    · rw [if_pos hlt] at h; cases h
    · rw [if_neg hlt] at h
      simp only [Option.some.injEq, Prod.mk.injEq] at h
      obtain ⟨hs, hr, -⟩ := h
      exact ⟨[], by rw [← hs]; simp, by rw [← hr, logCbSum_nil, add_zero]⟩
  | succ fuel ih =>
    intro s sec endd id acc s' ret h
    simp only [vhdQueueReadGo] at h
    by_cases hlt : sec < endd
    swap
    · rw [if_neg hlt] at h
      simp only [Option.some.injEq, Prod.mk.injEq] at h
      obtain ⟨hs, hr, -⟩ := h
      exact ⟨[], by rw [← hs]; simp, by rw [← hr, logCbSum_nil, add_zero]⟩
    rw [if_pos hlt] at h
    rcases hrb : readBitmapCache s sec false with _ | p <;> rw [hrb] at h
    · cases h
    obtain ⟨cls, s2⟩ := p
    have hs2 : s2.log = s.log := readBitmapCache_log hrb
    simp only at h
    cases cls with
    | einval => simp at h
    | batLocked => cases h
    | batClear =>
      by_cases hbusy : cb BLK_NOT_ALLOCATED sec (min (endd - sec) (s2.spb - sec % s2.spb)) id
          = errBusy
      · rw [if_pos hbusy] at h; simp at h
      · rw [if_neg hbusy] at h
        obtain ⟨E, hl, hr⟩ := go_sum_cb_step cb ih h
        exact ⟨E, by rw [hl, hs2], hr⟩
    | bitClear =>
      rcases hsp : readBitmapCacheSpan s2 sec (endd - sec) false with _ | n <;> rw [hsp] at h
      · cases h
      simp only at h
      by_cases hbusy : cb BLK_NOT_ALLOCATED sec n id = errBusy
      · rw [if_pos hbusy] at h; simp at h
      · rw [if_neg hbusy] at h
        obtain ⟨E, hl, hr⟩ := go_sum_cb_step cb ih h
        exact ⟨E, by rw [hl, hs2], hr⟩
    | bitSet =>
      rcases hsp : readBitmapCacheSpan s2 sec (endd - sec) true with _ | n <;> rw [hsp] at h
      · cases h
      simp only at h
      rcases hsd : scheduleDataRead s2 sec n id with _ | e | s1 <;> rw [hsd] at h
      · cases h
      · simp at h
      · simp only at h
        obtain ⟨E, hl, hr⟩ := go_sum_noise_step cb ih (scheduleDataRead_noNewCb hsd) h
        exact ⟨E, by rw [hl, hs2], hr⟩
    | notCached =>
      rcases hsb : scheduleBitmapRead s2 (sec / s2.spb) with _ | e | s1 <;> rw [hsb] at h
      · cases h
      · simp at h
      · simp only at h
        rcases hq : queueRequest s1 VhdOp.dataRead sec
            (min (endd - sec) (s2.spb - sec % s2.spb)) id with _ | e | s3 <;> rw [hq] at h
        · cases h
        · simp at h
        · simp only at h
          obtain ⟨E, hl, hr⟩ := go_sum_noise_step cb ih
            (noNewCb_trans (scheduleBitmapRead_noNewCb hsb) (queueRequest_log hq)) h
          exact ⟨E, by rw [hl, hs2], hr⟩
    | readPending =>
      rcases hq : queueRequest s2 VhdOp.dataRead sec
          (min (endd - sec) (s2.spb - sec % s2.spb)) id with _ | e | s1 <;> rw [hq] at h
      · cases h
      · simp at h
      · simp only at h
        obtain ⟨E, hl, hr⟩ := go_sum_noise_step cb ih (queueRequest_log hq) h
        exact ⟨E, by rw [hl, hs2], hr⟩

theorem vhdQueueWriteGo_sum (cb : Int → Nat → Nat → Nat → Int) :
    ∀ fuel, WriteGoSumIH cb fuel := by
  intro fuel
  induction fuel with
  | zero =>
    intro s sec endd id s' ret h
    simp only [vhdQueueWriteGo] at h
    by_cases hlt : sec < endd
    · rw [if_pos hlt] at h; cases h
    · rw [if_neg hlt] at h
      simp only [Option.some.injEq, Prod.mk.injEq] at h
      obtain ⟨hs, hr, -⟩ := h
      exact ⟨noNewCb_of_log_eq (by rw [← hs]), hr.symm⟩
  | succ fuel ih =>
    intro s sec endd id s' ret h
    simp only [vhdQueueWriteGo] at h
    by_cases hlt : sec < endd
    swap
    · rw [if_neg hlt] at h
      simp only [Option.some.injEq, Prod.mk.injEq] at h
      obtain ⟨hs, hr, -⟩ := h
      exact ⟨noNewCb_of_log_eq (by rw [← hs]), hr.symm⟩
    rw [if_pos hlt] at h
    rcases hrb : readBitmapCache s sec true with _ | p <;> rw [hrb] at h
    · cases h
    obtain ⟨cls, s2⟩ := p
    have hs2 : NoNewCb s s2 := noNewCb_of_log_eq (readBitmapCache_log hrb)
    simp only at h
    cases cls with
    | einval => simp at h
    | batLocked => simp at h
    | batClear =>
      rcases hsd : scheduleDataWrite s2 sec (min (endd - sec) (s2.spb - sec % s2.spb))
          true true id with _ | e | s1 <;> rw [hsd] at h
      · cases h
      · simp at h
      · simp only at h
        obtain ⟨hn, hr⟩ := ih _ _ _ _ _ _ h
        exact ⟨noNewCb_trans hs2 (noNewCb_trans (scheduleDataWrite_noNewCb hsd) hn), hr⟩
    | bitClear =>
      rcases hsp : readBitmapCacheSpan s2 sec (endd - sec) false with _ | n <;> rw [hsp] at h
      · cases h
      simp only at h
      rcases hsd : scheduleDataWrite s2 sec n false true id with _ | e | s1 <;> rw [hsd] at h
      · cases h
      · simp at h
      · simp only at h
        obtain ⟨hn, hr⟩ := ih _ _ _ _ _ _ h
        exact ⟨noNewCb_trans hs2 (noNewCb_trans (scheduleDataWrite_noNewCb hsd) hn), hr⟩
    | bitSet =>
      rcases hsp : readBitmapCacheSpan s2 sec (endd - sec) true with _ | n <;> rw [hsp] at h
      · cases h
      simp only at h
      rcases hsd : scheduleDataWrite s2 sec n false false id with _ | e | s1 <;> rw [hsd] at h
      · cases h
      · simp at h
      · simp only at h
        obtain ⟨hn, hr⟩ := ih _ _ _ _ _ _ h
        exact ⟨noNewCb_trans hs2 (noNewCb_trans (scheduleDataWrite_noNewCb hsd) hn), hr⟩
    | notCached =>
      rcases hsb : scheduleBitmapRead s2 (sec / s2.spb) with _ | e | s1 <;> rw [hsb] at h
      · cases h
      · simp at h
      · simp only at h
        rcases hq : queueRequest s1 VhdOp.dataWrite sec
            (min (endd - sec) (s2.spb - sec % s2.spb)) id with _ | e | s3 <;> rw [hq] at h
        · cases h
        · simp at h
        · simp only at h
          obtain ⟨hn, hr⟩ := ih _ _ _ _ _ _ h
          exact ⟨noNewCb_trans hs2 (noNewCb_trans (scheduleBitmapRead_noNewCb hsb)
            (noNewCb_trans (queueRequest_log hq) hn)), hr⟩
    | readPending =>
      rcases hq : queueRequest s2 VhdOp.dataWrite sec
          (min (endd - sec) (s2.spb - sec % s2.spb)) id with _ | e | s1 <;> rw [hq] at h
      · cases h
      · simp at h
      · simp only at h
        obtain ⟨hn, hr⟩ := ih _ _ _ _ _ _ h
        exact ⟨noNewCb_trans hs2 (noNewCb_trans (queueRequest_log hq) hn), hr⟩

/-- **C6.**  For every `vhd_queue_read` and every `vhd_queue_write` call whose
span walk runs to completion (no span terminated it through one of the error
exits, the walk's third component `true`), the value the call returns equals
the sum of the returns of the synchronous caller-callback invocations made
during the call — the callback entries the call appended to the
instrumentation log. -/
theorem vhd_queue_return_is_callback_sum (cb : Int → Nat → Nat → Nat → Int)
    (s : VhdState) (sector nrSecs id : Nat) (s' : VhdState) (ret : Int)
    (h : vhdQueueRead cb s sector nrSecs id = some (s', ret, true) ∨
         vhdQueueWrite cb s sector nrSecs id = some (s', ret, true)) :
    ret = logCbSum cb (s'.log.drop s.log.length) := by
  rcases h with h | h
  · unfold vhdQueueRead at h
    obtain ⟨E, hl, hr⟩ := vhdQueueReadGo_sum cb (nrSecs + 1) s sector (sector + nrSecs) id 0
      s' ret h
    rw [hl, List.drop_left, hr, zero_add]
  · unfold vhdQueueWrite at h
    obtain ⟨hn, hr⟩ := vhdQueueWriteGo_sum cb (nrSecs + 1) s sector (sector + nrSecs) id
      s' ret h
    obtain ⟨E, hl, hc⟩ := hn
    rw [hl, List.drop_left, logCbSum_noCb cb E hc, hr]

/-- A concrete run for the witness: the identity-on-error callback, a
differencing disk with one unallocated block, and a two-sector read
(`VHD_BM_BAT_CLEAR` span, one synchronous callback returning -99). -/
def c6Cb : Int → Nat → Nat → Nat → Int := fun e _ _ _ => e

def c6S : VhdState := initState HdType.diff 4 8 1 [DD_BLK_UNUSED] 3 16

def c6Res : VhdState × Int × Bool := (vhdQueueRead c6Cb c6S 0 2 5).getD default

theorem vhd_queue_return_is_callback_sum_witness :
    c6Res.2.1 = logCbSum c6Cb (c6Res.1.log.drop c6S.log.length) :=
  vhd_queue_return_is_callback_sum c6Cb c6S 0 2 5 c6Res.1 c6Res.2.1 (Or.inl (by rfl))

/-! ## C1, C2, C3: the transaction-ordering development -/

/-- The I/O kind matching a request's op code. -/
def opKind : VhdOp → IoKind
  | VhdOp.dataRead => IoKind.dataRead
  | VhdOp.dataWrite => IoKind.dataWrite
  | VhdOp.zeroBmWrite => IoKind.zeroBmWrite

/-- Some completion for serial `sn` appears in the log. -/
def completedL (L : List LogEvent) (sn : Nat) : Prop :=
  ∃ k e, LogEvent.complete k sn e ∈ L

/-- Some caller callback tagged with transaction incarnation `T` appears in
the log. -/
def cbTagged (L : List LogEvent) (T : Nat) : Prop :=
  ∃ err l n id snr, LogEvent.callback err l n id (some T) snr ∈ L

/-- Position `k` of the log holds a caller callback tagged `T`. -/
def cbAt (L : List LogEvent) (k T : Nat) : Prop :=
  ∃ err l n id snr, L.get? k = some (LogEvent.callback err l n id (some T) snr)

/-- A completion of serial `sn` occurs strictly before position `k`. -/
def completeBefore (L : List LogEvent) (k sn : Nat) : Prop :=
  ∃ j, j < k ∧ ∃ ki e, L.get? j = some (LogEvent.complete ki sn e)

/-- **The C1 ordering property of an instrumentation log.**  Whenever a
caller callback for a member of transaction incarnation `T` fires (a
`callback` entry carrying tag `T`), every I/O issued on behalf of `T` (the
member data writes, the zero-bitmap write, the bitmap write and the BAT
write all carry tag `T` at submission) received its completion strictly
before it, and so did every I/O carrying the serial number of any request
signalled under `T` (covering the data writes of members promoted from the
bitmap queue, which were submitted before their transaction existed). -/
def C1Log (L : List LogEvent) : Prop :=
  ∀ k T, cbAt L k T →
    (∀ kind sn, LogEvent.issue kind sn (some T) ∈ L → completeBefore L k sn) ∧
    (∀ k' err' l' n' id' snr',
      L.get? k' = some (LogEvent.callback err' l' n' id' (some T) snr') →
      ∀ kind tg, LogEvent.issue kind snr' tg ∈ L → completeBefore L k snr')

/-- Serial number of an in-flight I/O. -/
def snI : Inflight → Nat
  | Inflight.data sn => sn
  | Inflight.bitmapRead _ sn => sn
  | Inflight.bitmapWrite _ sn _ => sn
  | Inflight.zeroBm _ sn _ => sn
  | Inflight.batWrite sn _ => sn

/-- The submission entry matching an in-flight I/O is in the log and its
completion is not. -/
def inflightIssued (L : List LogEvent) : Inflight → Prop
  | Inflight.data sn =>
      (∃ tg, LogEvent.issue IoKind.dataRead sn tg ∈ L ∨
        LogEvent.issue IoKind.dataWrite sn tg ∈ L) ∧ ¬ completedL L sn
  | Inflight.bitmapRead _ sn =>
      LogEvent.issue IoKind.bitmapRead sn none ∈ L ∧ ¬ completedL L sn
  | Inflight.bitmapWrite _ sn tg =>
      LogEvent.issue IoKind.bitmapWrite sn (some tg) ∈ L ∧ ¬ completedL L sn
  | Inflight.zeroBm _ sn tg =>
      LogEvent.issue IoKind.zeroBmWrite sn (some tg) ∈ L ∧ ¬ completedL L sn
  | Inflight.batWrite sn tg =>
      LogEvent.issue IoKind.batWrite sn (some tg) ∈ L ∧ ¬ completedL L sn

theorem completedL_append_left {L E : List LogEvent} {sn : Nat} (h : completedL L sn) :
    completedL (L ++ E) sn := by
  obtain ⟨k, e, hm⟩ := h
  exact ⟨k, e, List.mem_append_left _ hm⟩

theorem completedL_append_elim {L E : List LogEvent} {sn : Nat}
    (h : completedL (L ++ E) sn) : completedL L sn ∨ completedL E sn := by
  obtain ⟨k, e, hm⟩ := h
  rcases List.mem_append.mp hm with hm | hm
  · exact Or.inl ⟨k, e, hm⟩
  · exact Or.inr ⟨k, e, hm⟩

theorem cbTagged_append_elim {L E : List LogEvent} {T : Nat}
    (h : cbTagged (L ++ E) T) : cbTagged L T ∨ cbTagged E T := by
  obtain ⟨a, b, c, d, f, hm⟩ := h
  rcases List.mem_append.mp hm with hm | hm
  · exact Or.inl ⟨a, b, c, d, f, hm⟩
  · exact Or.inr ⟨a, b, c, d, f, hm⟩

theorem mem_position {α : Type} {a : α} {l : List α} (h : a ∈ l) :
    ∃ n, n < l.length ∧ l.get? n = some a := by
  obtain ⟨n, hn⟩ := List.get_of_mem h
  exact ⟨n.1, n.2, by rw [List.get?_eq_get n.2, hn]⟩

theorem completeBefore_append {L E : List LogEvent} {k sn : Nat}
    (h : completeBefore L k sn) : completeBefore (L ++ E) k sn := by
  obtain ⟨j, hj, ki, e, hg⟩ := h
  have hlt : j < L.length := by
    by_contra hge
    rw [List.get?_eq_none.mpr (by omega)] at hg
    cases hg
  exact ⟨j, hj, ki, e, by rw [List.get?_append hlt, hg]⟩

theorem completeBefore_of_completedL {L E : List LogEvent} {k sn : Nat}
    (h : completedL L sn) (hk : L.length ≤ k) : completeBefore (L ++ E) k sn := by
  obtain ⟨ki, e, hm⟩ := h
  obtain ⟨j, hj, hg⟩ := mem_position hm
  exact ⟨j, by omega, ki, e, by rw [List.get?_append hj, hg]⟩

theorem cbAt_append_cases {L E : List LogEvent} {k T : Nat} (h : cbAt (L ++ E) k T) :
    cbAt L k T ∨ (L.length ≤ k ∧ cbAt E (k - L.length) T) := by
  obtain ⟨a, b, c, d, f, hg⟩ := h
  by_cases hk : k < L.length
  · rw [List.get?_append hk] at hg
    exact Or.inl ⟨a, b, c, d, f, hg⟩
  · rw [List.get?_append_right (by omega)] at hg
    exact Or.inr ⟨by omega, a, b, c, d, f, hg⟩

theorem cbTagged_of_cbAt {L : List LogEvent} {k T : Nat} (h : cbAt L k T) :
    cbTagged L T := by
  obtain ⟨a, b, c, d, f, hg⟩ := h
  exact ⟨a, b, c, d, f, List.get?_mem hg⟩

/-- Appending events that are neither submissions nor tagged callbacks
(completions, plain callbacks) preserves the ordering property. -/
theorem c1Log_append_neutral {L E : List LogEvent} (h : C1Log L)
    (hE : ∀ ev ∈ E, (∀ kind sn tg, ev ≠ LogEvent.issue kind sn tg) ∧
      (∀ err l n id T snr, ev ≠ LogEvent.callback err l n id (some T) snr)) :
    C1Log (L ++ E) := by
  intro k T hcb
  rcases cbAt_append_cases hcb with hcb | ⟨hk, hcb⟩
  · obtain ⟨h1, h2⟩ := h k T hcb
    constructor
    · intro kind sn hm
      rcases List.mem_append.mp hm with hm | hm
      · exact completeBefore_append (h1 kind sn hm)
      · exact absurd rfl ((hE _ hm).1 kind sn (some T))
    · intro k' a b c d snr' hg kind tg hm
      have hk' : k' < L.length := by
        by_cases hlt : k' < L.length
        · exact hlt
        · exfalso
          rw [List.get?_append_right (by omega)] at hg
          have hmem := List.get?_mem hg
          exact (hE _ hmem).2 a b c d T snr' rfl
      rw [List.get?_append hk'] at hg
      rcases List.mem_append.mp hm with hm | hm
      · exact completeBefore_append (h2 k' a b c d snr' hg kind tg hm)
      · exact absurd rfl ((hE _ hm).1 kind snr' tg)
  · obtain ⟨a, b, c, d, f, hg⟩ := hcb
    have hmem := List.get?_mem hg
    exact absurd rfl ((hE _ hmem).2 a b c d T f)

/-- Appending a fresh submission preserves the ordering property provided no
callback for its tag and none with its serial has fired. -/
theorem c1Log_append_issue {L : List LogEvent} {kind : IoKind} {sn : Nat}
    {tg : Option Nat} (h : C1Log L)
    (hT : ∀ T, tg = some T → ¬ cbTagged L T)
    (hsn : ∀ err l n id T snr, LogEvent.callback err l n id (some T) snr ∈ L → snr ≠ sn) :
    C1Log (L ++ [LogEvent.issue kind sn tg]) := by
  intro k T hcb
  rcases cbAt_append_cases hcb with hcbL | ⟨hk, hcbL⟩
  swap
  · obtain ⟨a, b, c, d, f, hg⟩ := hcbL
    have := List.get?_mem hg
    simp at this
  obtain ⟨h1, h2⟩ := h k T hcbL
  constructor
  · intro kind' sn' hm
    rcases List.mem_append.mp hm with hm | hm
    · exact completeBefore_append (h1 kind' sn' hm)
    · exfalso
      simp only [List.mem_singleton] at hm
      injection hm with e1 e2 e3
      exact hT T e3.symm (cbTagged_of_cbAt hcbL)
  · intro k' a b c d snr' hg kind' tg' hm
    have hk' : k' < L.length := by
      by_contra hge
      rw [List.get?_append_right (by omega)] at hg
      have := List.get?_mem hg
      simp at this
    rw [List.get?_append hk'] at hg
    rcases List.mem_append.mp hm with hm | hm
    · exact completeBefore_append (h2 k' a b c d snr' hg kind' tg' hm)
    · exfalso
      simp only [List.mem_singleton] at hm
      injection hm with e1 e2 e3
      exact hsn a b c d T snr' (List.get?_mem hg) e2

/-- Appending the callback batch of a retiring transaction preserves the
ordering property: the tag never fired before, every I/O issued under the
tag has completed, and so has every I/O bearing a signalled serial. -/
theorem c1Log_append_batch (L : List LogEvent) (T : Nat) (rs : List VhdRequest)
    (g : VhdRequest → Int) (h : C1Log L)
    (hT : ¬ cbTagged L T)
    (hiss : ∀ kind sn, LogEvent.issue kind sn (some T) ∈ L → completedL L sn)
    (hmem : ∀ r ∈ rs, completedL L r.serial) :
    C1Log (L ++ rs.map (fun r =>
      LogEvent.callback (g r) r.lsec r.nrSecs r.id (some T) r.serial)) := by
  intro k T' hcb
  have hEa : ∀ ev ∈ rs.map (fun r =>
      LogEvent.callback (g r) r.lsec r.nrSecs r.id (some T) r.serial),
      ∃ r ∈ rs, ev = LogEvent.callback (g r) r.lsec r.nrSecs r.id (some T) r.serial := by
    intro ev hev
    obtain ⟨r, hr, hfr⟩ := List.mem_map.mp hev
    exact ⟨r, hr, hfr.symm⟩
  rcases cbAt_append_cases hcb with hcb | ⟨hk, hcb⟩
  · obtain ⟨h1, h2⟩ := h k T' hcb
    have hTne : T' ≠ T := by
      intro he
      cases he
      exact hT (cbTagged_of_cbAt hcb)
    constructor
    · intro kind sn hm
      rcases List.mem_append.mp hm with hm | hm
      · exact completeBefore_append (h1 kind sn hm)
      · obtain ⟨r, hr, he⟩ := hEa _ hm
        cases he
    · intro k' a b c d snr' hg kind tg hm
      by_cases hk' : k' < L.length
      · rw [List.get?_append hk'] at hg
        rcases List.mem_append.mp hm with hm | hm
        · exact completeBefore_append (h2 k' a b c d snr' hg kind tg hm)
        · obtain ⟨r, hr, he⟩ := hEa _ hm
          cases he
      · exfalso
        rw [List.get?_append_right (by omega)] at hg
        obtain ⟨r, hr, he⟩ := hEa _ (List.get?_mem hg)
        injection he with e1 e2 e3 e4 e5 e6
        exact hTne (Option.some.inj e5)
  · obtain ⟨a, b, c, d, f, hg⟩ := hcb
    obtain ⟨r, hr, he⟩ := hEa _ (List.get?_mem hg)
    have hTT : T' = T := by cases he; rfl
    cases hTT
    constructor
    · intro kind sn hm
      rcases List.mem_append.mp hm with hm | hm
      · exact completeBefore_of_completedL (hiss kind sn hm) hk
      · obtain ⟨r', hr', he'⟩ := hEa _ hm
        cases he'
    · intro k' a' b' c' d' snr' hg' kind tg hm
      rcases List.mem_append.mp hm with hm | hm
      swap
      · exfalso
        obtain ⟨r', hr', he'⟩ := hEa _ hm
        cases he'
      by_cases hk' : k' < L.length
      · rw [List.get?_append hk'] at hg'
        exact absurd ⟨a', b', c', d', snr', List.get?_mem hg'⟩ hT
      · rw [List.get?_append_right (by omega)] at hg'
        obtain ⟨r', hr', he'⟩ := hEa _ (List.get?_mem hg')
        have hsnr : snr' = r'.serial := by cases he'; rfl
        cases hsnr
        exact completeBefore_of_completedL (hmem r' hr') hk

/-- Per-bitmap bookkeeping invariant tying the cached transaction state to
the instrumentation log (`T` below abbreviates `bm.tx.tag`). -/
structure BmInv (s : VhdState) (bm : VhdBitmap) : Prop where
  closedDone : bm.tx.closed = true → bm.tx.started = bm.tx.finished
  finLe : bm.tx.finished ≤ bm.tx.started
  cnt : bm.tx.requests.countP (fun r => !r.fFinished) = bm.tx.started - bm.tx.finished
  reqNodup : (bm.tx.requests.map (fun r => r.serial)).Nodup
  queueNodup : (bm.queue.map (fun r => r.serial)).Nodup
  reqSnLt : ∀ r ∈ bm.tx.requests, r.serial < s.nextSerial
  queueSnLt : ∀ r ∈ bm.queue, r.serial < s.nextSerial
  waitSnLt : ∀ r ∈ bm.waiting, r.serial < s.nextSerial
  memFin : ∀ r ∈ bm.tx.requests, r.fFinished = true → completedL s.log r.serial
  memIssued : ∀ r ∈ bm.tx.requests, ∃ tg, LogEvent.issue (opKind r.op) r.serial tg ∈ s.log
  memOp : ∀ r ∈ bm.tx.requests, r.op = VhdOp.dataWrite ∨ r.op = VhdOp.zeroBmWrite
  queueFin : ∀ r ∈ bm.queue, r.fFinished = true → completedL s.log r.serial
  queueIssued : ∀ r ∈ bm.queue, LogEvent.issue IoKind.dataWrite r.serial none ∈ s.log
  queueOp : ∀ r ∈ bm.queue, r.op = VhdOp.dataWrite
  taggedMember : ∀ kind sn, (kind = IoKind.dataWrite ∨ kind = IoKind.zeroBmWrite) →
    LogEvent.issue kind sn (some bm.tx.tag) ∈ s.log → ¬ completedL s.log sn →
    ∃ r ∈ bm.tx.requests, r.serial = sn ∧ r.fFinished = false
  bmwPend : ∀ sn, LogEvent.issue IoKind.bitmapWrite sn (some bm.tx.tag) ∈ s.log →
    ¬ completedL s.log sn →
    bm.writePending = true ∧ bm.tx.closed = true ∧
      Inflight.bitmapWrite bm.blk sn bm.tx.tag ∈ s.inflight
  bmwUniq : ∀ sn sn',
    LogEvent.issue IoKind.bitmapWrite sn (some bm.tx.tag) ∈ s.log → ¬ completedL s.log sn →
    LogEvent.issue IoKind.bitmapWrite sn' (some bm.tx.tag) ∈ s.log → ¬ completedL s.log sn' →
    sn = sn'
  batPend : ∀ sn, LogEvent.issue IoKind.batWrite sn (some bm.tx.tag) ∈ s.log →
    ¬ completedL s.log sn →
    bm.tx.updateBat = true ∧ s.pbwBlk = bm.blk ∧ s.batWriteStarted = true ∧
      Inflight.batWrite sn bm.tx.tag ∈ s.inflight
  wpClosed : bm.writePending = true → bm.tx.closed = true

/-- The global invariant of reachable driver states: tag and serial
freshness, the in-flight set against the log, per-bitmap transaction
bookkeeping and the C1 callback-ordering property of the log so far. -/
structure Inv (s : VhdState) : Prop where
  snPos : 1 ≤ s.nextSerial
  blkNodup : s.cache.Pairwise (fun a b => a.blk ≠ b.blk)
  tagNodup : s.cache.Pairwise (fun a b => a.tx.tag ≠ b.tx.tag)
  tagLt : ∀ bm ∈ s.cache, bm.tx.tag < s.nextTag
  tagNoCb : ∀ bm ∈ s.cache, ¬ cbTagged s.log bm.tx.tag
  futureTag : ∀ T, s.nextTag ≤ T →
    ¬ cbTagged s.log T ∧ ∀ kind sn, LogEvent.issue kind sn (some T) ∉ s.log
  issueSnLt : ∀ kind sn tg, LogEvent.issue kind sn tg ∈ s.log → sn < s.nextSerial
  completeSnLt : ∀ kind sn e, LogEvent.complete kind sn e ∈ s.log → sn < s.nextSerial
  cbSnLt : ∀ err l n id tg snr, LogEvent.callback err l n id tg snr ∈ s.log →
    snr < s.nextSerial
  inflSnNodup : s.inflight.Pairwise (fun a b => snI a ≠ snI b)
  inflOk : ∀ fl ∈ s.inflight, inflightIssued s.log fl
  plainSnLt : ∀ r ∈ s.plain, r.serial < s.nextSerial
  pendLive : ∀ T kind sn, LogEvent.issue kind sn (some T) ∈ s.log →
    ¬ completedL s.log sn → ∃ bm ∈ s.cache, bm.tx.tag = T
  zbMember : ∀ blk sn tg, Inflight.zeroBm blk sn tg ∈ s.inflight →
    s.batLocked = true ∧ s.pbwBlk = blk ∧ s.batWriteStarted = false ∧
    (∀ sn', LogEvent.issue IoKind.batWrite sn' (some tg) ∈ s.log →
      completedL s.log sn') ∧
    ∃ bm ∈ s.cache, bm.blk = blk ∧ bm.tx.tag = tg ∧ bm.tx.updateBat = true ∧
      ∃ r ∈ bm.tx.requests, r.serial = sn ∧ r.op = VhdOp.zeroBmWrite ∧ r.fFinished = false
  zbUniq : ∀ blk sn tg blk' sn' tg', Inflight.zeroBm blk sn tg ∈ s.inflight →
    Inflight.zeroBm blk' sn' tg' ∈ s.inflight → blk = blk' ∧ sn = sn' ∧ tg = tg'
  bwBm : ∀ sn tg, Inflight.batWrite sn tg ∈ s.inflight →
    s.batLocked = true ∧ s.batWriteStarted = true ∧
    ∃ bm ∈ s.cache, bm.blk = s.pbwBlk ∧ bm.tx.tag = tg ∧ bm.tx.updateBat = true
  bwUniq : ∀ sn tg sn' tg', Inflight.batWrite sn tg ∈ s.inflight →
    Inflight.batWrite sn' tg' ∈ s.inflight → sn = sn' ∧ tg = tg'
  bmwBm : ∀ blk sn tg, Inflight.bitmapWrite blk sn tg ∈ s.inflight →
    ∃ bm ∈ s.cache, bm.blk = blk ∧ bm.tx.tag = tg ∧ bm.writePending = true ∧
      bm.tx.closed = true
  parkInv : s.batReqTx = true →
    s.batWriteStarted = true ∧
    ∃ bm ∈ s.cache, bm.blk = s.pbwBlk ∧ bm.tx.started = bm.tx.finished ∧
      bm.tx.closed = true ∧ bm.tx.updateBat = true ∧ bm.writePending = false
  bms : ∀ bm ∈ s.cache, BmInv s bm
  c1 : C1Log s.log
  noTagRd : ∀ T sn, LogEvent.issue IoKind.dataRead sn (some T) ∉ s.log
  noTagBr : ∀ T sn, LogEvent.issue IoKind.bitmapRead sn (some T) ∉ s.log

/-- The invariant holds right after `__vhd_open`. -/
theorem inv_initState (t : HdType) (spb spp bmSecs : Nat) (bat : List Nat)
    (nextDb vreqs : Nat) : Inv (initState t spb spp bmSecs bat nextDb vreqs) := by
  refine ⟨?_, ?_, ?_, ?_, ?_, ?_, ?_, ?_, ?_, ?_, ?_, ?_, ?_, ?_, ?_, ?_, ?_, ?_, ?_,
    ?_, ?_, ?_, ?_⟩
  all_goals simp [initState, cbTagged, C1Log, cbAt, completedL]

theorem mem_of_getBitmap {s : VhdState} {blk : Nat} {bm : VhdBitmap}
    (h : getBitmap s blk = some bm) : bm ∈ s.cache ∧ bm.blk = blk := by
  unfold getBitmap at h
  refine ⟨List.mem_of_find?_eq_some h, ?_⟩
  have := List.find?_some h
  simpa using this

theorem pairwise_both {α : Type} {R : α → α → Prop} {l : List α}
    (h : l.Pairwise R) (hsym : ∀ a b, R a b → R b a) {a b : α}
    (ha : a ∈ l) (hb : b ∈ l) (hne : a ≠ b) : R a b := by
  induction l with
  | nil => cases ha
  | cons x xs ih =>
    rcases List.mem_cons.mp ha with ha1 | ha1
    · rcases List.mem_cons.mp hb with hb1 | hb1
      · exact absurd (ha1.trans hb1.symm) hne
      · rw [ha1]
        exact (List.pairwise_cons.mp h).1 b hb1
    · rcases List.mem_cons.mp hb with hb1 | hb1
      · rw [hb1]
        exact hsym _ _ ((List.pairwise_cons.mp h).1 a ha1)
      · exact ih (List.pairwise_cons.mp h).2 ha1 hb1

theorem find?_blk_of_mem {l : List VhdBitmap}
    (hnd : l.Pairwise (fun a b => a.blk ≠ b.blk)) {bm : VhdBitmap}
    (h : bm ∈ l) : l.find? (fun x => x.blk == bm.blk) = some bm := by
  induction l with
  | nil => cases h
  | cons x xs ih =>
    rcases List.mem_cons.mp h with h1 | h1
    · rw [h1, List.find?_cons]
      simp
    · rw [List.find?_cons]
      have hne : x.blk ≠ bm.blk := (List.pairwise_cons.mp hnd).1 bm h1
      have hb : (x.blk == bm.blk) = false := by simpa using hne
      rw [hb]
      exact ih (List.pairwise_cons.mp hnd).2 h1

theorem getBitmap_of_mem {s : VhdState}
    (hnd : s.cache.Pairwise (fun a b => a.blk ≠ b.blk)) {bm : VhdBitmap}
    (h : bm ∈ s.cache) : getBitmap s bm.blk = some bm :=
  find?_blk_of_mem hnd h

/-- A bitmap differing only in LRU/lock/buffer fields satisfies the same
bookkeeping invariant. -/
theorem bmInv_congr {s : VhdState} {bm bm' : VhdBitmap} (h : BmInv s bm)
    (htx : bm'.tx = bm.tx) (hblk : bm'.blk = bm.blk)
    (hwp : bm'.writePending = bm.writePending) (hq : bm'.queue = bm.queue)
    (hw : bm'.waiting = bm.waiting) : BmInv s bm' := by
  obtain ⟨blk', seq', rp', wp', lk', mp', sh', tx', q', w'⟩ := bm'
  simp only at htx hblk hwp hq hw
  subst htx hblk hwp hq hw
  exact ⟨h.closedDone, h.finLe, h.cnt, h.reqNodup, h.queueNodup, h.reqSnLt,
    h.queueSnLt, h.waitSnLt, h.memFin, h.memIssued, h.memOp, h.queueFin,
    h.queueIssued, h.queueOp, h.taggedMember, h.bmwPend, h.bmwUniq, h.batPend, h.wpClosed⟩

/-- Extending the log with non-submission events (completions, callbacks)
and weakening the in-flight set only by completed serials preserves the
per-bitmap bookkeeping. -/
theorem bmInv_ext {s s' : VhdState} {bm : VhdBitmap} (h : BmInv s bm)
    (E : List LogEvent) (hlog : s'.log = s.log ++ E)
    (hE : ∀ ev ∈ E, ∀ kind sn, ev ≠ LogEvent.issue kind sn (some bm.tx.tag))
    (hinfl : ∀ fl ∈ s.inflight, ¬ completedL s'.log (snI fl) → fl ∈ s'.inflight)
    (hns : s.nextSerial ≤ s'.nextSerial)
    (hpbw : s'.pbwBlk = s.pbwBlk) (hbws : s'.batWriteStarted = s.batWriteStarted) :
    BmInv s' bm := by
  have hIss : ∀ kind sn, LogEvent.issue kind sn (some bm.tx.tag) ∈ s'.log →
      LogEvent.issue kind sn (some bm.tx.tag) ∈ s.log := by
    intro kind sn hm
    rw [hlog] at hm
    rcases List.mem_append.mp hm with hm | hm
    · exact hm
    · exact absurd rfl (hE _ hm kind sn)
  have hNc : ∀ sn, ¬ completedL s'.log sn → ¬ completedL s.log sn := by
    intro sn hn hc
    exact hn (by rw [hlog]; exact completedL_append_left hc)
  have hC : ∀ sn, completedL s.log sn → completedL s'.log sn := by
    intro sn hc
    rw [hlog]
    exact completedL_append_left hc
  refine ⟨h.closedDone, h.finLe, h.cnt, h.reqNodup, h.queueNodup, ?_, ?_, ?_, ?_, ?_,
    h.memOp, ?_, ?_, h.queueOp, ?_, ?_, ?_, ?_, h.wpClosed⟩
  · exact fun r hr => lt_of_lt_of_le (h.reqSnLt r hr) hns
  · exact fun r hr => lt_of_lt_of_le (h.queueSnLt r hr) hns
  · exact fun r hr => lt_of_lt_of_le (h.waitSnLt r hr) hns
  · exact fun r hr hf => hC _ (h.memFin r hr hf)
  · intro r hr
    obtain ⟨tg, hm⟩ := h.memIssued r hr
    exact ⟨tg, by rw [hlog]; exact List.mem_append_left _ hm⟩
  · exact fun r hr hf => hC _ (h.queueFin r hr hf)
  · intro r hr
    rw [hlog]
    exact List.mem_append_left _ (h.queueIssued r hr)
  · exact fun kind sn hk hm hn => h.taggedMember kind sn hk (hIss _ _ hm) (hNc _ hn)
  · intro sn hm hn
    obtain ⟨h1, h2, h3⟩ := h.bmwPend sn (hIss _ _ hm) (hNc _ hn)
    exact ⟨h1, h2, hinfl _ h3 hn⟩
  · exact fun sn sn' hm hn hm' hn' =>
      h.bmwUniq sn sn' (hIss _ _ hm) (hNc _ hn) (hIss _ _ hm') (hNc _ hn')
  · intro sn hm hn
    obtain ⟨h1, h2, h3, h4⟩ := h.batPend sn (hIss _ _ hm) (hNc _ hn)
    exact ⟨h1, by rw [hpbw, h2], by rw [hbws, h3], hinfl _ h4 hn⟩

/-- State changes that keep the log, the in-flight set, the serial counter,
the pending block and the write-started flag preserve per-bitmap
bookkeeping. -/
theorem bmInv_state_congr {s s' : VhdState} {bm : VhdBitmap} (h : BmInv s bm)
    (hl : s'.log = s.log) (hi : s'.inflight = s.inflight)
    (hns : s.nextSerial ≤ s'.nextSerial) (hpb : s'.pbwBlk = s.pbwBlk)
    (hbw : s'.batWriteStarted = s.batWriteStarted) : BmInv s' bm :=
  bmInv_ext h [] (by rw [hl, List.append_nil]) (by simp)
    (fun fl hfl _ => by rw [hi]; exact hfl) hns hpb hbw

/-- The invariant ignores geometry, the BAT contents, the allocation offset
and the pool counters, and is monotone in the serial counter. -/
theorem inv_congr {s s' : VhdState} (h : Inv s)
    (hns : s.nextSerial ≤ s'.nextSerial) (hnt : s.nextTag ≤ s'.nextTag)
    (hc : s'.cache = s.cache) (hl : s'.log = s.log) (hi : s'.inflight = s.inflight)
    (hp : s'.plain = s.plain) (hpb : s'.pbwBlk = s.pbwBlk)
    (hbl : s'.batLocked = s.batLocked) (hbw : s'.batWriteStarted = s.batWriteStarted)
    (hbr : s'.batReqTx = s.batReqTx) : Inv s' := by
  have hbms : ∀ bm ∈ s'.cache, BmInv s' bm := by
    intro bm hbm
    rw [hc] at hbm
    exact bmInv_state_congr (h.bms bm hbm) hl hi hns hpb hbw
  obtain ⟨a1, a2, a3, a4, a5, a6, a7, a8, a9, a10, a11, a12, a13, a14, a15, a16, a17,
    a18, a19, a20, a21⟩ := s'
  simp only at hns hnt hc hl hi hp hpb hbl hbw hbr hbms
  subst hc hl hi hp hpb hbl hbw hbr
  exact ⟨le_trans h.snPos hns, h.blkNodup, h.tagNodup,
    fun bm hbm => lt_of_lt_of_le (h.tagLt bm hbm) hnt, h.tagNoCb,
    fun T hT => h.futureTag T (le_trans hnt hT),
    fun kind sn tg hm => lt_of_lt_of_le (h.issueSnLt kind sn tg hm) hns,
    fun kind sn e hm => lt_of_lt_of_le (h.completeSnLt kind sn e hm) hns,
    fun a b c d tg snr hm => lt_of_lt_of_le (h.cbSnLt a b c d tg snr hm) hns,
    h.inflSnNodup, h.inflOk,
    fun r hr => lt_of_lt_of_le (h.plainSnLt r hr) hns,
    h.pendLive, h.zbMember, h.zbUniq, h.bwBm, h.bwUniq, h.bmwBm, h.parkInv, hbms, h.c1,
    h.noTagRd, h.noTagBr⟩

/-- Rewriting the whole cache through a map that keeps the bookkeeping
fields (block number, transaction, write-pending bit, queue, waiting list)
preserves the invariant; used for the LRU bookkeeping. -/
theorem inv_cache_map {s s' : VhdState} (h : Inv s) (f : VhdBitmap → VhdBitmap)
    (hf : ∀ bm, (f bm).blk = bm.blk ∧ (f bm).tx = bm.tx ∧
      (f bm).writePending = bm.writePending ∧ (f bm).queue = bm.queue ∧
      (f bm).waiting = bm.waiting)
    (hc : s'.cache = s.cache.map f)
    (hns : s.nextSerial ≤ s'.nextSerial) (hnt : s'.nextTag = s.nextTag)
    (hl : s'.log = s.log) (hi : s'.inflight = s.inflight)
    (hp : s'.plain = s.plain) (hpb : s'.pbwBlk = s.pbwBlk)
    (hbl : s'.batLocked = s.batLocked) (hbw : s'.batWriteStarted = s.batWriteStarted)
    (hbr : s'.batReqTx = s.batReqTx) : Inv s' := by
  have hMem : ∀ bm' ∈ s'.cache, ∃ bm ∈ s.cache, bm' = f bm := by
    intro bm' hm
    rw [hc] at hm
    obtain ⟨bm, hbm, he⟩ := List.mem_map.mp hm
    exact ⟨bm, hbm, he.symm⟩
  have hbms : ∀ bm' ∈ s'.cache, BmInv s' bm' := by
    intro bm' hm
    obtain ⟨bm, hbm, he⟩ := hMem bm' hm
    refine bmInv_congr (bmInv_state_congr (h.bms bm hbm) hl hi hns hpb hbw) ?_ ?_ ?_ ?_ ?_
    · rw [he]; exact (hf bm).2.1
    · rw [he]; exact (hf bm).1
    · rw [he]; exact (hf bm).2.2.1
    · rw [he]; exact (hf bm).2.2.2.1
    · rw [he]; exact (hf bm).2.2.2.2
  have hbnd : s'.cache.Pairwise (fun a b => a.blk ≠ b.blk) := by
    rw [hc, List.pairwise_map]
    refine h.blkNodup.imp ?_
    intro a b hne
    rw [(hf a).1, (hf b).1]
    exact hne
  have htnd : s'.cache.Pairwise (fun a b => a.tx.tag ≠ b.tx.tag) := by
    rw [hc, List.pairwise_map]
    refine h.tagNodup.imp ?_
    intro a b hne
    rw [(hf a).2.1, (hf b).2.1]
    exact hne
  refine ⟨le_trans h.snPos hns, hbnd, htnd, ?_, ?_, ?_, ?_, ?_, ?_, ?_, ?_, ?_, ?_,
    ?_, ?_, ?_, ?_, ?_, ?_, hbms, ?_, ?_, ?_⟩
  · intro bm' hm
    obtain ⟨bm, hbm, he⟩ := hMem bm' hm
    rw [he, (hf bm).2.1, hnt]
    exact h.tagLt bm hbm
  · intro bm' hm
    obtain ⟨bm, hbm, he⟩ := hMem bm' hm
    rw [he, (hf bm).2.1, hl]
    exact h.tagNoCb bm hbm
  · intro T hT
    rw [hl]
    exact h.futureTag T (by rw [hnt] at hT; exact hT)
  · intro kind sn tg hm
    rw [hl] at hm
    exact lt_of_lt_of_le (h.issueSnLt kind sn tg hm) hns
  · intro kind sn e hm
    rw [hl] at hm
    exact lt_of_lt_of_le (h.completeSnLt kind sn e hm) hns
  · intro a b c d tg snr hm
    rw [hl] at hm
    exact lt_of_lt_of_le (h.cbSnLt a b c d tg snr hm) hns
  · rw [hi]; exact h.inflSnNodup
  · intro fl hfl
    rw [hi] at hfl
    rw [hl]
    exact h.inflOk fl hfl
  · intro r hr
    rw [hp] at hr
    exact lt_of_lt_of_le (h.plainSnLt r hr) hns
  · intro T kind sn hm hn
    rw [hl] at hm hn
    obtain ⟨bm, hbm, he⟩ := h.pendLive T kind sn hm hn
    refine ⟨f bm, by rw [hc]; exact List.mem_map_of_mem f hbm, ?_⟩
    rw [(hf bm).2.1]
    exact he
  · intro blk sn tg hm
    rw [hi] at hm
    obtain ⟨z1, z2, z3, z4, z5⟩ := h.zbMember blk sn tg hm
    obtain ⟨bm, hbm, e1, e2, e3, r, hr, e4⟩ := z5
    refine ⟨by rw [hbl, z1], by rw [hpb, z2], by rw [hbw, z3],
      fun sn' hm' => by rw [hl] at hm' ⊢; exact z4 sn' hm',
      f bm, by rw [hc]; exact List.mem_map_of_mem f hbm, ?_, ?_, ?_, r, ?_, e4⟩
    · rw [(hf bm).1]; exact e1
    · rw [(hf bm).2.1]; exact e2
    · rw [(hf bm).2.1]; exact e3
    · rw [(hf bm).2.1]; exact hr
  · intro blk sn tg blk' sn' tg' hm hm'
    rw [hi] at hm hm'
    exact h.zbUniq blk sn tg blk' sn' tg' hm hm'
  · intro sn tg hm
    rw [hi] at hm
    obtain ⟨z1, z2, bm, hbm, e1, e2, e3⟩ := h.bwBm sn tg hm
    refine ⟨by rw [hbl, z1], by rw [hbw, z2],
      f bm, by rw [hc]; exact List.mem_map_of_mem f hbm, ?_, ?_, ?_⟩
    · rw [(hf bm).1, hpb]; exact e1
    · rw [(hf bm).2.1]; exact e2
    · rw [(hf bm).2.1]; exact e3
  · intro sn tg sn' tg' hm hm'
    rw [hi] at hm hm'
    exact h.bwUniq sn tg sn' tg' hm hm'
  · intro blk sn tg hm
    rw [hi] at hm
    obtain ⟨bm, hbm, e1, e2, e3, e4⟩ := h.bmwBm blk sn tg hm
    refine ⟨f bm, by rw [hc]; exact List.mem_map_of_mem f hbm, ?_, ?_, ?_, ?_⟩
    · rw [(hf bm).1]; exact e1
    · rw [(hf bm).2.1]; exact e2
    · rw [(hf bm).2.2.1]; exact e3
    · rw [(hf bm).2.1]; exact e4
  · intro hbr'
    rw [hbr] at hbr'
    obtain ⟨p2, bm, hbm, e1, e2, e3, e4, e5⟩ := h.parkInv hbr'
    refine ⟨by rw [hbw, p2],
      f bm, by rw [hc]; exact List.mem_map_of_mem f hbm, ?_, ?_, ?_, ?_, ?_⟩
    · rw [(hf bm).1, hpb]; exact e1
    · rw [(hf bm).2.1]; exact e2
    · rw [(hf bm).2.1]; exact e3
    · rw [(hf bm).2.1]; exact e4
    · rw [(hf bm).2.2.1]; exact e5
  · rw [hl]; exact h.c1
  · rw [hl]; exact h.noTagRd
  · rw [hl]; exact h.noTagBr

theorem completedL_snoc_elim {L : List LogEvent} {k : IoKind} {sn sn' : Nat} {e : Int}
    (h : completedL (L ++ [LogEvent.complete k sn e]) sn') :
    completedL L sn' ∨ sn' = sn := by
  rcases completedL_append_elim h with h1 | h1
  · exact Or.inl h1
  · obtain ⟨ki, er, hm⟩ := h1
    simp only [List.mem_singleton] at hm
    injection hm with e1 e2 e3
    exact Or.inr e2

theorem cbTagged_snoc_complete_elim {L : List LogEvent} {k : IoKind} {sn : Nat} {e : Int}
    {T : Nat} (h : cbTagged (L ++ [LogEvent.complete k sn e]) T) : cbTagged L T := by
  rcases cbTagged_append_elim h with h1 | h1
  · exact h1
  · obtain ⟨a, b, c, d, f, hm⟩ := h1
    simp only [List.mem_singleton] at hm
    cases hm

theorem issue_snoc_complete_elim {L : List LogEvent} {k : IoKind} {sn : Nat} {e : Int}
    {kind : IoKind} {sn' : Nat} {tg : Option Nat}
    (h : LogEvent.issue kind sn' tg ∈ L ++ [LogEvent.complete k sn e]) :
    LogEvent.issue kind sn' tg ∈ L := by
  rcases List.mem_append.mp h with h1 | h1
  · exact h1
  · simp only [List.mem_singleton] at h1
    cases h1

theorem cb_snoc_complete_elim {L : List LogEvent} {k : IoKind} {sn : Nat} {e : Int}
    {a : Int} {b c d : Nat} {tg : Option Nat} {snr : Nat}
    (h : LogEvent.callback a b c d tg snr ∈ L ++ [LogEvent.complete k sn e]) :
    LogEvent.callback a b c d tg snr ∈ L := by
  rcases List.mem_append.mp h with h1 | h1
  · exact h1
  · simp only [List.mem_singleton] at h1
    cases h1

/-- The serial of every in-flight I/O is below the counter. -/
theorem inflight_sn_lt {s : VhdState} (h : Inv s) {fl : Inflight}
    (hfl : fl ∈ s.inflight) : snI fl < s.nextSerial := by
  have hio := h.inflOk fl hfl
  cases fl with
  | data sn =>
    obtain ⟨⟨tg, hm | hm⟩, -⟩ := hio
    · exact h.issueSnLt _ _ _ hm
    · exact h.issueSnLt _ _ _ hm
  | bitmapRead blk sn => exact h.issueSnLt _ _ _ hio.1
  | bitmapWrite blk sn tg => exact h.issueSnLt _ _ _ hio.1
  | zeroBm blk sn tg => exact h.issueSnLt _ _ _ hio.1
  | batWrite sn tg => exact h.issueSnLt _ _ _ hio.1

theorem infl_nodup {s : VhdState} (h : Inv s) : s.inflight.Nodup :=
  h.inflSnNodup.imp (fun hne he => hne (by rw [he]))

/-- Delivering one completion — the `vhd_do_callbacks` bookkeeping common to
every completion event: the in-flight entry is retired and the completion is
logged — preserves the invariant. -/
theorem inv_complete_step {s : VhdState} (h : Inv s) {fl : Inflight}
    (hfl : fl ∈ s.inflight) (kind : IoKind) (err : Int) :
    Inv { s with inflight := s.inflight.erase fl,
                 log := s.log ++ [LogEvent.complete kind (snI fl) err] } := by
  have hmemE : ∀ fl' , fl' ∈ s.inflight.erase fl → fl' ∈ s.inflight ∧ fl' ≠ fl := by
    intro fl' hm
    have := (List.Nodup.mem_erase_iff (infl_nodup h)).mp hm
    exact ⟨this.2, this.1⟩
  have hsnne : ∀ fl', fl' ∈ s.inflight → fl' ≠ fl → snI fl' ≠ snI fl := by
    intro fl' hm hne
    exact pairwise_both h.inflSnNodup (fun a b hx he => hx he.symm) hm hfl hne
  have hkeep : ∀ fl' ∈ s.inflight,
      ¬ completedL (s.log ++ [LogEvent.complete kind (snI fl) err]) (snI fl') →
      fl' ∈ s.inflight.erase fl := by
    intro fl' hm hnc
    have hne : fl' ≠ fl := by
      intro he
      exact hnc ⟨kind, err, by rw [he]; exact List.mem_append_right _ (by simp)⟩
    exact (List.Nodup.mem_erase_iff (infl_nodup h)).mpr ⟨hne, hm⟩
  refine ⟨h.snPos, h.blkNodup, h.tagNodup, h.tagLt, ?_, ?_, ?_, ?_, ?_, ?_, ?_,
    h.plainSnLt, ?_, ?_, ?_, ?_, ?_, ?_, h.parkInv, ?_, ?_, ?_, ?_⟩
  · exact fun bm hbm hc => h.tagNoCb bm hbm (cbTagged_snoc_complete_elim hc)
  · intro T hT
    refine ⟨fun hc => (h.futureTag T hT).1 (cbTagged_snoc_complete_elim hc), ?_⟩
    intro kind' sn' hm
    exact (h.futureTag T hT).2 kind' sn' (issue_snoc_complete_elim hm)
  · exact fun kind' sn' tg hm => h.issueSnLt kind' sn' tg (issue_snoc_complete_elim hm)
  · intro kind' sn' e hm
    rcases List.mem_append.mp hm with h1 | h1
    · exact h.completeSnLt _ _ _ h1
    · simp only [List.mem_singleton] at h1
      injection h1 with e1 e2 e3
      rw [e2]
      exact inflight_sn_lt h hfl
  · exact fun a b c d tg snr hm => h.cbSnLt a b c d tg snr (cb_snoc_complete_elim hm)
  · exact h.inflSnNodup.sublist (List.erase_sublist _ _)
  · intro fl' hm
    obtain ⟨hm0, hne⟩ := hmemE fl' hm
    have hold := h.inflOk fl' hm0
    have hsne := hsnne fl' hm0 hne
    have hnc : ∀ hno : ¬ completedL s.log (snI fl'),
        ¬ completedL (s.log ++ [LogEvent.complete kind (snI fl) err]) (snI fl') := by
      intro hno hc
      rcases completedL_snoc_elim hc with hc | hc
      · exact hno hc
      · exact hsne hc
    cases fl' with
    | data sn =>
      obtain ⟨⟨tg, hm1 | hm1⟩, hn1⟩ := hold
      · exact ⟨⟨tg, Or.inl (List.mem_append_left _ hm1)⟩, hnc hn1⟩
      · exact ⟨⟨tg, Or.inr (List.mem_append_left _ hm1)⟩, hnc hn1⟩
    | bitmapRead blk sn => exact ⟨List.mem_append_left _ hold.1, hnc hold.2⟩
    | bitmapWrite blk sn tg => exact ⟨List.mem_append_left _ hold.1, hnc hold.2⟩
    | zeroBm blk sn tg => exact ⟨List.mem_append_left _ hold.1, hnc hold.2⟩
    | batWrite sn tg => exact ⟨List.mem_append_left _ hold.1, hnc hold.2⟩
  · intro T kind' sn' hm hn
    refine h.pendLive T kind' sn' (issue_snoc_complete_elim hm) ?_
    intro hc
    exact hn (completedL_append_left hc)
  · intro blk sn tg hm
    obtain ⟨hm0, -⟩ := hmemE _ hm
    obtain ⟨z1, z2, z3, z4, z5⟩ := h.zbMember blk sn tg hm0
    exact ⟨z1, z2, z3,
      fun sn' hm' => completedL_append_left (z4 sn' (issue_snoc_complete_elim hm')), z5⟩
  · exact fun blk sn tg blk' sn' tg' hm hm' =>
      h.zbUniq blk sn tg blk' sn' tg' (hmemE _ hm).1 (hmemE _ hm').1
  · exact fun sn tg hm => h.bwBm sn tg (hmemE _ hm).1
  · exact fun sn tg sn' tg' hm hm' => h.bwUniq sn tg sn' tg' (hmemE _ hm).1 (hmemE _ hm').1
  · exact fun blk sn tg hm => h.bmwBm blk sn tg (hmemE _ hm).1
  · intro bm hbm
    exact bmInv_ext (h.bms bm hbm) [LogEvent.complete kind (snI fl) err] rfl
      (by simp) hkeep (le_refl _) rfl rfl
  · exact c1Log_append_neutral h.c1 (by simp)
  · exact fun T sn hm => h.noTagRd T sn (issue_snoc_complete_elim hm)
  · exact fun T sn hm => h.noTagBr T sn (issue_snoc_complete_elim hm)

/-- Appending plain (untagged) caller callbacks with pool serials — the
error callbacks of the router and `signal_completion` runs outside a
transaction — preserves the invariant. -/
theorem inv_plain_cb_ext {s s' : VhdState} (h : Inv s) (E : List LogEvent)
    (hlog : s'.log = s.log ++ E)
    (hE : ∀ ev ∈ E, ∃ a b c d snr,
      ev = LogEvent.callback a b c d none snr ∧ snr < s.nextSerial)
    (hns : s'.nextSerial = s.nextSerial) (hnt : s'.nextTag = s.nextTag)
    (hc : s'.cache = s.cache) (hi : s'.inflight = s.inflight) (hp : s'.plain = s.plain)
    (hpb : s'.pbwBlk = s.pbwBlk) (hbl : s'.batLocked = s.batLocked)
    (hbw : s'.batWriteStarted = s.batWriteStarted) (hbr : s'.batReqTx = s.batReqTx) :
    Inv s' := by
  have hEiss : ∀ ev ∈ E, ∀ kind sn tg, ev ≠ LogEvent.issue kind sn tg := by
    intro ev hev kind sn tg he
    obtain ⟨a, b, c, d, snr, he', -⟩ := hE ev hev
    rw [he'] at he
    cases he
  have hEcomp : ∀ ev ∈ E, ∀ kind sn e, ev ≠ LogEvent.complete kind sn e := by
    intro ev hev kind sn e he
    obtain ⟨a, b, c, d, snr, he', -⟩ := hE ev hev
    rw [he'] at he
    cases he
  have hEcb : ∀ ev ∈ E, ∀ a b c d T snr, ev ≠ LogEvent.callback a b c d (some T) snr := by
    intro ev hev a b c d T snr he
    obtain ⟨a', b', c', d', snr', he', -⟩ := hE ev hev
    rw [he'] at he
    injection he with e1 e2 e3 e4 e5 e6
    cases e5
  have hIss : ∀ kind sn tg, LogEvent.issue kind sn tg ∈ s.log ++ E →
      LogEvent.issue kind sn tg ∈ s.log := by
    intro kind sn tg hm
    rcases List.mem_append.mp hm with hm | hm
    · exact hm
    · exact absurd rfl (hEiss _ hm kind sn tg)
  have hComp : ∀ sn, completedL (s.log ++ E) sn ↔ completedL s.log sn := by
    intro sn
    constructor
    · intro hcc
      rcases completedL_append_elim hcc with h1 | h1
      · exact h1
      · obtain ⟨ki, er, hm⟩ := h1
        exact absurd rfl (hEcomp _ hm ki sn er)
    · exact completedL_append_left
  have hCb : ∀ T, cbTagged (s.log ++ E) T → cbTagged s.log T := by
    intro T hcc
    rcases cbTagged_append_elim hcc with h1 | h1
    · exact h1
    · obtain ⟨a, b, c, d, f, hm⟩ := h1
      exact absurd rfl (hEcb _ hm a b c d T f)
  have hbms : ∀ bm ∈ s'.cache, BmInv s' bm := by
    intro bm hbm
    rw [hc] at hbm
    refine bmInv_ext (h.bms bm hbm) E (by rw [hlog])
      (fun ev hev kind sn => hEiss ev hev kind sn (some bm.tx.tag)) ?_
      (le_of_eq hns.symm) hpb hbw
    intro fl hfl _
    rw [hi]
    exact hfl
  have hc1 : C1Log (s.log ++ E) := c1Log_append_neutral h.c1 (fun ev hev =>
    ⟨hEiss ev hev, hEcb ev hev⟩)
  obtain ⟨a1, a2, a3, a4, a5, a6, a7, a8, a9, a10, a11, a12, a13, a14, a15, a16, a17,
    a18, a19, a20, a21⟩ := s'
  simp only at hlog hns hnt hc hi hp hpb hbl hbw hbr hbms
  subst hlog hns hnt hc hi hp hpb hbl hbw hbr
  refine ⟨h.snPos, h.blkNodup, h.tagNodup, h.tagLt, ?_, ?_, ?_, ?_, ?_, h.inflSnNodup,
    ?_, h.plainSnLt, ?_, ?_, h.zbUniq, h.bwBm, h.bwUniq, h.bmwBm, h.parkInv, hbms, hc1,
    fun T sn hm => h.noTagRd T sn (hIss _ _ _ hm),
    fun T sn hm => h.noTagBr T sn (hIss _ _ _ hm)⟩
  · exact fun bm hbm hcc => h.tagNoCb bm hbm (hCb _ hcc)
  · intro T hT
    exact ⟨fun hcc => (h.futureTag T hT).1 (hCb _ hcc),
      fun kind sn hm => (h.futureTag T hT).2 kind sn (hIss _ _ _ hm)⟩
  · exact fun kind sn tg hm => h.issueSnLt kind sn tg (hIss _ _ _ hm)
  · intro kind sn e hm
    rcases List.mem_append.mp hm with hm | hm
    · exact h.completeSnLt _ _ _ hm
    · exact absurd rfl (hEcomp _ hm kind sn e)
  · intro a b c d tg snr hm
    rcases List.mem_append.mp hm with hm | hm
    · exact h.cbSnLt _ _ _ _ _ _ hm
    · obtain ⟨a', b', c', d', snr', he', hlt⟩ := hE _ hm
      injection he' with e1 e2 e3 e4 e5 e6
      rw [e6]
      exact hlt
  · intro fl hfl
    have hold := h.inflOk fl hfl
    cases fl with
    | data sn =>
      obtain ⟨⟨tg, hm1 | hm1⟩, hn1⟩ := hold
      · exact ⟨⟨tg, Or.inl (List.mem_append_left _ hm1)⟩, fun hcc => hn1 ((hComp _).mp hcc)⟩
      · exact ⟨⟨tg, Or.inr (List.mem_append_left _ hm1)⟩, fun hcc => hn1 ((hComp _).mp hcc)⟩
    | bitmapRead blk sn =>
      exact ⟨List.mem_append_left _ hold.1, fun hcc => hold.2 ((hComp _).mp hcc)⟩
    | bitmapWrite blk sn tg =>
      exact ⟨List.mem_append_left _ hold.1, fun hcc => hold.2 ((hComp _).mp hcc)⟩
    | zeroBm blk sn tg =>
      exact ⟨List.mem_append_left _ hold.1, fun hcc => hold.2 ((hComp _).mp hcc)⟩
    | batWrite sn tg =>
      exact ⟨List.mem_append_left _ hold.1, fun hcc => hold.2 ((hComp _).mp hcc)⟩
  · intro T kind sn hm hn
    exact h.pendLive T kind sn (hIss _ _ _ hm) (fun hcc => hn ((hComp _).mpr hcc))
  · intro blk sn tg hm
    obtain ⟨z1, z2, z3, z4, z5⟩ := h.zbMember blk sn tg hm
    exact ⟨z1, z2, z3,
      fun sn' hm' => completedL_append_left (z4 sn' (hIss _ _ _ hm')), z5⟩

/-- The router's synchronous error callback preserves the invariant. -/
theorem inv_logCb {s : VhdState} (h : Inv s) (err : Int) (lsec nrSecs id : Nat) :
    Inv (logCb s err lsec nrSecs id) := by
  refine inv_plain_cb_ext h [LogEvent.callback err lsec nrSecs id none 0] rfl ?_
    rfl rfl rfl rfl rfl rfl rfl rfl rfl
  intro ev hev
  simp only [List.mem_singleton] at hev
  exact ⟨err, lsec, nrSecs, id, 0, hev, h.snPos⟩

/-- `signal_completion` outside a transaction (requests in no list)
preserves the invariant. -/
theorem inv_signal_none (cb : Int → Nat → Nat → Nat → Int) {s : VhdState} (h : Inv s)
    (rs : List VhdRequest) (e : Int) (hrs : ∀ r ∈ rs, r.serial < s.nextSerial) :
    Inv (signalCompletion cb s rs e none).1 := by
  rw [signalCompletion_eq]
  refine inv_plain_cb_ext h (rs.map (fun r =>
    LogEvent.callback (if e ≠ 0 then e else r.error) r.lsec r.nrSecs r.id none r.serial))
    rfl ?_ rfl rfl rfl rfl rfl rfl rfl rfl rfl
  intro ev hev
  obtain ⟨r, hr, he⟩ := List.mem_map.mp hev
  exact ⟨if e ≠ 0 then e else r.error, r.lsec, r.nrSecs, r.id, r.serial, he.symm, hrs r hr⟩

/-- Rewriting the whole cache through a map that keeps block number,
transaction and write-pending bit, given the per-bitmap bookkeeping of the
result. -/
theorem inv_cache_map2 {s s' : VhdState} (h : Inv s) (f : VhdBitmap → VhdBitmap)
    (hf : ∀ bm, (f bm).blk = bm.blk ∧ (f bm).tx = bm.tx ∧
      (f bm).writePending = bm.writePending)
    (hc : s'.cache = s.cache.map f)
    (hbms : ∀ bm ∈ s'.cache, BmInv s' bm)
    (hns : s.nextSerial ≤ s'.nextSerial) (hnt : s'.nextTag = s.nextTag)
    (hl : s'.log = s.log) (hi : s'.inflight = s.inflight)
    (hp : s'.plain = s.plain) (hpb : s'.pbwBlk = s.pbwBlk)
    (hbl : s'.batLocked = s.batLocked) (hbw : s'.batWriteStarted = s.batWriteStarted)
    (hbr : s'.batReqTx = s.batReqTx) : Inv s' := by
  have hMem : ∀ bm' ∈ s'.cache, ∃ bm ∈ s.cache, bm' = f bm := by
    intro bm' hm
    rw [hc] at hm
    obtain ⟨bm, hbm, he⟩ := List.mem_map.mp hm
    exact ⟨bm, hbm, he.symm⟩
  have hbnd : s'.cache.Pairwise (fun a b => a.blk ≠ b.blk) := by
    rw [hc, List.pairwise_map]
    refine h.blkNodup.imp ?_
    intro a b hne
    rw [(hf a).1, (hf b).1]
    exact hne
  have htnd : s'.cache.Pairwise (fun a b => a.tx.tag ≠ b.tx.tag) := by
    rw [hc, List.pairwise_map]
    refine h.tagNodup.imp ?_
    intro a b hne
    rw [(hf a).2.1, (hf b).2.1]
    exact hne
  refine ⟨le_trans h.snPos hns, hbnd, htnd, ?_, ?_, ?_, ?_, ?_, ?_, ?_, ?_, ?_, ?_,
    ?_, ?_, ?_, ?_, ?_, ?_, hbms, ?_, ?_, ?_⟩
  · intro bm' hm
    obtain ⟨bm, hbm, he⟩ := hMem bm' hm
    rw [he, (hf bm).2.1, hnt]
    exact h.tagLt bm hbm
  · intro bm' hm
    obtain ⟨bm, hbm, he⟩ := hMem bm' hm
    rw [he, (hf bm).2.1, hl]
    exact h.tagNoCb bm hbm
  · intro T hT
    rw [hl]
    exact h.futureTag T (by rw [hnt] at hT; exact hT)
  · intro kind sn tg hm
    rw [hl] at hm
    exact lt_of_lt_of_le (h.issueSnLt kind sn tg hm) hns
  · intro kind sn e hm
    rw [hl] at hm
    exact lt_of_lt_of_le (h.completeSnLt kind sn e hm) hns
  · intro a b c d tg snr hm
    rw [hl] at hm
    exact lt_of_lt_of_le (h.cbSnLt a b c d tg snr hm) hns
  · rw [hi]; exact h.inflSnNodup
  · intro fl hfl
    rw [hi] at hfl
    rw [hl]
    exact h.inflOk fl hfl
  · intro r hr
    rw [hp] at hr
    exact lt_of_lt_of_le (h.plainSnLt r hr) hns
  · intro T kind sn hm hn
    rw [hl] at hm hn
    obtain ⟨bm, hbm, he⟩ := h.pendLive T kind sn hm hn
    refine ⟨f bm, by rw [hc]; exact List.mem_map_of_mem f hbm, ?_⟩
    rw [(hf bm).2.1]
    exact he
  · intro blk sn tg hm
    rw [hi] at hm
    obtain ⟨z1, z2, z3, z4, z5⟩ := h.zbMember blk sn tg hm
    obtain ⟨bm, hbm, e1, e2, e3, r, hr, e4⟩ := z5
    refine ⟨by rw [hbl, z1], by rw [hpb, z2], by rw [hbw, z3],
      fun sn' hm' => by rw [hl] at hm' ⊢; exact z4 sn' hm',
      f bm, by rw [hc]; exact List.mem_map_of_mem f hbm, ?_, ?_, ?_, r, ?_, e4⟩
    · rw [(hf bm).1]; exact e1
    · rw [(hf bm).2.1]; exact e2
    · rw [(hf bm).2.1]; exact e3
    · rw [(hf bm).2.1]; exact hr
  · intro blk sn tg blk' sn' tg' hm hm'
    rw [hi] at hm hm'
    exact h.zbUniq blk sn tg blk' sn' tg' hm hm'
  · intro sn tg hm
    rw [hi] at hm
    obtain ⟨z1, z2, bm, hbm, e1, e2, e3⟩ := h.bwBm sn tg hm
    refine ⟨by rw [hbl, z1], by rw [hbw, z2],
      f bm, by rw [hc]; exact List.mem_map_of_mem f hbm, ?_, ?_, ?_⟩
    · rw [(hf bm).1, hpb]; exact e1
    · rw [(hf bm).2.1]; exact e2
    · rw [(hf bm).2.1]; exact e3
  · intro sn tg sn' tg' hm hm'
    rw [hi] at hm hm'
    exact h.bwUniq sn tg sn' tg' hm hm'
  · intro blk sn tg hm
    rw [hi] at hm
    obtain ⟨bm, hbm, e1, e2, e3, e4⟩ := h.bmwBm blk sn tg hm
    refine ⟨f bm, by rw [hc]; exact List.mem_map_of_mem f hbm, ?_, ?_, ?_, ?_⟩
    · rw [(hf bm).1]; exact e1
    · rw [(hf bm).2.1]; exact e2
    · rw [(hf bm).2.2]; exact e3
    · rw [(hf bm).2.1]; exact e4
  · intro hbr'
    rw [hbr] at hbr'
    obtain ⟨p2, bm, hbm, e1, e2, e3, e4, e5⟩ := h.parkInv hbr'
    refine ⟨by rw [hbw, p2],
      f bm, by rw [hc]; exact List.mem_map_of_mem f hbm, ?_, ?_, ?_, ?_, ?_⟩
    · rw [(hf bm).1, hpb]; exact e1
    · rw [(hf bm).2.1]; exact e2
    · rw [(hf bm).2.1]; exact e3
    · rw [(hf bm).2.1]; exact e4
    · rw [(hf bm).2.2]; exact e5
  · rw [hl]; exact h.c1
  · rw [hl]; exact h.noTagRd
  · rw [hl]; exact h.noTagBr

theorem inv_touchBitmap {s : VhdState} (h : Inv s) (blk : Nat) :
    Inv (touchBitmap s blk) := by
  unfold touchBitmap bitmapLruSeqno updateBm
  by_cases hb : (s.bmLru == 0xffffffff) = true
  · rw [if_pos hb]
    simp only
    refine inv_cache_map h _ ?_ (by rw [List.map_map]) (le_refl _) rfl rfl rfl rfl rfl
      rfl rfl rfl
    intro bm
    refine ⟨?_, ?_, ?_, ?_, ?_⟩ <;> (dsimp only [Function.comp]; split <;> rfl)
  · rw [if_neg hb]
    simp only
    refine inv_cache_map h _ ?_ rfl (le_refl _) rfl rfl rfl rfl rfl rfl rfl rfl
    intro bm
    refine ⟨?_, ?_, ?_, ?_, ?_⟩ <;> (dsimp only; split <;> rfl)

/-- The classifier preserves the invariant (it only touches the LRU
bookkeeping). -/
theorem inv_readBitmapCache {s : VhdState} (h : Inv s) {sector : Nat} {w : Bool}
    {out : BmClass × VhdState} (hr : readBitmapCache s sector w = some out) :
    Inv out.2 := by
  unfold readBitmapCache at hr
  by_cases hf : s.hdType = HdType.fixed
  · rw [if_pos hf] at hr; cases hr; exact h
  · rw [if_neg hf] at hr
    by_cases hrange : sector / s.spb > s.maxBatSize
    · rw [if_pos hrange] at hr; cases hr; exact h
    · rw [if_neg hrange] at hr
      rcases hb : batEntry s (sector / s.spb) with _ | e <;> rw [hb] at hr
      · cases hr
      · simp only at hr
        by_cases he : e = DD_BLK_UNUSED
        · rw [if_pos he] at hr
          by_cases hw : (w = true) ∧ s.pbwBlk ≠ sector / s.spb ∧ s.batLocked = true
          · rw [if_pos hw] at hr; cases hr; exact h
          · rw [if_neg hw] at hr; cases hr; exact h
        · rw [if_neg he] at hr
          by_cases hd : s.hdType = HdType.dynamic
          · rw [if_pos hd] at hr; cases hr; exact h
          · rw [if_neg hd] at hr
            rcases hg : getBitmap s (sector / s.spb) with _ | bm <;> rw [hg] at hr
            · cases hr; exact h
            · simp only at hr
              by_cases hp : bm.readPending = true
              · rw [if_pos hp] at hr; cases hr; exact inv_touchBitmap h _
              · rw [if_neg hp] at hr
                by_cases hbit : bm.map (sector % s.spb) = true
                · rw [if_pos hbit] at hr; cases hr; exact inv_touchBitmap h _
                · rw [if_neg hbit] at hr; cases hr; exact inv_touchBitmap h _

/-- `alloc_vhd_request` preserves the invariant and hands out the fresh
serial. -/
theorem inv_alloc {s : VhdState} (h : Inv s) {p : VhdRequest × VhdState}
    (hp : allocVhdRequest s = some p) : Inv p.2 := by
  unfold allocVhdRequest at hp
  split at hp
  · cases hp
    exact inv_congr h (by simp) (le_refl _) rfl rfl rfl rfl rfl rfl rfl rfl
  · cases hp

theorem mem_snoc_elim {α : Type} {l : List α} {a b : α} (h : b ∈ l ++ [a]) :
    b ∈ l ∨ b = a := by
  rcases List.mem_append.mp h with h | h
  · exact Or.inl h
  · exact Or.inr (List.mem_singleton.mp h)

theorem pairwise_snoc {α : Type} {R : α → α → Prop} {l : List α} {a : α}
    (h : l.Pairwise R) (ha : ∀ b ∈ l, R b a) : (l ++ [a]).Pairwise R :=
  List.pairwise_append.mpr ⟨h, List.pairwise_singleton R a,
    fun x hx y hy => by rw [List.mem_singleton.mp hy]; exact ha x hx⟩

theorem completedL_snoc_issue {L : List LogEvent} {kind : IoKind} {sn : Nat}
    {tg : Option Nat} {sn' : Nat} :
    completedL (L ++ [LogEvent.issue kind sn tg]) sn' ↔ completedL L sn' := by
  constructor
  · intro hc
    rcases completedL_append_elim hc with h1 | h1
    · exact h1
    · obtain ⟨ki, er, hm⟩ := h1
      simp only [List.mem_singleton] at hm
      cases hm
  · exact completedL_append_left

theorem cbTagged_snoc_issue {L : List LogEvent} {kind : IoKind} {sn : Nat}
    {tg : Option Nat} {T : Nat} :
    cbTagged (L ++ [LogEvent.issue kind sn tg]) T ↔ cbTagged L T := by
  constructor
  · intro hc
    rcases cbTagged_append_elim hc with h1 | h1
    · exact h1
    · obtain ⟨a, b, c, d, f, hm⟩ := h1
      simp only [List.mem_singleton] at hm
      cases hm
  · intro ⟨a, b, c, d, f, hm⟩
    exact ⟨a, b, c, d, f, List.mem_append_left _ hm⟩

theorem cb_snoc_issue_elim {L : List LogEvent} {kind : IoKind} {sn : Nat}
    {tg : Option Nat} {a : Int} {b c d : Nat} {tg' : Option Nat} {snr : Nat}
    (h : LogEvent.callback a b c d tg' snr ∈ L ++ [LogEvent.issue kind sn tg]) :
    LogEvent.callback a b c d tg' snr ∈ L := by
  rcases List.mem_append.mp h with h1 | h1
  · exact h1
  · simp only [List.mem_singleton] at h1
    cases h1

theorem issue_snoc_issue_elim {L : List LogEvent} {kind : IoKind} {sn : Nat}
    {tg : Option Nat} {kind' : IoKind} {sn' : Nat} {tg' : Option Nat}
    (h : LogEvent.issue kind' sn' tg' ∈ L ++ [LogEvent.issue kind sn tg]) :
    LogEvent.issue kind' sn' tg' ∈ L ∨ (kind' = kind ∧ sn' = sn ∧ tg' = tg) := by
  rcases List.mem_append.mp h with h1 | h1
  · exact Or.inl h1
  · simp only [List.mem_singleton] at h1
    injection h1 with e1 e2 e3
    exact Or.inr ⟨e1, e2, e3⟩

theorem complete_snoc_issue_elim {L : List LogEvent} {kind : IoKind} {sn : Nat}
    {tg : Option Nat} {kind' : IoKind} {sn' : Nat} {e : Int}
    (h : LogEvent.complete kind' sn' e ∈ L ++ [LogEvent.issue kind sn tg]) :
    LogEvent.complete kind' sn' e ∈ L := by
  rcases List.mem_append.mp h with h1 | h1
  · exact h1
  · simp only [List.mem_singleton] at h1
    cases h1

theorem inflightIssued_ext {L E : List LogEvent} {fl : Inflight}
    (h : inflightIssued L fl)
    (hco : ∀ sn, completedL (L ++ E) sn → completedL L sn) :
    inflightIssued (L ++ E) fl := by
  cases fl with
  | data sn =>
    obtain ⟨⟨tg, hm | hm⟩, hn⟩ := h
    · exact ⟨⟨tg, Or.inl (List.mem_append_left _ hm)⟩, fun hc => hn (hco _ hc)⟩
    · exact ⟨⟨tg, Or.inr (List.mem_append_left _ hm)⟩, fun hc => hn (hco _ hc)⟩
  | bitmapRead blk sn =>
    exact ⟨List.mem_append_left _ h.1, fun hc => h.2 (hco _ hc)⟩
  | bitmapWrite blk sn tg =>
    exact ⟨List.mem_append_left _ h.1, fun hc => h.2 (hco _ hc)⟩
  | zeroBm blk sn tg =>
    exact ⟨List.mem_append_left _ h.1, fun hc => h.2 (hco _ hc)⟩
  | batWrite sn tg =>
    exact ⟨List.mem_append_left _ h.1, fun hc => h.2 (hco _ hc)⟩

/-- Issuing one data I/O on a pool request that joins no list but `plain` —
the common shape of `schedule_data_read` and the plain branch of
`schedule_data_write` — preserves the invariant. -/
theorem inv_issue_data_plain {s s' : VhdState} (h : Inv s) {kind : IoKind}
    (hk : kind = IoKind.dataRead ∨ kind = IoKind.dataWrite) (r : VhdRequest)
    (hr : r.serial = s.nextSerial)
    (hlog : s'.log = s.log ++ [LogEvent.issue kind r.serial none])
    (hinfl : s'.inflight = s.inflight ++ [Inflight.data r.serial])
    (hns : s'.nextSerial = s.nextSerial + 1)
    (hnt : s'.nextTag = s.nextTag)
    (hcache : s'.cache = s.cache)
    (hplain : s'.plain = s.plain ++ [r])
    (hpb : s'.pbwBlk = s.pbwBlk) (hbl : s'.batLocked = s.batLocked)
    (hbw : s'.batWriteStarted = s.batWriteStarted) (hbr : s'.batReqTx = s.batReqTx) :
    Inv s' := by
  have hco : ∀ sn, completedL s'.log sn → completedL s.log sn := by
    intro sn hc
    rw [hlog] at hc
    exact completedL_snoc_issue.mp hc
  have hcoR : ∀ sn, completedL s.log sn → completedL s'.log sn := by
    intro sn hc
    rw [hlog]
    exact completedL_append_left hc
  have hiss : ∀ kind' sn' T, LogEvent.issue kind' sn' (some T) ∈ s'.log →
      LogEvent.issue kind' sn' (some T) ∈ s.log := by
    intro kind' sn' T hm
    rw [hlog] at hm
    rcases issue_snoc_issue_elim hm with hm | ⟨-, -, he⟩
    · exact hm
    · cases he
  have hsnlt : ∀ fl ∈ s.inflight, snI fl ≠ r.serial := by
    intro fl hfl
    rw [hr]
    exact Nat.ne_of_lt (inflight_sn_lt h hfl)
  refine ⟨?_, ?_, ?_, ?_, ?_, ?_, ?_, ?_, ?_, ?_, ?_, ?_, ?_, ?_, ?_, ?_, ?_, ?_, ?_,
    ?_, ?_, ?_, ?_⟩
  · rw [hns]; exact le_trans h.snPos (by omega)
  · rw [hcache]; exact h.blkNodup
  · rw [hcache]; exact h.tagNodup
  · intro bm hbm
    rw [hcache] at hbm
    rw [hnt]
    exact h.tagLt bm hbm
  · intro bm hbm hc
    rw [hcache] at hbm
    rw [hlog] at hc
    exact h.tagNoCb bm hbm (cbTagged_snoc_issue.mp hc)
  · intro T hT
    rw [hnt] at hT
    constructor
    · intro hc
      rw [hlog] at hc
      exact (h.futureTag T hT).1 (cbTagged_snoc_issue.mp hc)
    · intro kind' sn' hm
      exact (h.futureTag T hT).2 kind' sn' (hiss _ _ _ hm)
  · intro kind' sn' tg hm
    rw [hlog] at hm
    rw [hns]
    rcases issue_snoc_issue_elim hm with hm | ⟨-, he, -⟩
    · exact lt_trans (h.issueSnLt _ _ _ hm) (by omega)
    · rw [he, hr]; omega
  · intro kind' sn' e hm
    rw [hlog] at hm
    rw [hns]
    exact lt_trans (h.completeSnLt _ _ _ (complete_snoc_issue_elim hm)) (by omega)
  · intro a b c d tg snr hm
    rw [hlog] at hm
    rw [hns]
    exact lt_trans (h.cbSnLt _ _ _ _ _ _ (cb_snoc_issue_elim hm)) (by omega)
  · rw [hinfl]
    exact pairwise_snoc h.inflSnNodup (fun b hb => hsnlt b hb)
  · intro fl hfl
    rw [hinfl] at hfl
    rcases mem_snoc_elim hfl with hfl | hfl
    · have := h.inflOk fl hfl
      rw [hlog]
      exact inflightIssued_ext this (fun sn hc => hco sn (by rw [hlog]; exact hc))
    · rw [hfl]
      refine ⟨⟨none, ?_⟩, ?_⟩
      · rcases hk with hk | hk
        · rw [hk] at hlog
          exact Or.inl (by rw [hlog]; exact List.mem_append_right _ (by simp))
        · rw [hk] at hlog
          exact Or.inr (by rw [hlog]; exact List.mem_append_right _ (by simp))
      · intro hc
        obtain ⟨ki, er, hm⟩ := hc
        rw [hlog] at hm
        have := h.completeSnLt _ _ _ (complete_snoc_issue_elim hm)
        rw [hr] at this
        omega
  · intro r' hr'
    rw [hplain] at hr'
    rw [hns]
    rcases mem_snoc_elim hr' with hr' | hr'
    · exact lt_trans (h.plainSnLt r' hr') (by omega)
    · rw [hr', hr]; omega
  · intro T kind' sn' hm hn
    rw [hcache]
    refine h.pendLive T kind' sn' (hiss _ _ _ hm) ?_
    intro hc
    exact hn (hcoR _ hc)
  · intro blk sn' tg hm
    rw [hinfl] at hm
    rcases mem_snoc_elim hm with hm | hm
    swap
    · cases hm
    obtain ⟨z1, z2, z3, z4, z5⟩ := h.zbMember blk sn' tg hm
    refine ⟨by rw [hbl, z1], by rw [hpb, z2], by rw [hbw, z3], ?_, by rw [hcache]; exact z5⟩
    intro sn'' hm'
    rw [hlog] at hm' ⊢
    rcases issue_snoc_issue_elim hm' with hm' | ⟨he, -, -⟩
    · exact completedL_append_left (z4 sn'' hm')
    · rcases hk with hk | hk <;> (rw [hk] at he; cases he)
  · intro blk sn1 tg blk' sn2 tg' hm hm'
    rw [hinfl] at hm hm'
    rcases mem_snoc_elim hm with hm | hm
    · rcases mem_snoc_elim hm' with hm' | hm'
      · exact h.zbUniq _ _ _ _ _ _ hm hm'
      · cases hm'
    · cases hm
  · intro sn1 tg hm
    rw [hinfl] at hm
    rcases mem_snoc_elim hm with hm | hm
    swap
    · cases hm
    obtain ⟨z1, z2, bm, hbm, e1, e2, e3⟩ := h.bwBm sn1 tg hm
    exact ⟨by rw [hbl, z1], by rw [hbw, z2], bm, by rw [hcache]; exact hbm,
      by rw [hpb]; exact e1, e2, e3⟩
  · intro sn1 tg sn2 tg' hm hm'
    rw [hinfl] at hm hm'
    rcases mem_snoc_elim hm with hm | hm
    · rcases mem_snoc_elim hm' with hm' | hm'
      · exact h.bwUniq _ _ _ _ hm hm'
      · cases hm'
    · cases hm
  · intro blk sn1 tg hm
    rw [hinfl] at hm
    rcases mem_snoc_elim hm with hm | hm
    swap
    · cases hm
    obtain ⟨bm, hbm, e1, e2, e3, e4⟩ := h.bmwBm blk sn1 tg hm
    exact ⟨bm, by rw [hcache]; exact hbm, e1, e2, e3, e4⟩
  · intro hbr'
    rw [hbr] at hbr'
    obtain ⟨p2, bm, hbm, e1, e2, e3, e4, e5⟩ := h.parkInv hbr'
    exact ⟨by rw [hbw, p2], bm, by rw [hcache]; exact hbm,
      by rw [hpb]; exact e1, e2, e3, e4, e5⟩
  · intro bm hbm
    rw [hcache] at hbm
    refine bmInv_ext (h.bms bm hbm) [LogEvent.issue kind r.serial none] hlog ?_ ?_
      (by rw [hns]; omega) hpb hbw
    · intro ev hev kind' sn' he
      simp only [List.mem_singleton] at hev
      rw [hev] at he
      injection he with e1 e2 e3
      cases e3
    · intro fl hfl _
      rw [hinfl]
      exact List.mem_append_left _ hfl
  · rw [hlog]
    refine c1Log_append_issue h.c1 ?_ ?_
    · intro T he
      cases he
    · intro a b c d T snr hm he
      have := h.cbSnLt a b c d (some T) snr hm
      rw [he, hr] at this
      omega
  · intro T sn hm
    rw [hlog] at hm
    rcases issue_snoc_issue_elim hm with hm | ⟨-, -, he⟩
    · exact h.noTagRd T sn hm
    · cases he
  · intro T sn hm
    rw [hlog] at hm
    rcases issue_snoc_issue_elim hm with hm | ⟨-, -, he⟩
    · exact h.noTagBr T sn hm
    · cases he

theorem alloc_spec {s : VhdState} {p : VhdRequest × VhdState}
    (hp : allocVhdRequest s = some p) :
    p.1.serial = s.nextSerial ∧ p.2.nextSerial = s.nextSerial + 1 ∧ p.2.log = s.log ∧
    p.2.cache = s.cache ∧ p.2.inflight = s.inflight ∧ p.2.plain = s.plain ∧
    p.2.nextTag = s.nextTag ∧ p.2.pbwBlk = s.pbwBlk ∧ p.2.batLocked = s.batLocked ∧
    p.2.batWriteStarted = s.batWriteStarted ∧ p.2.batReqTx = s.batReqTx ∧
    p.1.error = 0 ∧ p.1.fFinished = false := by
  unfold allocVhdRequest at hp
  split at hp
  · cases hp
    exact ⟨rfl, rfl, rfl, rfl, rfl, rfl, rfl, rfl, rfl, rfl, rfl, rfl, rfl⟩
  · cases hp

theorem inv_scheduleDataRead {s : VhdState} (h : Inv s) {sector nrSecs id : Nat}
    {s' : VhdState} (hs : scheduleDataRead s sector nrSecs id = SRes.ok s') : Inv s' := by
  unfold scheduleDataRead at hs
  simp only [SRes.bind] at hs
  split at hs
  · cases hs
  · cases hs
  · rcases hp : allocVhdRequest s with _ | ⟨r0, s1⟩ <;> rw [hp] at hs
    · cases hs
    · simp only at hs
      cases hs
      obtain ⟨a1, a2, a3, a4, a5, a6, a7, a8, a9, a10, a11, a12, a13⟩ := alloc_spec hp
      refine inv_issue_data_plain h (Or.inl rfl)
        { r0 with lsec := sector, nrSecs := nrSecs, id := id, op := VhdOp.dataRead }
        a1 ?_ ?_ ?_ ?_ ?_ ?_ ?_ ?_ ?_ ?_
      · show s1.log ++ _ = s.log ++ _
        rw [a3]
      · show s1.inflight ++ _ = s.inflight ++ _
        rw [a5]
      · show s1.nextSerial = _
        rw [a2]
      · exact a7
      · exact a4
      · show s1.plain ++ _ = s.plain ++ _
        rw [a6]
      · exact a8
      · exact a9
      · exact a10
      · exact a11

theorem inv_queueRequest {s : VhdState} (h : Inv s) {op : VhdOp} {sector nrSecs id : Nat}
    {s' : VhdState} (hs : queueRequest s op sector nrSecs id = SRes.ok s') : Inv s' := by
  unfold queueRequest at hs
  by_cases hf : s.hdType = HdType.fixed
  · rw [if_pos hf] at hs; cases hs
  · rw [if_neg hf] at hs
    simp only at hs
    rcases hg : getBitmap s (sector / s.spb) with _ | bm <;> rw [hg] at hs
    · cases hs
    · simp only at hs
      by_cases hp : (!bm.readPending) = true
      · rw [if_pos hp] at hs; cases hs
      · rw [if_neg hp] at hs
        rcases ha : allocVhdRequest s with _ | ⟨r0, s1⟩ <;> rw [ha] at hs
        · cases hs
        · simp only at hs
          cases hs
          obtain ⟨a1, a2, a3, a4, a5, a6, a7, a8, a9, a10, a11, a12, a13⟩ := alloc_spec ha
          have h1 : Inv s1 := inv_alloc h ha
          refine inv_cache_map2 h1 _ ?_ rfl ?_ (le_refl _) rfl rfl rfl rfl rfl rfl rfl rfl
          · intro b
            refine ⟨?_, ?_, ?_⟩ <;> (dsimp only; split <;> rfl)
          · intro b hb
            obtain ⟨b0, hb0, he⟩ := List.mem_map.mp hb
            have B := h1.bms b0 hb0
            by_cases hblk : (b0.blk == sector / s.spb) = true
            · rw [if_pos hblk] at he
              rw [← he]
              refine ⟨B.closedDone, B.finLe, B.cnt, B.reqNodup, B.queueNodup, B.reqSnLt,
                B.queueSnLt, ?_, B.memFin, B.memIssued, B.memOp, B.queueFin,
                B.queueIssued, B.queueOp, B.taggedMember, B.bmwPend, B.bmwUniq, B.batPend,
                B.wpClosed⟩
              intro r' hr'
              rcases mem_snoc_elim hr' with hr' | hr'
              · exact B.waitSnLt r' hr'
              · rw [hr']
                show r0.serial < s1.nextSerial
                rw [a1, a2]
                omega
            · rw [if_neg hblk] at he
              rw [← he]
              exact bmInv_state_congr B rfl rfl (le_refl _) rfl rfl

theorem findLru_aux (f : Option VhdBitmap × Nat → VhdBitmap → Option VhdBitmap × Nat)
    (hf : ∀ acc b, (f acc b).1 = acc.1 ∨ (f acc b).1 = some b) :
    ∀ (l : List VhdBitmap) (acc : Option VhdBitmap × Nat) (x : VhdBitmap),
    (l.foldl f acc).1 = some x → acc.1 = some x ∨ x ∈ l := by
  intro l
  induction l with
  | nil => intro acc x hx; exact Or.inl hx
  | cons b rest ih =>
    intro acc x hx
    rw [List.foldl_cons] at hx
    rcases ih (f acc b) x hx with h1 | h1
    · rcases hf acc b with h2 | h2
      · rw [h2] at h1
        exact Or.inl h1
      · rw [h2] at h1
        injection h1 with h1
        exact Or.inr (by rw [← h1]; exact List.mem_cons_self b rest)
    · exact Or.inr (List.mem_cons_of_mem b h1)

theorem findLru_mem {cache : List VhdBitmap} {seq : Nat} {lru : VhdBitmap}
    (h : findLru cache seq = some lru) : lru ∈ cache := by
  unfold findLru at h
  rcases findLru_aux _ (fun acc b => by split <;> simp) cache (none, seq) lru h
    with h1 | h1
  · cases h1
  · exact h1

theorem eraseP_blk {l : List VhdBitmap} (hnd : l.Pairwise (fun a b => a.blk ≠ b.blk))
    {lru : VhdBitmap} (hm : lru ∈ l) (x : VhdBitmap) :
    x ∈ l.eraseP (fun bm => bm.blk == lru.blk) ↔ (x ∈ l ∧ x ≠ lru) := by
  induction l with
  | nil => cases hm
  | cons a rest ih =>
    obtain ⟨hhead, htail⟩ := List.pairwise_cons.mp hnd
    by_cases hp : (a.blk == lru.blk) = true
    · rw [show List.eraseP (fun bm => bm.blk == lru.blk) (a :: rest) = rest from by
        simp [List.eraseP_cons, hp]]
      have hla : lru = a := by
        rcases List.mem_cons.mp hm with h1 | h1
        · exact h1
        · exact absurd (beq_iff_eq.mp hp) (hhead lru h1)
      subst hla
      constructor
      · intro hx
        refine ⟨List.mem_cons_of_mem _ hx, ?_⟩
        intro he
        rw [he] at hx
        exact hhead lru hx rfl
      · intro ⟨hx, hne⟩
        rcases List.mem_cons.mp hx with h1 | h1
        · exact absurd h1 hne
        · exact h1
    · have hpf : (a.blk == lru.blk) = false := by simpa using hp
      rw [show List.eraseP (fun bm => bm.blk == lru.blk) (a :: rest)
          = a :: List.eraseP (fun bm => bm.blk == lru.blk) rest from by
        simp [List.eraseP_cons, hpf]]
      have hlr : lru ∈ rest := by
        rcases List.mem_cons.mp hm with h1 | h1
        · rw [h1] at hp
          simp at hp
        · exact h1
      constructor
      · intro hx
        rcases List.mem_cons.mp hx with h1 | h1
        · refine ⟨by rw [h1]; exact List.mem_cons_self a rest, ?_⟩
          intro he
          rw [h1] at he
          rw [he] at hhead
          exact hhead lru hlr rfl
        · obtain ⟨h2, h3⟩ := (ih htail hlr).mp h1
          exact ⟨List.mem_cons_of_mem _ h2, h3⟩
      · intro ⟨hx, hne⟩
        rcases List.mem_cons.mp hx with h1 | h1
        · rw [h1]
          exact List.mem_cons_self _ _
        · exact List.mem_cons_of_mem _ ((ih htail hlr).mpr ⟨h1, hne⟩)

/-- Evicting an unused cached bitmap preserves the invariant. -/
theorem inv_evict {s s' : VhdState} (h : Inv s) {lru : VhdBitmap} (hm : lru ∈ s.cache)
    (huse : bitmapInUse lru = false)
    (hc : s'.cache = s.cache.eraseP (fun bm => bm.blk == lru.blk))
    (hns : s.nextSerial ≤ s'.nextSerial) (hnt : s.nextTag ≤ s'.nextTag)
    (hl : s'.log = s.log) (hi : s'.inflight = s.inflight) (hp : s'.plain = s.plain)
    (hpb : s'.pbwBlk = s.pbwBlk) (hbl : s'.batLocked = s.batLocked)
    (hbw : s'.batWriteStarted = s.batWriteStarted) (hbr : s'.batReqTx = s.batReqTx) :
    Inv s' := by
  have hu : lru.readPending = false ∧ lru.writePending = false ∧
      lru.tx.updateBat = false ∧ lru.waiting = [] ∧ lru.tx.requests = [] ∧
      lru.queue = [] := by
    unfold bitmapInUse at huse
    simp only [Bool.or_eq_false_iff, Bool.not_eq_false', List.isEmpty_iff] at huse
    exact ⟨huse.1.1.1.1.1, huse.1.1.1.1.2, huse.1.1.1.2, huse.1.1.2, huse.1.2, huse.2⟩
  have hmm : ∀ x, x ∈ s'.cache ↔ (x ∈ s.cache ∧ x ≠ lru) := by
    intro x
    rw [hc]
    exact eraseP_blk h.blkNodup hm x
  have hnopend : ∀ kind sn, LogEvent.issue kind sn (some lru.tx.tag) ∈ s.log →
      completedL s.log sn := by
    intro kind sn hiss
    by_contra hnc
    have B := h.bms lru hm
    cases kind with
    | dataRead => exact h.noTagRd _ _ hiss
    | bitmapRead => exact h.noTagBr _ _ hiss
    | dataWrite =>
      obtain ⟨r, hr, -, -⟩ := B.taggedMember _ _ (Or.inl rfl) hiss hnc
      rw [hu.2.2.2.2.1] at hr
      cases hr
    | zeroBmWrite =>
      obtain ⟨r, hr, -, -⟩ := B.taggedMember _ _ (Or.inr rfl) hiss hnc
      rw [hu.2.2.2.2.1] at hr
      cases hr
    | bitmapWrite =>
      obtain ⟨hw, -, -⟩ := B.bmwPend _ hiss hnc
      rw [hu.2.1] at hw
      cases hw
    | batWrite =>
      obtain ⟨hb, -, -, -⟩ := B.batPend _ hiss hnc
      rw [hu.2.2.1] at hb
      cases hb
  have hsub : ∀ x ∈ s'.cache, x ∈ s.cache := fun x hx => ((hmm x).mp hx).1
  refine ⟨le_trans h.snPos hns, ?_, ?_, ?_, ?_, ?_, ?_, ?_, ?_, ?_, ?_, ?_, ?_, ?_,
    ?_, ?_, ?_, ?_, ?_, ?_, ?_, ?_, ?_⟩
  · rw [hc]; exact h.blkNodup.sublist (List.eraseP_sublist _)
  · rw [hc]; exact h.tagNodup.sublist (List.eraseP_sublist _)
  · exact fun bm hbm => lt_of_lt_of_le (h.tagLt bm (hsub bm hbm)) hnt
  · intro bm hbm
    rw [hl]
    exact h.tagNoCb bm (hsub bm hbm)
  · intro T hT
    rw [hl]
    exact h.futureTag T (le_trans hnt hT)
  · intro kind sn tg hiss
    rw [hl] at hiss
    exact lt_of_lt_of_le (h.issueSnLt _ _ _ hiss) hns
  · intro kind sn e hiss
    rw [hl] at hiss
    exact lt_of_lt_of_le (h.completeSnLt _ _ _ hiss) hns
  · intro a b c d tg snr hiss
    rw [hl] at hiss
    exact lt_of_lt_of_le (h.cbSnLt _ _ _ _ _ _ hiss) hns
  · rw [hi]; exact h.inflSnNodup
  · intro fl hfl
    rw [hi] at hfl
    rw [hl]
    exact h.inflOk fl hfl
  · intro r hr
    rw [hp] at hr
    exact lt_of_lt_of_le (h.plainSnLt r hr) hns
  · intro T kind sn hiss hnc
    rw [hl] at hiss hnc
    obtain ⟨bm, hbm, he⟩ := h.pendLive T kind sn hiss hnc
    by_cases heq : bm = lru
    · exfalso
      rw [heq] at he
      rw [← he] at hiss
      exact hnc (hnopend kind sn hiss)
    · exact ⟨bm, (hmm bm).mpr ⟨hbm, heq⟩, he⟩
  · intro blk sn tg hfl
    rw [hi] at hfl
    obtain ⟨z1, z2, z3, z4, z5⟩ := h.zbMember blk sn tg hfl
    obtain ⟨bm, hbm, e1, e2, e3, r, hr, e4⟩ := z5
    have hne : bm ≠ lru := by
      intro he
      rw [he, hu.2.2.2.2.1] at hr
      cases hr
    exact ⟨by rw [hbl]; exact z1, by rw [hpb]; exact z2, by rw [hbw]; exact z3,
      fun sn' hm' => by rw [hl] at hm' ⊢; exact z4 sn' hm',
      bm, (hmm bm).mpr ⟨hbm, hne⟩, e1, e2, e3, r, hr, e4⟩
  · intro blk sn tg blk' sn' tg' h1 h2
    rw [hi] at h1 h2
    exact h.zbUniq _ _ _ _ _ _ h1 h2
  · intro sn tg hfl
    rw [hi] at hfl
    obtain ⟨z1, z2, bm, hbm, e1, e2, e3⟩ := h.bwBm sn tg hfl
    have hne : bm ≠ lru := by
      intro he
      rw [he, hu.2.2.1] at e3
      cases e3
    exact ⟨by rw [hbl]; exact z1, by rw [hbw]; exact z2,
      bm, (hmm bm).mpr ⟨hbm, hne⟩, by rw [hpb]; exact e1, e2, e3⟩
  · intro sn tg sn' tg' h1 h2
    rw [hi] at h1 h2
    exact h.bwUniq _ _ _ _ h1 h2
  · intro blk sn tg hfl
    rw [hi] at hfl
    obtain ⟨bm, hbm, e1, e2, e3, e4⟩ := h.bmwBm blk sn tg hfl
    have hne : bm ≠ lru := by
      intro he
      rw [he, hu.2.1] at e3
      cases e3
    exact ⟨bm, (hmm bm).mpr ⟨hbm, hne⟩, e1, e2, e3, e4⟩
  · intro hbr'
    rw [hbr] at hbr'
    obtain ⟨p2, bm, hbm, e1, e2, e3, e4, e5⟩ := h.parkInv hbr'
    have hne : bm ≠ lru := by
      intro he
      rw [he, hu.2.2.1] at e4
      cases e4
    exact ⟨by rw [hbw]; exact p2,
      bm, (hmm bm).mpr ⟨hbm, hne⟩, by rw [hpb]; exact e1, e2, e3, e4, e5⟩
  · intro bm hbm
    exact bmInv_state_congr (h.bms bm (hsub bm hbm)) hl hi hns hpb hbw
  · rw [hl]; exact h.c1
  · intro T sn
    rw [hl]
    exact h.noTagRd T sn
  · intro T sn
    rw [hl]
    exact h.noTagBr T sn

/-- `alloc_vhd_bitmap` preserves the invariant and returns a bitmap with a
fresh transaction tag (the pre-call tag counter). -/
theorem alloc_bm_spec {s : VhdState} (h : Inv s) {blk : Nat}
    {p : VhdBitmap × VhdState} (ha : allocVhdBitmap s blk = SRes.ok p) :
    Inv p.2 ∧ p.1 = initVhdBitmap blk s.nextTag ∧ p.2.nextTag = s.nextTag + 1 ∧
    (∀ b ∈ p.2.cache, b ∈ s.cache) ∧
    p.2.log = s.log ∧ p.2.inflight = s.inflight ∧ p.2.nextSerial = s.nextSerial ∧
    p.2.plain = s.plain ∧ p.2.pbwBlk = s.pbwBlk ∧ p.2.batLocked = s.batLocked ∧
    p.2.batWriteStarted = s.batWriteStarted ∧ p.2.batReqTx = s.batReqTx := by
  unfold allocVhdBitmap freshTag at ha
  split at ha
  · simp only at ha
    cases ha
    refine ⟨inv_congr h (le_refl _) (by simp) rfl rfl rfl rfl rfl rfl rfl rfl, rfl, rfl,
      fun b hb => hb, rfl, rfl, rfl, rfl, rfl, rfl, rfl, rfl⟩
  · rcases hlru : findLru s.cache s.bmLru with _ | lru <;> rw [hlru] at ha
    · cases ha
    · simp only at ha
      by_cases hu : bitmapInUse lru = true
      · rw [if_pos hu] at ha; cases ha
      · rw [if_neg hu] at ha
        cases ha
        have hmem := findLru_mem hlru
        refine ⟨inv_evict h hmem (by simpa using hu) rfl (le_refl _) (by simp) rfl rfl
          rfl rfl rfl rfl rfl, rfl, rfl, ?_, rfl, rfl, rfl, rfl, rfl, rfl, rfl, rfl⟩
        intro b hb
        exact ((eraseP_blk h.blkNodup hmem b).mp hb).1

/-- Installing a freshly allocated bitmap (empty transaction, fresh tag,
block not yet cached) preserves the invariant. -/
theorem inv_installBitmap {s : VhdState} (h : Inv s) {bm : VhdBitmap} {s' : VhdState}
    (hi : installBitmap s bm = some s')
    (hblk : ∀ b ∈ s.cache, b.blk ≠ bm.blk)
    (htag : ∀ b ∈ s.cache, b.tx.tag ≠ bm.tx.tag)
    (htlt : bm.tx.tag < s.nextTag)
    (hniss : ∀ kind sn, LogEvent.issue kind sn (some bm.tx.tag) ∉ s.log)
    (hncb : ¬ cbTagged s.log bm.tx.tag)
    (hbm : bm.tx.started = 0 ∧ bm.tx.finished = 0 ∧ bm.tx.closed = false ∧
      bm.tx.updateBat = false ∧ bm.tx.requests = [] ∧ bm.writePending = false ∧
      bm.queue = [] ∧ bm.waiting = []) : Inv s' := by
  have key : ∀ (g : VhdBitmap → VhdBitmap) (sq lru : Nat),
      (∀ b, (g b).blk = b.blk ∧ (g b).tx = b.tx ∧ (g b).writePending = b.writePending ∧
        (g b).queue = b.queue ∧ (g b).waiting = b.waiting) →
      Inv { s with bmLru := lru, cache := s.cache.map g ++ [{ bm with seqno := sq }] } := by
    intro g sq lru hg
    have hMem : ∀ b' ∈ s.cache.map g, ∃ b ∈ s.cache, b' = g b := by
      intro b' hb'
      obtain ⟨b, hb, he⟩ := List.mem_map.mp hb'
      exact ⟨b, hb, he.symm⟩
    have hNew : BmInv s { bm with seqno := sq } := by
      refine ⟨?_, ?_, ?_, ?_, ?_, ?_, ?_, ?_, ?_, ?_, ?_, ?_, ?_, ?_, ?_, ?_, ?_, ?_, ?_⟩
      · show bm.tx.closed = true → _
        rw [hbm.2.2.1]
        intro hc
        cases hc
      · show bm.tx.finished ≤ bm.tx.started
        rw [hbm.1, hbm.2.1]
      · show bm.tx.requests.countP _ = bm.tx.started - bm.tx.finished
        rw [hbm.1, hbm.2.1, hbm.2.2.2.2.1]
        rfl
      · show (bm.tx.requests.map _).Nodup
        rw [hbm.2.2.2.2.1]
        exact List.nodup_nil
      · show (bm.queue.map _).Nodup
        rw [hbm.2.2.2.2.2.2.1]
        exact List.nodup_nil
      · show ∀ r ∈ bm.tx.requests, _
        rw [hbm.2.2.2.2.1]
        intro r hr
        cases hr
      · show ∀ r ∈ bm.queue, _
        rw [hbm.2.2.2.2.2.2.1]
        intro r hr
        cases hr
      · show ∀ r ∈ bm.waiting, _
        rw [hbm.2.2.2.2.2.2.2]
        intro r hr
        cases hr
      · show ∀ r ∈ bm.tx.requests, _
        rw [hbm.2.2.2.2.1]
        intro r hr
        cases hr
      · show ∀ r ∈ bm.tx.requests, _
        rw [hbm.2.2.2.2.1]
        intro r hr
        cases hr
      · show ∀ r ∈ bm.tx.requests, _
        rw [hbm.2.2.2.2.1]
        intro r hr
        cases hr
      · show ∀ r ∈ bm.queue, _
        rw [hbm.2.2.2.2.2.2.1]
        intro r hr
        cases hr
      · show ∀ r ∈ bm.queue, _
        rw [hbm.2.2.2.2.2.2.1]
        intro r hr
        cases hr
      · show ∀ r ∈ bm.queue, _
        rw [hbm.2.2.2.2.2.2.1]
        intro r hr
        cases hr
      · intro kind sn hk hiss
        exact absurd hiss (hniss kind sn)
      · intro sn hiss
        exact absurd hiss (hniss IoKind.bitmapWrite sn)
      · intro sn sn' hiss
        exact absurd hiss (hniss IoKind.bitmapWrite sn)
      · intro sn hiss
        exact absurd hiss (hniss IoKind.batWrite sn)
      · show bm.writePending = true → _
        rw [hbm.2.2.2.2.2.1]
        intro hw
        cases hw
    refine ⟨h.snPos, ?_, ?_, ?_, ?_, ?_, h.issueSnLt, h.completeSnLt, h.cbSnLt,
      h.inflSnNodup, h.inflOk, h.plainSnLt, ?_, ?_, h.zbUniq, ?_, h.bwUniq, ?_, ?_,
      ?_, h.c1, h.noTagRd, h.noTagBr⟩
    · refine pairwise_snoc ?_ ?_
      · rw [List.pairwise_map]
        refine h.blkNodup.imp ?_
        intro a b hne
        rw [(hg a).1, (hg b).1]
        exact hne
      · intro b hb
        obtain ⟨b0, hb0, he⟩ := hMem b hb
        rw [he, (hg b0).1]
        exact hblk b0 hb0
    · refine pairwise_snoc ?_ ?_
      · rw [List.pairwise_map]
        refine h.tagNodup.imp ?_
        intro a b hne
        rw [(hg a).2.1, (hg b).2.1]
        exact hne
      · intro b hb
        obtain ⟨b0, hb0, he⟩ := hMem b hb
        rw [he, (hg b0).2.1]
        exact htag b0 hb0
    · intro b hb
      rcases mem_snoc_elim hb with hb | hb
      · obtain ⟨b0, hb0, he⟩ := hMem b hb
        rw [he, (hg b0).2.1]
        exact h.tagLt b0 hb0
      · rw [hb]
        exact htlt
    · intro b hb
      rcases mem_snoc_elim hb with hb | hb
      · obtain ⟨b0, hb0, he⟩ := hMem b hb
        rw [he, (hg b0).2.1]
        exact h.tagNoCb b0 hb0
      · rw [hb]
        exact hncb
    · exact fun T hT => h.futureTag T hT
    · intro T kind sn hiss hnc
      obtain ⟨b0, hb0, he⟩ := h.pendLive T kind sn hiss hnc
      exact ⟨g b0, List.mem_append_left _ (List.mem_map_of_mem g hb0),
        by rw [(hg b0).2.1]; exact he⟩
    · intro blk' sn tg hfl
      obtain ⟨z1, z2, z3, z4, b0, hb0, e1, e2, e3, r, hr, e4⟩ := h.zbMember blk' sn tg hfl
      exact ⟨z1, z2, z3, z4, g b0, List.mem_append_left _ (List.mem_map_of_mem g hb0),
        by rw [(hg b0).1]; exact e1, by rw [(hg b0).2.1]; exact e2,
        by rw [(hg b0).2.1]; exact e3, r, by rw [(hg b0).2.1]; exact hr, e4⟩
    · intro sn tg hfl
      obtain ⟨z1, z2, b0, hb0, e1, e2, e3⟩ := h.bwBm sn tg hfl
      exact ⟨z1, z2, g b0, List.mem_append_left _ (List.mem_map_of_mem g hb0),
        by rw [(hg b0).1]; exact e1, by rw [(hg b0).2.1]; exact e2,
        by rw [(hg b0).2.1]; exact e3⟩
    · intro blk' sn tg hfl
      obtain ⟨b0, hb0, e1, e2, e3, e4⟩ := h.bmwBm blk' sn tg hfl
      exact ⟨g b0, List.mem_append_left _ (List.mem_map_of_mem g hb0),
        by rw [(hg b0).1]; exact e1, by rw [(hg b0).2.1]; exact e2,
        by rw [(hg b0).2.2.1]; exact e3, by rw [(hg b0).2.1]; exact e4⟩
    · intro hbr'
      obtain ⟨p2, b0, hb0, e1, e2, e3, e4, e5⟩ := h.parkInv hbr'
      exact ⟨p2, g b0, List.mem_append_left _ (List.mem_map_of_mem g hb0),
        by rw [(hg b0).1]; exact e1, by rw [(hg b0).2.1]; exact e2,
        by rw [(hg b0).2.1]; exact e3, by rw [(hg b0).2.1]; exact e4,
        by rw [(hg b0).2.2.1]; exact e5⟩
    · intro b hb
      rcases mem_snoc_elim hb with hb | hb
      · obtain ⟨b0, hb0, he⟩ := hMem b hb
        rw [he]
        refine bmInv_congr (bmInv_state_congr (h.bms b0 hb0) rfl rfl (le_refl _) rfl rfl)
          (hg b0).2.1 (hg b0).1 (hg b0).2.2.1 (hg b0).2.2.2.1 (hg b0).2.2.2.2
      · rw [hb]
        exact bmInv_state_congr hNew rfl rfl (le_refl _) rfl rfl
  unfold installBitmap bitmapLruSeqno at hi
  split at hi
  · by_cases hov : (s.bmLru == 0xffffffff) = true
    · rw [if_pos hov] at hi
      cases hi
      exact key _ _ _ (fun b => ⟨rfl, rfl, rfl, rfl, rfl⟩)
    · rw [if_neg hov] at hi
      cases hi
      have e : s.cache.map (fun b => b) = s.cache := List.map_id' s.cache
      rw [show (s.cache ++ [{ bm with seqno := s.bmLru + 1 }])
          = s.cache.map (fun b => b) ++ [{ bm with seqno := s.bmLru + 1 }] from by rw [e]]
      exact key _ _ _ (fun b => ⟨rfl, rfl, rfl, rfl, rfl⟩)
  · cases hi

theorem install_facts {s : VhdState} {bm : VhdBitmap} {s' : VhdState}
    (hi : installBitmap s bm = some s') :
    s'.log = s.log ∧ s'.inflight = s.inflight ∧ s'.nextSerial = s.nextSerial ∧
    s'.plain = s.plain ∧ s'.nextTag = s.nextTag ∧ s'.pbwBlk = s.pbwBlk ∧
    s'.batLocked = s.batLocked ∧ s'.batWriteStarted = s.batWriteStarted ∧
    s'.batReqTx = s.batReqTx := by
  unfold installBitmap bitmapLruSeqno at hi
  split at hi
  · split at hi <;> (cases hi; exact ⟨rfl, rfl, rfl, rfl, rfl, rfl, rfl, rfl, rfl⟩)
  · cases hi

/-- Issuing the bitmap read of a freshly installed bitmap preserves the
invariant. -/
theorem inv_issue_bitmapRead {s s' : VhdState} (h : Inv s) (blk sn : Nat)
    (hndone : ∀ ki e, LogEvent.complete ki sn e ∉ s.log)
    (hncb : ∀ a b c d tg, LogEvent.callback a b c d tg sn ∉ s.log)
    (hninf : ∀ fl ∈ s.inflight, snI fl ≠ sn)
    (hlog : s'.log = s.log ++ [LogEvent.issue IoKind.bitmapRead sn none])
    (hinfl : s'.inflight = s.inflight ++ [Inflight.bitmapRead blk sn])
    (hns : s.nextSerial ≤ s'.nextSerial) (hlt : sn < s'.nextSerial)
    (hnt : s'.nextTag = s.nextTag)
    (hcache : s'.cache = s.cache)
    (hplain : s'.plain = s.plain)
    (hpb : s'.pbwBlk = s.pbwBlk) (hbl : s'.batLocked = s.batLocked)
    (hbw : s'.batWriteStarted = s.batWriteStarted) (hbr : s'.batReqTx = s.batReqTx) :
    Inv s' := by
  have hco : ∀ sn', completedL s'.log sn' → completedL s.log sn' := by
    intro sn' hc
    rw [hlog] at hc
    exact completedL_snoc_issue.mp hc
  have hcoR : ∀ sn', completedL s.log sn' → completedL s'.log sn' := by
    intro sn' hc
    rw [hlog]
    exact completedL_append_left hc
  have hiss : ∀ kind' sn' T, LogEvent.issue kind' sn' (some T) ∈ s'.log →
      LogEvent.issue kind' sn' (some T) ∈ s.log := by
    intro kind' sn' T hm
    rw [hlog] at hm
    rcases issue_snoc_issue_elim hm with hm | ⟨-, -, he⟩
    · exact hm
    · cases he
  refine ⟨?_, ?_, ?_, ?_, ?_, ?_, ?_, ?_, ?_, ?_, ?_, ?_, ?_, ?_, ?_, ?_, ?_, ?_, ?_,
    ?_, ?_, ?_, ?_⟩
  · exact le_trans h.snPos hns
  · rw [hcache]; exact h.blkNodup
  · rw [hcache]; exact h.tagNodup
  · intro bm hbm
    rw [hcache] at hbm
    rw [hnt]
    exact h.tagLt bm hbm
  · intro bm hbm hc
    rw [hcache] at hbm
    rw [hlog] at hc
    exact h.tagNoCb bm hbm (cbTagged_snoc_issue.mp hc)
  · intro T hT
    rw [hnt] at hT
    constructor
    · intro hc
      rw [hlog] at hc
      exact (h.futureTag T hT).1 (cbTagged_snoc_issue.mp hc)
    · intro kind' sn' hm
      exact (h.futureTag T hT).2 kind' sn' (hiss _ _ _ hm)
  · intro kind' sn' tg hm
    rw [hlog] at hm
    rcases issue_snoc_issue_elim hm with hm | ⟨-, he, -⟩
    · exact lt_of_lt_of_le (h.issueSnLt _ _ _ hm) hns
    · rw [he]; exact hlt
  · intro kind' sn' e hm
    rw [hlog] at hm
    exact lt_of_lt_of_le (h.completeSnLt _ _ _ (complete_snoc_issue_elim hm)) hns
  · intro a b c d tg snr hm
    rw [hlog] at hm
    exact lt_of_lt_of_le (h.cbSnLt _ _ _ _ _ _ (cb_snoc_issue_elim hm)) hns
  · rw [hinfl]
    exact pairwise_snoc h.inflSnNodup (fun b hb => hninf b hb)
  · intro fl hfl
    rw [hinfl] at hfl
    rcases mem_snoc_elim hfl with hfl | hfl
    · have := h.inflOk fl hfl
      rw [hlog]
      exact inflightIssued_ext this (fun sn' hc => hco sn' (by rw [hlog]; exact hc))
    · rw [hfl]
      refine ⟨by rw [hlog]; exact List.mem_append_right _ (by simp), ?_⟩
      intro hc
      obtain ⟨ki, er, hm⟩ := hc
      rw [hlog] at hm
      exact hndone ki er (complete_snoc_issue_elim hm)
  · intro r hr
    rw [hplain] at hr
    exact lt_of_lt_of_le (h.plainSnLt r hr) hns
  · intro T kind' sn' hm hn
    rw [hcache]
    refine h.pendLive T kind' sn' (hiss _ _ _ hm) ?_
    intro hc
    exact hn (hcoR _ hc)
  · intro blk' sn' tg hm
    rw [hinfl] at hm
    rcases mem_snoc_elim hm with hm | hm
    swap
    · cases hm
    obtain ⟨z1, z2, z3, z4, z5⟩ := h.zbMember blk' sn' tg hm
    refine ⟨by rw [hbl, z1], by rw [hpb, z2], by rw [hbw, z3], ?_, by rw [hcache]; exact z5⟩
    intro sn'' hm'
    rw [hlog] at hm' ⊢
    rcases issue_snoc_issue_elim hm' with hm' | ⟨he, -, -⟩
    · exact completedL_append_left (z4 sn'' hm')
    · cases he
  · intro blk1 sn1 tg blk2 sn2 tg' hm hm'
    rw [hinfl] at hm hm'
    rcases mem_snoc_elim hm with hm | hm
    · rcases mem_snoc_elim hm' with hm' | hm'
      · exact h.zbUniq _ _ _ _ _ _ hm hm'
      · cases hm'
    · cases hm
  · intro sn1 tg hm
    rw [hinfl] at hm
    rcases mem_snoc_elim hm with hm | hm
    swap
    · cases hm
    obtain ⟨z1, z2, bm, hbm, e1, e2, e3⟩ := h.bwBm sn1 tg hm
    exact ⟨by rw [hbl, z1], by rw [hbw, z2], bm, by rw [hcache]; exact hbm,
      by rw [hpb]; exact e1, e2, e3⟩
  · intro sn1 tg sn2 tg' hm hm'
    rw [hinfl] at hm hm'
    rcases mem_snoc_elim hm with hm | hm
    · rcases mem_snoc_elim hm' with hm' | hm'
      · exact h.bwUniq _ _ _ _ hm hm'
      · cases hm'
    · cases hm
  · intro blk1 sn1 tg hm
    rw [hinfl] at hm
    rcases mem_snoc_elim hm with hm | hm
    swap
    · cases hm
    obtain ⟨bm, hbm, e1, e2, e3, e4⟩ := h.bmwBm blk1 sn1 tg hm
    exact ⟨bm, by rw [hcache]; exact hbm, e1, e2, e3, e4⟩
  · intro hbr'
    rw [hbr] at hbr'
    obtain ⟨p2, bm, hbm, e1, e2, e3, e4, e5⟩ := h.parkInv hbr'
    exact ⟨by rw [hbw, p2], bm, by rw [hcache]; exact hbm,
      by rw [hpb]; exact e1, e2, e3, e4, e5⟩
  · intro bm hbm
    rw [hcache] at hbm
    refine bmInv_ext (h.bms bm hbm) [LogEvent.issue IoKind.bitmapRead sn none] hlog ?_ ?_
      hns hpb hbw
    · intro ev hev kind' sn' he
      simp only [List.mem_singleton] at hev
      rw [hev] at he
      injection he with e1 e2 e3
      cases e3
    · intro fl hfl _
      rw [hinfl]
      exact List.mem_append_left _ hfl
  · rw [hlog]
    refine c1Log_append_issue h.c1 ?_ ?_
    · intro T he
      cases he
    · intro a b c d T snr hm he
      rw [he] at hm
      exact hncb a b c d (some T) hm
  · intro T sn' hm
    rw [hlog] at hm
    rcases issue_snoc_issue_elim hm with hm | ⟨-, -, he⟩
    · exact h.noTagRd T sn' hm
    · cases he
  · intro T sn' hm
    rw [hlog] at hm
    rcases issue_snoc_issue_elim hm with hm | ⟨-, -, he⟩
    · exact h.noTagBr T sn' hm
    · cases he

theorem inv_scheduleBitmapRead {s : VhdState} (h : Inv s) {blk : Nat} {s' : VhdState}
    (hs : scheduleBitmapRead s blk = SRes.ok s') : Inv s' := by
  unfold scheduleBitmapRead at hs
  by_cases hf : s.hdType = HdType.fixed
  · rw [if_pos hf] at hs; cases hs
  · rw [if_neg hf] at hs
    rcases hb : batEntry s blk with _ | off <;> rw [hb] at hs
    · cases hs
    · simp only at hs
      by_cases hu : off = DD_BLK_UNUSED
      · rw [if_pos hu] at hs; cases hs
      · rw [if_neg hu] at hs
        rcases hg : getBitmap s blk with _ | bm0 <;> rw [hg] at hs
        · simp only [SRes.bind] at hs
          rcases ha : allocVhdBitmap s blk with _ | _ | p <;> rw [ha] at hs
          · cases hs
          · cases hs
          · simp only at hs
            obtain ⟨hInv2, he1, he2, hsub, hl, hifl, hns2, hpl, hpb, hbl2, hbw2, hbr2⟩ :=
              alloc_bm_spec h ha
            obtain ⟨bm1, s1⟩ := p
            simp only at hInv2 he1 he2 hsub hl hifl hns2 hpl hpb hbl2 hbw2 hbr2 hs
            subst he1
            rcases hi : installBitmap { s1 with nextSerial := s1.nextSerial + 1 }
                { initVhdBitmap blk s.nextTag with locked := true, readPending := true }
              with _ | s2 <;> rw [hi] at hs
            · cases hs
            · simp only at hs
              cases hs
              have hInv1 : Inv { s1 with nextSerial := s1.nextSerial + 1 } :=
                inv_congr hInv2 (by show s1.nextSerial ≤ s1.nextSerial + 1; omega)
                  (le_refl _) rfl rfl rfl rfl rfl rfl rfl rfl
              have hnone : ∀ b ∈ s.cache, b.blk ≠ blk := by
                intro b hbm he
                have := List.find?_eq_none.mp hg b hbm
                simp at this
                exact this he
              have hInv3 : Inv s2 := by
                refine inv_installBitmap hInv1 hi ?_ ?_ ?_ ?_ ?_ ?_
                · intro b hbm
                  show b.blk ≠ blk
                  exact hnone b (hsub b hbm)
                · intro b hbm
                  show b.tx.tag ≠ s.nextTag
                  exact Nat.ne_of_lt (h.tagLt b (hsub b hbm))
                · show s.nextTag < s1.nextTag
                  omega
                · intro kind sn
                  show LogEvent.issue kind sn (some s.nextTag) ∉ s1.log
                  rw [hl]
                  exact (h.futureTag s.nextTag (le_refl _)).2 kind sn
                · show ¬ cbTagged s1.log s.nextTag
                  rw [hl]
                  exact (h.futureTag s.nextTag (le_refl _)).1
                · exact ⟨rfl, rfl, rfl, rfl, rfl, rfl, rfl, rfl⟩
              obtain ⟨i1, i2, i3, i4, i5, i6, i7, i8, i9⟩ := install_facts hi
              simp only at i1 i2 i3 i4 i5 i6 i7 i8 i9
              refine inv_issue_bitmapRead hInv3 blk s1.nextSerial
                ?_ ?_ ?_ ?_ ?_ ?_ ?_ ?_ ?_ ?_ ?_ ?_ ?_ ?_
              · intro ki e hm
                rw [i1, hl] at hm
                have := h.completeSnLt _ _ _ hm
                rw [hns2] at this
                omega
              · intro a b c d tg hm
                rw [i1, hl] at hm
                have := h.cbSnLt _ _ _ _ _ _ hm
                rw [hns2] at this
                omega
              · intro fl hfl
                rw [i2, hifl] at hfl
                have := inflight_sn_lt h hfl
                rw [hns2]
                omega
              · show s2.log ++ _ = s2.log ++ _
                rfl
              · show s2.inflight ++ _ = s2.inflight ++ _
                rfl
              · show s2.nextSerial ≤ s2.nextSerial
                exact le_refl _
              · show s1.nextSerial < s2.nextSerial
                rw [i3]
                omega
              · exact rfl
              · exact rfl
              · exact rfl
              · exact rfl
              · exact rfl
              · exact rfl
              · exact rfl
        · cases hs

/-- `reserve_new_block` preserves the invariant: taking the BAT lock for a
new pending block is safe because no metadata write is outstanding. -/
theorem inv_reserve {s : VhdState} (h : Inv s) {blk : Nat} {s' : VhdState}
    (hr : reserveNewBlock s blk = some s') : Inv s' := by
  unfold reserveNewBlock at hr
  split at hr
  · cases hr
  · rename_i hcond
    simp only [Bool.or_eq_true, not_or, Bool.not_eq_true] at hcond
    cases hr
    have hnozb : ∀ blk0 sn tg, Inflight.zeroBm blk0 sn tg ∉ s.inflight := by
      intro blk0 sn tg hm
      have := (h.zbMember blk0 sn tg hm).1
      rw [hcond.1] at this
      cases this
    have hnobw : ∀ sn tg, Inflight.batWrite sn tg ∉ s.inflight := by
      intro sn tg hm
      have := (h.bwBm sn tg hm).1
      rw [hcond.1] at this
      cases this
    have hnopark : s.batReqTx = false := by
      by_contra hbr
      simp only [Bool.not_eq_false] at hbr
      have := (h.parkInv hbr).1
      rw [hcond.2] at this
      cases this
    refine ⟨h.snPos, h.blkNodup, h.tagNodup, h.tagLt, h.tagNoCb, h.futureTag,
      h.issueSnLt, h.completeSnLt, h.cbSnLt, h.inflSnNodup, h.inflOk, h.plainSnLt,
      h.pendLive, ?_, h.zbUniq, ?_, h.bwUniq, ?_, ?_, ?_, h.c1, h.noTagRd, h.noTagBr⟩
    · intro blk0 sn tg hm
      exact absurd hm (hnozb blk0 sn tg)
    · intro sn tg hm
      exact absurd hm (hnobw sn tg)
    · intro blk0 sn tg hm
      obtain ⟨bm, hbm, e1, e2, e3, e4⟩ := h.bmwBm blk0 sn tg hm
      exact ⟨bm, hbm, e1, e2, e3, e4⟩
    · intro hbr
      rw [hnopark] at hbr
      cases hbr
    · intro bm hbm
      have B := h.bms bm hbm
      refine ⟨B.closedDone, B.finLe, B.cnt, B.reqNodup, B.queueNodup, B.reqSnLt,
        B.queueSnLt, B.waitSnLt, B.memFin, B.memIssued, B.memOp, B.queueFin,
        B.queueIssued, B.queueOp, B.taggedMember, B.bmwPend, B.bmwUniq, ?_, B.wpClosed⟩
      intro sn hiss hnc
      obtain ⟨-, -, -, hfl⟩ := B.batPend sn hiss hnc
      exact absurd hfl (hnobw sn bm.tx.tag)

theorem nodup_snoc {α : Type} {l : List α} {a : α} (h : l.Nodup) (ha : a ∉ l) :
    (l ++ [a]).Nodup := by
  rw [List.nodup_append]
  exact ⟨h, List.nodup_singleton a, by simpa using ha⟩

/-- The zero-bitmap request built by `schedule_zero_bm_write`. -/
def zbZreq (s : VhdState) : VhdRequest :=
  { serial := s.nextSerial, id := 0, error := 0, op := VhdOp.zeroBmWrite,
    lsec := s.pbwBlk * s.spb, nrSecs := s.bmSecs, fUpdateBat := false,
    fUpdateBitmap := false, fQueued := false, fFinished := false }

/-- The net effect of `schedule_zero_bm_write` followed by the
`TX_UPDATE_BAT` flag set on the cached bitmap for `blk`. -/
def zbApply (blk : Nat) (zreq : VhdRequest) (b : VhdBitmap) : VhdBitmap :=
  if b.blk == blk then
    { b with locked := true,
             tx := { addToTransaction b.tx zreq with updateBat := true } }
  else b

theorem zbApply_blk (blk : Nat) (zreq : VhdRequest) (b : VhdBitmap) :
    (zbApply blk zreq b).blk = b.blk := by
  unfold zbApply; split <;> rfl

theorem zbApply_tag (blk : Nat) (zreq : VhdRequest) (b : VhdBitmap) :
    (zbApply blk zreq b).tx.tag = b.tx.tag := by
  unfold zbApply; split <;> rfl

theorem zbApply_closed (blk : Nat) (zreq : VhdRequest) (b : VhdBitmap) :
    (zbApply blk zreq b).tx.closed = b.tx.closed := by
  unfold zbApply; split <;> rfl

theorem zbApply_wp (blk : Nat) (zreq : VhdRequest) (b : VhdBitmap) :
    (zbApply blk zreq b).writePending = b.writePending := by
  unfold zbApply; split <;> rfl

theorem zbApply_queue (blk : Nat) (zreq : VhdRequest) (b : VhdBitmap) :
    (zbApply blk zreq b).queue = b.queue := by
  unfold zbApply; split <;> rfl

theorem zbApply_waiting (blk : Nat) (zreq : VhdRequest) (b : VhdBitmap) :
    (zbApply blk zreq b).waiting = b.waiting := by
  unfold zbApply; split <;> rfl

theorem zbApply_pos (blk : Nat) (zreq : VhdRequest) {b : VhdBitmap}
    (hc : (b.blk == blk) = true) :
    zbApply blk zreq b =
      { b with locked := true,
               tx := { addToTransaction b.tx zreq with updateBat := true } } := by
  unfold zbApply
  rw [if_pos hc]

theorem zbApply_neg (blk : Nat) (zreq : VhdRequest) {b : VhdBitmap}
    (hc : ¬ (b.blk == blk) = true) : zbApply blk zreq b = b := by
  unfold zbApply
  rw [if_neg hc]

/-- The two cache rewrites of the `update_bat` tail compose to `zbApply`. -/
theorem map_zbApply (blk : Nat) (zreq : VhdRequest) (l : List VhdBitmap) :
    (l.map (fun b => if b.blk == blk then
        { b with locked := true, tx := addToTransaction b.tx zreq } else b)).map
      (fun b => if b.blk == blk then
        { b with tx := { b.tx with updateBat := true } } else b)
    = l.map (zbApply blk zreq) := by
  rw [List.map_map]
  refine List.map_congr_left ?_
  intro b _
  simp only [Function.comp_apply]
  by_cases hc : (b.blk == blk) = true
  · have hc2 : (({ b with locked := true, tx := addToTransaction b.tx zreq } :
        VhdBitmap).blk == blk) = true := hc
    rw [if_pos hc, if_pos hc2, zbApply_pos blk zreq hc]
  · rw [if_neg hc, zbApply_neg blk zreq hc, if_neg hc]

/-- `schedule_zero_bm_write` followed by setting `TX_UPDATE_BAT` on the
pending block's bitmap — the tail of `update_bat` after `reserve_new_block`
— preserves the invariant. -/
theorem inv_scheduleZeroBm {s2 : VhdState} (h : Inv s2) {bm : VhdBitmap} {s' : VhdState}
    (hbmm : bm ∈ s2.cache) (hbmblk : bm.blk = s2.pbwBlk)
    (hcl : bm.tx.closed = false)
    (hbl2 : s2.batLocked = true) (hbw : s2.batWriteStarted = false)
    (hnozb : ∀ blk0 sn tg, Inflight.zeroBm blk0 sn tg ∉ s2.inflight)
    (hcache : s'.cache = s2.cache.map (zbApply s2.pbwBlk (zbZreq s2)))
    (hlog : s'.log = s2.log ++
      [LogEvent.issue IoKind.zeroBmWrite s2.nextSerial (some bm.tx.tag)])
    (hinfl : s'.inflight = s2.inflight ++
      [Inflight.zeroBm s2.pbwBlk s2.nextSerial bm.tx.tag])
    (hns : s'.nextSerial = s2.nextSerial + 1) (hnt : s'.nextTag = s2.nextTag)
    (hplain : s'.plain = s2.plain) (hpb : s'.pbwBlk = s2.pbwBlk)
    (hbl' : s'.batLocked = s2.batLocked) (hbws' : s'.batWriteStarted = s2.batWriteStarted)
    (hbr : s'.batReqTx = s2.batReqTx) : Inv s' := by
  have hbc : (bm.blk == s2.pbwBlk) = true := by simp [hbmblk]
  have htarget : ∀ b0 ∈ s2.cache, (b0.blk == s2.pbwBlk) = true → b0 = bm := by
    intro b0 hb0 hc
    by_contra hne
    have := pairwise_both h.blkNodup (fun a b hx he => hx he.symm) hb0 hbmm hne
    rw [hbmblk] at this
    exact this (beq_iff_eq.mp hc)
  have hnobw : ∀ sn tg, Inflight.batWrite sn tg ∉ s2.inflight := by
    intro sn tg hm
    have := (h.bwBm sn tg hm).2.1
    rw [hbw] at this
    cases this
  have hB := h.bms bm hbmm
  have hnobatpend : ∀ sn, LogEvent.issue IoKind.batWrite sn (some bm.tx.tag) ∈ s2.log →
      completedL s2.log sn := by
    intro sn hiss
    by_contra hnc
    have := (hB.batPend sn hiss hnc).2.2.1
    rw [hbw] at this
    cases this
  have hnobmwpend : ∀ sn, LogEvent.issue IoKind.bitmapWrite sn (some bm.tx.tag) ∈ s2.log →
      completedL s2.log sn := by
    intro sn hiss
    by_contra hnc
    have := (hB.bmwPend sn hiss hnc).2.1
    rw [hcl] at this
    cases this
  have hFmem : zbApply s2.pbwBlk (zbZreq s2) bm ∈ s'.cache := by
    rw [hcache]
    exact List.mem_map_of_mem _ hbmm
  have hMem : ∀ b ∈ s'.cache, b = zbApply s2.pbwBlk (zbZreq s2) bm ∨
      (b ∈ s2.cache ∧ b ≠ bm) := by
    intro b hb
    rw [hcache] at hb
    obtain ⟨b0, hb0, he⟩ := List.mem_map.mp hb
    by_cases hc : (b0.blk == s2.pbwBlk) = true
    · left
      rw [← he, htarget b0 hb0 hc]
    · right
      have hbe : b = b0 := by rw [← he, zbApply_neg s2.pbwBlk (zbZreq s2) hc]
      subst hbe
      exact ⟨hb0, fun hbb => hc (by rw [hbb]; exact hbc)⟩
  have hF := zbApply_pos s2.pbwBlk (zbZreq s2) hbc
  refine ⟨?_, ?_, ?_, ?_, ?_, ?_, ?_, ?_, ?_, ?_, ?_, ?_, ?_, ?_, ?_, ?_, ?_, ?_,
    ?_, ?_, ?_, ?_, ?_⟩
  · rw [hns]
    have := h.snPos
    omega
  · rw [hcache, List.pairwise_map]
    refine h.blkNodup.imp ?_
    intro a b hne
    rw [zbApply_blk, zbApply_blk]
    exact hne
  · rw [hcache, List.pairwise_map]
    refine h.tagNodup.imp ?_
    intro a b hne
    rw [zbApply_tag, zbApply_tag]
    exact hne
  · intro b hb
    rw [hnt]
    rcases hMem b hb with hbe | ⟨hb0, -⟩
    · rw [hbe, zbApply_tag]
      exact h.tagLt bm hbmm
    · exact h.tagLt b hb0
  · intro b hb hcb
    rw [hlog] at hcb
    have hcb2 := cbTagged_snoc_issue.mp hcb
    rcases hMem b hb with hbe | ⟨hb0, -⟩
    · rw [hbe, zbApply_tag] at hcb2
      exact h.tagNoCb bm hbmm hcb2
    · exact h.tagNoCb b hb0 hcb2
  · intro T' hT'
    rw [hnt] at hT'
    have hf := h.futureTag T' hT'
    constructor
    · intro hcb
      rw [hlog] at hcb
      exact hf.1 (cbTagged_snoc_issue.mp hcb)
    · intro kind sn hm
      rw [hlog] at hm
      rcases issue_snoc_issue_elim hm with hm | ⟨-, -, he⟩
      · exact hf.2 kind sn hm
      · have he2 := Option.some.inj he
        have := h.tagLt bm hbmm
        omega
  · intro kind sn tg hm
    rw [hlog] at hm
    rw [hns]
    rcases issue_snoc_issue_elim hm with hm | ⟨-, he, -⟩
    · have := h.issueSnLt kind sn tg hm
      omega
    · omega
  · intro kind sn e hm
    rw [hlog] at hm
    rw [hns]
    have := h.completeSnLt kind sn e (complete_snoc_issue_elim hm)
    omega
  · intro a b c d tg snr hm
    rw [hlog] at hm
    rw [hns]
    have := h.cbSnLt a b c d tg snr (cb_snoc_issue_elim hm)
    omega
  · rw [hinfl]
    refine pairwise_snoc h.inflSnNodup ?_
    intro fl hfl
    exact Nat.ne_of_lt (inflight_sn_lt h hfl)
  · intro fl hfl
    rw [hinfl] at hfl
    rcases mem_snoc_elim hfl with hfl | hfl
    · have hold := h.inflOk fl hfl
      rw [hlog]
      refine inflightIssued_ext hold ?_
      intro sn hc
      exact completedL_snoc_issue.mp hc
    · rw [hfl]
      refine ⟨?_, ?_⟩
      · rw [hlog]
        exact List.mem_append_right _ (List.mem_singleton.mpr rfl)
      · intro hc
        rw [hlog] at hc
        obtain ⟨ki, er, hmc⟩ := completedL_snoc_issue.mp hc
        have := h.completeSnLt ki s2.nextSerial er hmc
        omega
  · intro r hr
    rw [hplain] at hr
    rw [hns]
    have := h.plainSnLt r hr
    omega
  · intro T' kind sn hm hn
    rw [hlog] at hm
    rcases issue_snoc_issue_elim hm with hm | ⟨-, -, he⟩
    · have hn2 : ¬ completedL s2.log sn := by
        intro hc
        exact hn (by rw [hlog]; exact completedL_append_left hc)
      obtain ⟨bm0, hbm0, htg⟩ := h.pendLive T' kind sn hm hn2
      refine ⟨zbApply s2.pbwBlk (zbZreq s2) bm0, ?_, ?_⟩
      · rw [hcache]
        exact List.mem_map_of_mem _ hbm0
      · rw [zbApply_tag]
        exact htg
    · refine ⟨zbApply s2.pbwBlk (zbZreq s2) bm, hFmem, ?_⟩
      rw [zbApply_tag]
      exact (Option.some.inj he).symm
  · intro blk0 sn tg hm
    rw [hinfl] at hm
    rcases mem_snoc_elim hm with hm | hm
    · exact absurd hm (hnozb blk0 sn tg)
    · injection hm with e1 e2 e3
      subst e1
      subst e2
      subst e3
      refine ⟨by rw [hbl', hbl2], by rw [hpb], by rw [hbws', hbw], ?_, ?_⟩
      · intro sn' hm'
        rw [hlog] at hm' ⊢
        rcases issue_snoc_issue_elim hm' with hm' | ⟨he1, -, -⟩
        · exact completedL_append_left (hnobatpend sn' hm')
        · cases he1
      · refine ⟨zbApply s2.pbwBlk (zbZreq s2) bm, hFmem, ?_, ?_, ?_, ?_⟩
        · rw [zbApply_blk]
          exact hbmblk
        · rw [zbApply_tag]
        · rw [hF]
        · refine ⟨zbZreq s2, ?_, rfl, rfl, rfl⟩
          rw [hF]
          exact List.mem_append_right _ (List.mem_singleton.mpr rfl)
  · intro blk0 sn tg blk' sn' tg' hm hm'
    rw [hinfl] at hm hm'
    rcases mem_snoc_elim hm with hm | hm
    · exact absurd hm (hnozb _ _ _)
    · rcases mem_snoc_elim hm' with hm' | hm'
      · exact absurd hm' (hnozb _ _ _)
      · injection hm with e1 e2 e3
        injection hm' with f1 f2 f3
        exact ⟨e1.trans f1.symm, e2.trans f2.symm, e3.trans f3.symm⟩
  · intro sn tg hm
    rw [hinfl] at hm
    rcases mem_snoc_elim hm with hm | hm
    · exact absurd hm (hnobw sn tg)
    · cases hm
  · intro sn tg sn' tg' hm hm'
    rw [hinfl] at hm
    rcases mem_snoc_elim hm with hm | hm
    · exact absurd hm (hnobw sn tg)
    · cases hm
  · intro blk0 sn tg hm
    rw [hinfl] at hm
    rcases mem_snoc_elim hm with hm | hm
    · obtain ⟨bm0, hbm0, e1, e2, e3, e4⟩ := h.bmwBm blk0 sn tg hm
      refine ⟨zbApply s2.pbwBlk (zbZreq s2) bm0, ?_, ?_, ?_, ?_, ?_⟩
      · rw [hcache]
        exact List.mem_map_of_mem _ hbm0
      · rw [zbApply_blk]
        exact e1
      · rw [zbApply_tag]
        exact e2
      · rw [zbApply_wp]
        exact e3
      · rw [zbApply_closed]
        exact e4
    · cases hm
  · intro hbr'
    rw [hbr] at hbr'
    have := (h.parkInv hbr').1
    rw [hbw] at this
    cases this
  · intro b hb
    rcases hMem b hb with hbe | ⟨hb0, hbne⟩
    swap
    · have hBo := h.bms b hb0
      refine bmInv_ext hBo
        [LogEvent.issue IoKind.zeroBmWrite s2.nextSerial (some bm.tx.tag)]
        hlog ?_ ?_ ?_ hpb hbws'
      · intro ev hev kind sn he
        simp only [List.mem_singleton] at hev
        rw [hev] at he
        injection he with e1 e2 e3
        have htagne : b.tx.tag ≠ bm.tx.tag :=
          pairwise_both h.tagNodup (fun a b hx he => hx he.symm) hb0 hbmm hbne
        exact htagne (Option.some.inj e3).symm
      · intro fl hfl _
        rw [hinfl]
        exact List.mem_append_left _ hfl
      · rw [hns]
        omega
    · subst hbe
      rw [hF]
      refine ⟨?_, ?_, ?_, ?_, ?_, ?_, ?_, ?_, ?_, ?_, ?_, ?_, ?_, ?_, ?_, ?_, ?_, ?_, ?_⟩
      · intro hcc
        have hx : bm.tx.closed = true := hcc
        rw [hcl] at hx
        cases hx
      · show bm.tx.finished ≤ bm.tx.started + 1
        have := hB.finLe
        omega
      · show ((bm.tx.requests ++ [zbZreq s2]).countP fun r => !r.fFinished) =
          bm.tx.started + 1 - bm.tx.finished
        rw [List.countP_append]
        have h1 := hB.cnt
        have h2 := hB.finLe
        have h3 : ([zbZreq s2].countP fun r => !r.fFinished) = 1 := rfl
        omega
      · show ((bm.tx.requests ++ [zbZreq s2]).map fun r => r.serial).Nodup
        rw [List.map_append,
          show (([zbZreq s2].map fun r => r.serial) = [s2.nextSerial]) from rfl]
        refine nodup_snoc hB.reqNodup ?_
        intro hmem
        obtain ⟨r, hr, he⟩ := List.mem_map.mp hmem
        have := hB.reqSnLt r hr
        omega
      · exact hB.queueNodup
      · intro r hr
        have hr2 : r ∈ bm.tx.requests ++ [zbZreq s2] := hr
        rw [hns]
        rcases mem_snoc_elim hr2 with h1 | h1
        · have := hB.reqSnLt r h1
          omega
        · subst h1
          exact Nat.lt_succ_self s2.nextSerial
      · intro r hr
        rw [hns]
        have := hB.queueSnLt r hr
        omega
      · intro r hr
        rw [hns]
        have := hB.waitSnLt r hr
        omega
      · intro r hr hf
        have hr2 : r ∈ bm.tx.requests ++ [zbZreq s2] := hr
        rcases mem_snoc_elim hr2 with h1 | h1
        · rw [hlog]
          exact completedL_append_left (hB.memFin r h1 hf)
        · subst h1
          cases hf
      · intro r hr
        have hr2 : r ∈ bm.tx.requests ++ [zbZreq s2] := hr
        rcases mem_snoc_elim hr2 with h1 | h1
        · obtain ⟨tg, hm⟩ := hB.memIssued r h1
          exact ⟨tg, by rw [hlog]; exact List.mem_append_left _ hm⟩
        · subst h1
          refine ⟨some bm.tx.tag, ?_⟩
          rw [hlog]
          exact List.mem_append_right _ (List.mem_singleton.mpr rfl)
      · intro r hr
        have hr2 : r ∈ bm.tx.requests ++ [zbZreq s2] := hr
        rcases mem_snoc_elim hr2 with h1 | h1
        · exact hB.memOp r h1
        · subst h1
          exact Or.inr rfl
      · intro r hr hf
        rw [hlog]
        exact completedL_append_left (hB.queueFin r hr hf)
      · intro r hr
        rw [hlog]
        exact List.mem_append_left _ (hB.queueIssued r hr)
      · exact hB.queueOp
      · intro kind sn hk hm hn
        have hm2 : LogEvent.issue kind sn (some bm.tx.tag) ∈ s'.log := hm
        rw [hlog] at hm2
        rcases issue_snoc_issue_elim hm2 with h1 | ⟨he1, he2, -⟩
        · have hn2 : ¬ completedL s2.log sn := by
            intro hc
            exact hn (by rw [hlog]; exact completedL_append_left hc)
          obtain ⟨r, hr, e1, e2⟩ := hB.taggedMember kind sn hk h1 hn2
          exact ⟨r, List.mem_append_left _ hr, e1, e2⟩
        · subst he2
          exact ⟨zbZreq s2, List.mem_append_right _ (List.mem_singleton.mpr rfl),
            rfl, rfl⟩
      · intro sn hm hn
        have hm2 : LogEvent.issue IoKind.bitmapWrite sn (some bm.tx.tag) ∈ s'.log := hm
        rw [hlog] at hm2
        rcases issue_snoc_issue_elim hm2 with h1 | ⟨he1, -, -⟩
        · exact absurd (by rw [hlog]; exact completedL_append_left (hnobmwpend sn h1)) hn
        · cases he1
      · intro sn sn' hm hn hm' hn'
        have hm2 : LogEvent.issue IoKind.bitmapWrite sn (some bm.tx.tag) ∈ s'.log := hm
        rw [hlog] at hm2
        rcases issue_snoc_issue_elim hm2 with h1 | ⟨he1, -, -⟩
        · exact absurd (by rw [hlog]; exact completedL_append_left (hnobmwpend sn h1)) hn
        · cases he1
      · intro sn hm hn
        have hm2 : LogEvent.issue IoKind.batWrite sn (some bm.tx.tag) ∈ s'.log := hm
        rw [hlog] at hm2
        rcases issue_snoc_issue_elim hm2 with h1 | ⟨he1, -, -⟩
        · exact absurd (by rw [hlog]; exact completedL_append_left (hnobatpend sn h1)) hn
        · cases he1
      · exact hB.wpClosed
  · rw [hlog]
    refine c1Log_append_issue h.c1 ?_ ?_
    · intro T' he
      rw [← Option.some.inj he]
      exact h.tagNoCb bm hbmm
    · intro a b c d T' snr hm he
      have := h.cbSnLt a b c d (some T') snr hm
      omega
  · intro T sn hm
    rw [hlog] at hm
    rcases issue_snoc_issue_elim hm with hm | ⟨he1, -, -⟩
    · exact h.noTagRd T sn hm
    · cases he1
  · intro T sn hm
    rw [hlog] at hm
    rcases issue_snoc_issue_elim hm with hm | ⟨he1, -, -⟩
    · exact h.noTagBr T sn hm
    · cases he1

/-- The tail of `update_bat` (reserve the block, schedule the zero-bitmap
write, set `TX_UPDATE_BAT`) preserves the invariant. -/
theorem inv_updateBat_tail {s1 : VhdState} (h1 : Inv s1) {blk : Nat} {s' : VhdState}
    (hu : (match reserveNewBlock s1 blk with
           | none => SRes.crash
           | some s2 =>
             match scheduleZeroBmWrite s2 with
             | none => SRes.crash
             | some s3 =>
               SRes.ok (updateBm s3 blk
                 (fun b => { b with tx := { b.tx with updateBat := true } }))) =
      SRes.ok s') : Inv s' := by
  rcases hr : reserveNewBlock s1 blk with _ | s2 <;> rw [hr] at hu
  · cases hu
  · simp only at hu
    have hInv2 : Inv s2 := inv_reserve h1 hr
    unfold reserveNewBlock at hr
    split at hr
    · cases hr
    · rename_i hcond
      simp only [Bool.or_eq_true, not_or, Bool.not_eq_true] at hcond
      injection hr with hre
      have h2pb : s2.pbwBlk = blk := by rw [← hre]
      have h2bl : s2.batLocked = true := by rw [← hre]
      have h2bw : s2.batWriteStarted = s1.batWriteStarted := by rw [← hre]
      have h2infl : s2.inflight = s1.inflight := by rw [← hre]
      rcases hz : scheduleZeroBmWrite s2 with _ | s3 <;> rw [hz] at hu
      · cases hu
      · simp only at hu
        cases hu
        unfold scheduleZeroBmWrite at hz
        rcases hg2 : getBitmap s2 s2.pbwBlk with _ | bm2 <;> rw [hg2] at hz
        · cases hz
        · simp only at hz
          by_cases hcl2 : bm2.tx.closed = true
          · rw [if_pos hcl2] at hz
            cases hz
          · rw [if_neg hcl2] at hz
            cases hz
            obtain ⟨hbmm2, hbmblk2⟩ := mem_of_getBitmap hg2
            refine inv_scheduleZeroBm hInv2 hbmm2 hbmblk2 (Bool.eq_false_iff.mpr hcl2)
              h2bl ?_ ?_ ?_ rfl rfl rfl rfl rfl rfl rfl rfl rfl
            · rw [h2bw]
              exact hcond.2
            · intro blk0 sn tg hm
              rw [h2infl] at hm
              have := (h1.zbMember blk0 sn tg hm).1
              rw [hcond.1] at this
              cases this
            · rw [← h2pb]
              exact map_zbApply s2.pbwBlk (zbZreq s2) s2.cache

/-- `update_bat` preserves the invariant: the short-circuit branch returns
the state unchanged; the allocating branch installs an empty bitmap when the
block is not cached, reserves the block and schedules the zero-bitmap
write. -/
theorem inv_updateBat {s : VhdState} (h : Inv s) {blk : Nat} {s' : VhdState}
    (hu : updateBat s blk = SRes.ok s') : Inv s' := by
  unfold updateBat at hu
  rcases hbe : batEntry s blk with _ | e <;> rw [hbe] at hu
  · cases hu
  · simp only at hu
    by_cases hne : e ≠ DD_BLK_UNUSED
    · rw [if_pos hne] at hu
      cases hu
    · rw [if_neg hne] at hu
      by_cases hbl : s.batLocked = true
      · rw [if_pos hbl] at hu
        by_cases hpb : s.pbwBlk = blk
        · rw [if_pos hpb] at hu
          cases hu
          exact h
        · rw [if_neg hpb] at hu
          cases hu
      · rw [if_neg hbl] at hu
        rcases hg : getBitmap s blk with _ | bm0 <;> rw [hg] at hu
        · simp only [SRes.bind] at hu
          rcases ha : allocVhdBitmap s blk with _ | _ | p <;> rw [ha] at hu
          · cases hu
          · cases hu
          · simp only at hu
            obtain ⟨hInv2, he1, he2, hsub, hl, hifl, hns2, hpl, hpb2, hbl2, hbw2, hbr2⟩ :=
              alloc_bm_spec h ha
            obtain ⟨bm1, s1a⟩ := p
            simp only at hInv2 he1 he2 hsub hl hifl hns2 hpl hpb2 hbl2 hbw2 hbr2 hu
            subst he1
            rcases hi : installBitmap s1a (initVhdBitmap blk s.nextTag)
              with _ | s1 <;> rw [hi] at hu
            · simp only [SRes.bind] at hu
              cases hu
            · simp only [SRes.bind] at hu
              have hnone : ∀ b ∈ s.cache, b.blk ≠ blk := by
                intro b hbm he
                have := List.find?_eq_none.mp hg b hbm
                simp at this
                exact this he
              have hInv3 : Inv s1 := by
                refine inv_installBitmap hInv2 hi ?_ ?_ ?_ ?_ ?_ ?_
                · intro b hbm
                  show b.blk ≠ blk
                  exact hnone b (hsub b hbm)
                · intro b hbm
                  show b.tx.tag ≠ s.nextTag
                  exact Nat.ne_of_lt (h.tagLt b (hsub b hbm))
                · show s.nextTag < s1a.nextTag
                  omega
                · intro kind sn
                  show LogEvent.issue kind sn (some s.nextTag) ∉ s1a.log
                  rw [hl]
                  exact (h.futureTag s.nextTag (le_refl _)).2 kind sn
                · show ¬ cbTagged s1a.log s.nextTag
                  rw [hl]
                  exact (h.futureTag s.nextTag (le_refl _)).1
                · exact ⟨rfl, rfl, rfl, rfl, rfl, rfl, rfl, rfl⟩
              exact inv_updateBat_tail hInv3 hu
        · simp only [SRes.bind] at hu
          exact inv_updateBat_tail h hu

/-- The cache rewrite of `schedule_data_write` when the request joins the
open transaction. -/
def txApply (blk : Nat) (r : VhdRequest) (b : VhdBitmap) : VhdBitmap :=
  if b.blk == blk then { b with locked := true, tx := addToTransaction b.tx r } else b

theorem txApply_blk (blk : Nat) (r : VhdRequest) (b : VhdBitmap) :
    (txApply blk r b).blk = b.blk := by
  unfold txApply; split <;> rfl

theorem txApply_tag (blk : Nat) (r : VhdRequest) (b : VhdBitmap) :
    (txApply blk r b).tx.tag = b.tx.tag := by
  unfold txApply; split <;> rfl

theorem txApply_closed (blk : Nat) (r : VhdRequest) (b : VhdBitmap) :
    (txApply blk r b).tx.closed = b.tx.closed := by
  unfold txApply; split <;> rfl

theorem txApply_updateBat (blk : Nat) (r : VhdRequest) (b : VhdBitmap) :
    (txApply blk r b).tx.updateBat = b.tx.updateBat := by
  unfold txApply; split <;> rfl

theorem txApply_wp (blk : Nat) (r : VhdRequest) (b : VhdBitmap) :
    (txApply blk r b).writePending = b.writePending := by
  unfold txApply; split <;> rfl

theorem txApply_req_sub (blk : Nat) (r : VhdRequest) (b : VhdBitmap) {r' : VhdRequest}
    (h : r' ∈ b.tx.requests) : r' ∈ (txApply blk r b).tx.requests := by
  unfold txApply
  split
  · exact List.mem_append_left _ h
  · exact h

theorem txApply_pos (blk : Nat) (r : VhdRequest) {b : VhdBitmap}
    (hc : (b.blk == blk) = true) :
    txApply blk r b = { b with locked := true, tx := addToTransaction b.tx r } := by
  unfold txApply
  rw [if_pos hc]

theorem txApply_neg (blk : Nat) (r : VhdRequest) {b : VhdBitmap}
    (hc : ¬ (b.blk == blk) = true) : txApply blk r b = b := by
  unfold txApply
  rw [if_neg hc]

/-- The cache rewrite of `schedule_data_write` when the transaction is
closed and the request is queued on the bitmap. -/
def qApply (blk : Nat) (rq : VhdRequest) (b : VhdBitmap) : VhdBitmap :=
  if b.blk == blk then { b with locked := true, queue := b.queue ++ [rq] } else b

theorem qApply_blk (blk : Nat) (rq : VhdRequest) (b : VhdBitmap) :
    (qApply blk rq b).blk = b.blk := by
  unfold qApply; split <;> rfl

theorem qApply_tx (blk : Nat) (rq : VhdRequest) (b : VhdBitmap) :
    (qApply blk rq b).tx = b.tx := by
  unfold qApply; split <;> rfl

theorem qApply_wp (blk : Nat) (rq : VhdRequest) (b : VhdBitmap) :
    (qApply blk rq b).writePending = b.writePending := by
  unfold qApply; split <;> rfl

theorem qApply_waiting (blk : Nat) (rq : VhdRequest) (b : VhdBitmap) :
    (qApply blk rq b).waiting = b.waiting := by
  unfold qApply; split <;> rfl

theorem qApply_pos (blk : Nat) (rq : VhdRequest) {b : VhdBitmap}
    (hc : (b.blk == blk) = true) :
    qApply blk rq b = { b with locked := true, queue := b.queue ++ [rq] } := by
  unfold qApply
  rw [if_pos hc]

theorem qApply_neg (blk : Nat) (rq : VhdRequest) {b : VhdBitmap}
    (hc : ¬ (b.blk == blk) = true) : qApply blk rq b = b := by
  unfold qApply
  rw [if_neg hc]

/-- Appending a freshly issued queued write to a bitmap's queue keeps the
per-bitmap bookkeeping. -/
theorem bmInv_queue_snoc {s : VhdState} {bm : VhdBitmap} (h : BmInv s bm)
    {rq : VhdRequest} (hsn : rq.serial < s.nextSerial)
    (hfresh : ∀ r ∈ bm.queue, r.serial ≠ rq.serial)
    (hff : rq.fFinished = false)
    (hiss : LogEvent.issue IoKind.dataWrite rq.serial none ∈ s.log)
    (hop : rq.op = VhdOp.dataWrite) :
    BmInv s { bm with locked := true, queue := bm.queue ++ [rq] } := by
  refine ⟨h.closedDone, h.finLe, h.cnt, h.reqNodup, ?_, h.reqSnLt, ?_, h.waitSnLt,
    h.memFin, h.memIssued, h.memOp, ?_, ?_, ?_, h.taggedMember, h.bmwPend, h.bmwUniq,
    h.batPend, h.wpClosed⟩
  · show ((bm.queue ++ [rq]).map fun r => r.serial).Nodup
    rw [List.map_append]
    refine nodup_snoc h.queueNodup ?_
    intro hmem
    obtain ⟨r, hr, he⟩ := List.mem_map.mp hmem
    exact hfresh r hr he
  · intro r hr
    rcases mem_snoc_elim hr with h1 | h1
    · exact h.queueSnLt r h1
    · rw [h1]
      exact hsn
  · intro r hr hf
    rcases mem_snoc_elim hr with h1 | h1
    · exact h.queueFin r h1 hf
    · rw [h1] at hf
      rw [hff] at hf
      cases hf
  · intro r hr
    rcases mem_snoc_elim hr with h1 | h1
    · exact h.queueIssued r h1
    · rw [h1]
      exact hiss
  · intro r hr
    rcases mem_snoc_elim hr with h1 | h1
    · exact h.queueOp r h1
    · rw [h1]
      exact hop

/-- Queuing a data write on a bitmap whose transaction is closed (the
`fQueued` branch of `schedule_data_write`) preserves the invariant: the
write is issued untagged and parked on the bitmap's queue. -/
theorem inv_issue_data_queued {s2 : VhdState} (h : Inv s2) (blk : Nat) (rq : VhdRequest)
    {s' : VhdState}
    (hrsn : rq.serial = s2.nextSerial) (hff : rq.fFinished = false)
    (hrop : rq.op = VhdOp.dataWrite)
    (hcache : s'.cache = s2.cache.map (qApply blk rq))
    (hlog : s'.log = s2.log ++ [LogEvent.issue IoKind.dataWrite rq.serial none])
    (hinfl : s'.inflight = s2.inflight ++ [Inflight.data rq.serial])
    (hns : s'.nextSerial = s2.nextSerial + 1) (hnt : s'.nextTag = s2.nextTag)
    (hplain : s'.plain = s2.plain) (hpb : s'.pbwBlk = s2.pbwBlk)
    (hbl : s'.batLocked = s2.batLocked) (hbws : s'.batWriteStarted = s2.batWriteStarted)
    (hbr : s'.batReqTx = s2.batReqTx) : Inv s' := by
  refine ⟨?_, ?_, ?_, ?_, ?_, ?_, ?_, ?_, ?_, ?_, ?_, ?_, ?_, ?_, ?_, ?_, ?_, ?_,
    ?_, ?_, ?_, ?_, ?_⟩
  · rw [hns]
    have := h.snPos
    omega
  · rw [hcache, List.pairwise_map]
    refine h.blkNodup.imp ?_
    intro a b hne
    rw [qApply_blk, qApply_blk]
    exact hne
  · rw [hcache, List.pairwise_map]
    refine h.tagNodup.imp ?_
    intro a b hne
    rw [qApply_tx, qApply_tx]
    exact hne
  · intro b hb
    rw [hcache] at hb
    obtain ⟨b0, hb0, he⟩ := List.mem_map.mp hb
    rw [hnt, ← he, qApply_tx]
    exact h.tagLt b0 hb0
  · intro b hb hcb
    rw [hlog] at hcb
    have hcb2 := cbTagged_snoc_issue.mp hcb
    rw [hcache] at hb
    obtain ⟨b0, hb0, he⟩ := List.mem_map.mp hb
    rw [← he, qApply_tx] at hcb2
    exact h.tagNoCb b0 hb0 hcb2
  · intro T' hT'
    rw [hnt] at hT'
    have hf := h.futureTag T' hT'
    constructor
    · intro hcb
      rw [hlog] at hcb
      exact hf.1 (cbTagged_snoc_issue.mp hcb)
    · intro kind sn hm
      rw [hlog] at hm
      rcases issue_snoc_issue_elim hm with hm | ⟨-, -, he⟩
      · exact hf.2 kind sn hm
      · cases he
  · intro kind sn tg hm
    rw [hlog] at hm
    rw [hns]
    rcases issue_snoc_issue_elim hm with hm | ⟨-, he, -⟩
    · have := h.issueSnLt kind sn tg hm
      omega
    · omega
  · intro kind sn e hm
    rw [hlog] at hm
    rw [hns]
    have := h.completeSnLt kind sn e (complete_snoc_issue_elim hm)
    omega
  · intro a b c d tg snr hm
    rw [hlog] at hm
    rw [hns]
    have := h.cbSnLt a b c d tg snr (cb_snoc_issue_elim hm)
    omega
  · rw [hinfl]
    refine pairwise_snoc h.inflSnNodup ?_
    intro fl hfl heq
    have h1 := inflight_sn_lt h hfl
    have h2 : snI fl = rq.serial := heq
    omega
  · intro fl hfl
    rw [hinfl] at hfl
    rcases mem_snoc_elim hfl with hfl | hfl
    · have hold := h.inflOk fl hfl
      rw [hlog]
      refine inflightIssued_ext hold ?_
      intro sn hc
      exact completedL_snoc_issue.mp hc
    · rw [hfl]
      refine ⟨⟨none, Or.inr ?_⟩, ?_⟩
      · rw [hlog]
        exact List.mem_append_right _ (List.mem_singleton.mpr rfl)
      · intro hc
        rw [hlog] at hc
        obtain ⟨ki, er, hmc⟩ := completedL_snoc_issue.mp hc
        have := h.completeSnLt ki rq.serial er hmc
        omega
  · intro r hr
    rw [hplain] at hr
    rw [hns]
    have := h.plainSnLt r hr
    omega
  · intro T' kind sn hm hn
    rw [hlog] at hm
    rcases issue_snoc_issue_elim hm with hm | ⟨-, -, he⟩
    · have hn2 : ¬ completedL s2.log sn := by
        intro hc
        exact hn (by rw [hlog]; exact completedL_append_left hc)
      obtain ⟨bm0, hbm0, htg⟩ := h.pendLive T' kind sn hm hn2
      refine ⟨qApply blk rq bm0, ?_, ?_⟩
      · rw [hcache]
        exact List.mem_map_of_mem _ hbm0
      · rw [qApply_tx]
        exact htg
    · cases he
  · intro blk0 sn tg hm
    rw [hinfl] at hm
    rcases mem_snoc_elim hm with hm | hm
    · obtain ⟨z1, z2, z3, z4, bmz, hbmz, e1, e2, e3, rz, hrz, f1, f2, f3⟩ :=
        h.zbMember blk0 sn tg hm
      refine ⟨by rw [hbl, z1], by rw [hpb, z2], by rw [hbws, z3], ?_, ?_⟩
      · intro sn' hm'
        rw [hlog] at hm' ⊢
        rcases issue_snoc_issue_elim hm' with hm' | ⟨he1, -, -⟩
        · exact completedL_append_left (z4 sn' hm')
        · cases he1
      · refine ⟨qApply blk rq bmz, ?_, ?_, ?_, ?_, rz, ?_, f1, f2, f3⟩
        · rw [hcache]
          exact List.mem_map_of_mem _ hbmz
        · rw [qApply_blk]
          exact e1
        · rw [qApply_tx]
          exact e2
        · rw [qApply_tx]
          exact e3
        · rw [qApply_tx]
          exact hrz
    · cases hm
  · intro blk0 sn tg blk' sn' tg' hm hm'
    rw [hinfl] at hm hm'
    rcases mem_snoc_elim hm with hm | hm
    · rcases mem_snoc_elim hm' with hm' | hm'
      · exact h.zbUniq _ _ _ _ _ _ hm hm'
      · cases hm'
    · cases hm
  · intro sn tg hm
    rw [hinfl] at hm
    rcases mem_snoc_elim hm with hm | hm
    · obtain ⟨z1, z2, bmz, hbmz, e1, e2, e3⟩ := h.bwBm sn tg hm
      refine ⟨by rw [hbl, z1], by rw [hbws, z2], qApply blk rq bmz, ?_, ?_, ?_, ?_⟩
      · rw [hcache]
        exact List.mem_map_of_mem _ hbmz
      · rw [hpb, qApply_blk]
        exact e1
      · rw [qApply_tx]
        exact e2
      · rw [qApply_tx]
        exact e3
    · cases hm
  · intro sn tg sn' tg' hm hm'
    rw [hinfl] at hm hm'
    rcases mem_snoc_elim hm with hm | hm
    · rcases mem_snoc_elim hm' with hm' | hm'
      · exact h.bwUniq _ _ _ _ hm hm'
      · cases hm'
    · cases hm
  · intro blk0 sn tg hm
    rw [hinfl] at hm
    rcases mem_snoc_elim hm with hm | hm
    · obtain ⟨bmz, hbmz, e1, e2, e3, e4⟩ := h.bmwBm blk0 sn tg hm
      refine ⟨qApply blk rq bmz, ?_, ?_, ?_, ?_, ?_⟩
      · rw [hcache]
        exact List.mem_map_of_mem _ hbmz
      · rw [qApply_blk]
        exact e1
      · rw [qApply_tx]
        exact e2
      · rw [qApply_wp]
        exact e3
      · rw [qApply_tx]
        exact e4
    · cases hm
  · intro hbr'
    rw [hbr] at hbr'
    obtain ⟨p2, bmz, hbmz, e1, e2, e3, e4, e5⟩ := h.parkInv hbr'
    refine ⟨by rw [hbws, p2], qApply blk rq bmz, ?_, ?_, ?_, ?_, ?_, ?_⟩
    · rw [hcache]
      exact List.mem_map_of_mem _ hbmz
    · rw [hpb, qApply_blk]
      exact e1
    · rw [qApply_tx]
      exact e2
    · rw [qApply_tx]
      exact e3
    · rw [qApply_tx]
      exact e4
    · rw [qApply_wp]
      exact e5
  · intro b hb
    rw [hcache] at hb
    obtain ⟨b0, hb0, he⟩ := List.mem_map.mp hb
    have hB0 : BmInv s' b0 := by
      refine bmInv_ext (h.bms b0 hb0)
        [LogEvent.issue IoKind.dataWrite rq.serial none] hlog ?_ ?_ ?_ hpb hbws
      · intro ev hev kind sn heq
        simp only [List.mem_singleton] at hev
        rw [hev] at heq
        injection heq with e1 e2 e3
        cases e3
      · intro fl hfl _
        rw [hinfl]
        exact List.mem_append_left _ hfl
      · rw [hns]
        omega
    rw [← he]
    by_cases hc : (b0.blk == blk) = true
    · rw [qApply_pos blk rq hc]
      refine bmInv_queue_snoc hB0 ?_ ?_ hff ?_ hrop
      · rw [hns, hrsn]
        omega
      · intro r hr heq
        have := (h.bms b0 hb0).queueSnLt r hr
        omega
      · rw [hlog]
        exact List.mem_append_right _ (List.mem_singleton.mpr rfl)
    · rw [qApply_neg blk rq hc]
      exact hB0
  · rw [hlog]
    refine c1Log_append_issue h.c1 ?_ ?_
    · intro T' he
      cases he
    · intro a b c d T' snr hm heq
      have := h.cbSnLt a b c d (some T') snr hm
      omega
  · intro T sn hm
    rw [hlog] at hm
    rcases issue_snoc_issue_elim hm with hm | ⟨he1, -, -⟩
    · exact h.noTagRd T sn hm
    · cases he1
  · intro T sn hm
    rw [hlog] at hm
    rcases issue_snoc_issue_elim hm with hm | ⟨he1, -, -⟩
    · exact h.noTagBr T sn hm
    · cases he1

/-- Adding a data write to a bitmap's open transaction (the member branch of
`schedule_data_write`) preserves the invariant: the write is issued tagged
with the transaction incarnation and joins the request list. -/
theorem inv_issue_data_member {s2 : VhdState} (h : Inv s2) {bm : VhdBitmap} {blk : Nat}
    (r : VhdRequest) {s' : VhdState}
    (hbmm : bm ∈ s2.cache) (hbmblk : bm.blk = blk)
    (hcl : bm.tx.closed = false)
    (hrsn : r.serial = s2.nextSerial) (hff : r.fFinished = false)
    (hrop : r.op = VhdOp.dataWrite)
    (hcache : s'.cache = s2.cache.map (txApply blk r))
    (hlog : s'.log = s2.log ++
      [LogEvent.issue IoKind.dataWrite r.serial (some bm.tx.tag)])
    (hinfl : s'.inflight = s2.inflight ++ [Inflight.data r.serial])
    (hns : s'.nextSerial = s2.nextSerial + 1) (hnt : s'.nextTag = s2.nextTag)
    (hplain : s'.plain = s2.plain) (hpb : s'.pbwBlk = s2.pbwBlk)
    (hbl : s'.batLocked = s2.batLocked) (hbws : s'.batWriteStarted = s2.batWriteStarted)
    (hbr : s'.batReqTx = s2.batReqTx) : Inv s' := by
  have hbc : (bm.blk == blk) = true := by simp [hbmblk]
  have htarget : ∀ b0 ∈ s2.cache, (b0.blk == blk) = true → b0 = bm := by
    intro b0 hb0 hc
    by_contra hne
    have := pairwise_both h.blkNodup (fun a b hx he => hx he.symm) hb0 hbmm hne
    rw [hbmblk] at this
    exact this (beq_iff_eq.mp hc)
  have hB := h.bms bm hbmm
  have hnobmwpend : ∀ sn, LogEvent.issue IoKind.bitmapWrite sn (some bm.tx.tag) ∈ s2.log →
      completedL s2.log sn := by
    intro sn hiss
    by_contra hnc
    have := (hB.bmwPend sn hiss hnc).2.1
    rw [hcl] at this
    cases this
  have hF := txApply_pos blk r hbc
  have hFmem : txApply blk r bm ∈ s'.cache := by
    rw [hcache]
    exact List.mem_map_of_mem _ hbmm
  refine ⟨?_, ?_, ?_, ?_, ?_, ?_, ?_, ?_, ?_, ?_, ?_, ?_, ?_, ?_, ?_, ?_, ?_, ?_,
    ?_, ?_, ?_, ?_, ?_⟩
  · rw [hns]
    have := h.snPos
    omega
  · rw [hcache, List.pairwise_map]
    refine h.blkNodup.imp ?_
    intro a b hne
    rw [txApply_blk, txApply_blk]
    exact hne
  · rw [hcache, List.pairwise_map]
    refine h.tagNodup.imp ?_
    intro a b hne
    rw [txApply_tag, txApply_tag]
    exact hne
  · intro b hb
    rw [hcache] at hb
    obtain ⟨b0, hb0, he⟩ := List.mem_map.mp hb
    rw [hnt, ← he, txApply_tag]
    exact h.tagLt b0 hb0
  · intro b hb hcb
    rw [hlog] at hcb
    have hcb2 := cbTagged_snoc_issue.mp hcb
    rw [hcache] at hb
    obtain ⟨b0, hb0, he⟩ := List.mem_map.mp hb
    rw [← he, txApply_tag] at hcb2
    exact h.tagNoCb b0 hb0 hcb2
  · intro T' hT'
    rw [hnt] at hT'
    have hf := h.futureTag T' hT'
    constructor
    · intro hcb
      rw [hlog] at hcb
      exact hf.1 (cbTagged_snoc_issue.mp hcb)
    · intro kind sn hm
      rw [hlog] at hm
      rcases issue_snoc_issue_elim hm with hm | ⟨-, -, he⟩
      · exact hf.2 kind sn hm
      · have he2 := Option.some.inj he
        have := h.tagLt bm hbmm
        omega
  · intro kind sn tg hm
    rw [hlog] at hm
    rw [hns]
    rcases issue_snoc_issue_elim hm with hm | ⟨-, he, -⟩
    · have := h.issueSnLt kind sn tg hm
      omega
    · omega
  · intro kind sn e hm
    rw [hlog] at hm
    rw [hns]
    have := h.completeSnLt kind sn e (complete_snoc_issue_elim hm)
    omega
  · intro a b c d tg snr hm
    rw [hlog] at hm
    rw [hns]
    have := h.cbSnLt a b c d tg snr (cb_snoc_issue_elim hm)
    omega
  · rw [hinfl]
    refine pairwise_snoc h.inflSnNodup ?_
    intro fl hfl heq
    have h1 := inflight_sn_lt h hfl
    have h2 : snI fl = r.serial := heq
    omega
  · intro fl hfl
    rw [hinfl] at hfl
    rcases mem_snoc_elim hfl with hfl | hfl
    · have hold := h.inflOk fl hfl
      rw [hlog]
      refine inflightIssued_ext hold ?_
      intro sn hc
      exact completedL_snoc_issue.mp hc
    · rw [hfl]
      refine ⟨⟨some bm.tx.tag, Or.inr ?_⟩, ?_⟩
      · rw [hlog]
        exact List.mem_append_right _ (List.mem_singleton.mpr rfl)
      · intro hc
        rw [hlog] at hc
        obtain ⟨ki, er, hmc⟩ := completedL_snoc_issue.mp hc
        have := h.completeSnLt ki r.serial er hmc
        omega
  · intro r' hr'
    rw [hplain] at hr'
    rw [hns]
    have := h.plainSnLt r' hr'
    omega
  · intro T' kind sn hm hn
    rw [hlog] at hm
    rcases issue_snoc_issue_elim hm with hm | ⟨-, -, he⟩
    · have hn2 : ¬ completedL s2.log sn := by
        intro hc
        exact hn (by rw [hlog]; exact completedL_append_left hc)
      obtain ⟨bm0, hbm0, htg⟩ := h.pendLive T' kind sn hm hn2
      refine ⟨txApply blk r bm0, ?_, ?_⟩
      · rw [hcache]
        exact List.mem_map_of_mem _ hbm0
      · rw [txApply_tag]
        exact htg
    · refine ⟨txApply blk r bm, hFmem, ?_⟩
      rw [txApply_tag]
      exact (Option.some.inj he).symm
  · intro blk0 sn tg hm
    rw [hinfl] at hm
    rcases mem_snoc_elim hm with hm | hm
    · obtain ⟨z1, z2, z3, z4, bmz, hbmz, e1, e2, e3, rz, hrz, f1, f2, f3⟩ :=
        h.zbMember blk0 sn tg hm
      refine ⟨by rw [hbl, z1], by rw [hpb, z2], by rw [hbws, z3], ?_, ?_⟩
      · intro sn' hm'
        rw [hlog] at hm' ⊢
        rcases issue_snoc_issue_elim hm' with hm' | ⟨he1, -, -⟩
        · exact completedL_append_left (z4 sn' hm')
        · cases he1
      · refine ⟨txApply blk r bmz, ?_, ?_, ?_, ?_, rz, ?_, f1, f2, f3⟩
        · rw [hcache]
          exact List.mem_map_of_mem _ hbmz
        · rw [txApply_blk]
          exact e1
        · rw [txApply_tag]
          exact e2
        · rw [txApply_updateBat]
          exact e3
        · exact txApply_req_sub blk r bmz hrz
    · cases hm
  · intro blk0 sn tg blk' sn' tg' hm hm'
    rw [hinfl] at hm hm'
    rcases mem_snoc_elim hm with hm | hm
    · rcases mem_snoc_elim hm' with hm' | hm'
      · exact h.zbUniq _ _ _ _ _ _ hm hm'
      · cases hm'
    · cases hm
  · intro sn tg hm
    rw [hinfl] at hm
    rcases mem_snoc_elim hm with hm | hm
    · obtain ⟨z1, z2, bmz, hbmz, e1, e2, e3⟩ := h.bwBm sn tg hm
      refine ⟨by rw [hbl, z1], by rw [hbws, z2], txApply blk r bmz, ?_, ?_, ?_, ?_⟩
      · rw [hcache]
        exact List.mem_map_of_mem _ hbmz
      · rw [hpb, txApply_blk]
        exact e1
      · rw [txApply_tag]
        exact e2
      · rw [txApply_updateBat]
        exact e3
    · cases hm
  · intro sn tg sn' tg' hm hm'
    rw [hinfl] at hm hm'
    rcases mem_snoc_elim hm with hm | hm
    · rcases mem_snoc_elim hm' with hm' | hm'
      · exact h.bwUniq _ _ _ _ hm hm'
      · cases hm'
    · cases hm
  · intro blk0 sn tg hm
    rw [hinfl] at hm
    rcases mem_snoc_elim hm with hm | hm
    · obtain ⟨bmz, hbmz, e1, e2, e3, e4⟩ := h.bmwBm blk0 sn tg hm
      refine ⟨txApply blk r bmz, ?_, ?_, ?_, ?_, ?_⟩
      · rw [hcache]
        exact List.mem_map_of_mem _ hbmz
      · rw [txApply_blk]
        exact e1
      · rw [txApply_tag]
        exact e2
      · rw [txApply_wp]
        exact e3
      · rw [txApply_closed]
        exact e4
    · cases hm
  · intro hbr'
    rw [hbr] at hbr'
    obtain ⟨p2, bmp, hbmp, e1, e2, e3, e4, e5⟩ := h.parkInv hbr'
    have hcp : ¬ (bmp.blk == blk) = true := by
      intro hc
      have hbe := htarget bmp hbmp hc
      rw [hbe, hcl] at e3
      cases e3
    have himg : txApply blk r bmp = bmp := txApply_neg blk r hcp
    refine ⟨by rw [hbws, p2], txApply blk r bmp, ?_, ?_, ?_, ?_, ?_, ?_⟩
    · rw [hcache]
      exact List.mem_map_of_mem _ hbmp
    · rw [himg, hpb]
      exact e1
    · rw [himg]
      exact e2
    · rw [himg]
      exact e3
    · rw [himg]
      exact e4
    · rw [himg]
      exact e5
  · intro b hb
    rw [hcache] at hb
    obtain ⟨b0, hb0, he⟩ := List.mem_map.mp hb
    rw [← he]
    by_cases hc : (b0.blk == blk) = true
    · have hbe := htarget b0 hb0 hc
      subst hbe
      rw [hF]
      have hnT : ∀ sn, ¬ completedL s'.log sn → ¬ completedL s2.log sn := by
        intro sn hn hco
        exact hn (by rw [hlog]; exact completedL_append_left hco)
      refine ⟨?_, ?_, ?_, ?_, ?_, ?_, ?_, ?_, ?_, ?_, ?_, ?_, ?_, ?_, ?_, ?_, ?_, ?_, ?_⟩
      · intro hcc
        have hx : b0.tx.closed = true := hcc
        rw [hcl] at hx
        cases hx
      · show b0.tx.finished ≤ b0.tx.started + 1
        have := hB.finLe
        omega
      · show ((b0.tx.requests ++ [r]).countP fun x => !x.fFinished) =
          b0.tx.started + 1 - b0.tx.finished
        rw [List.countP_append]
        have h1 := hB.cnt
        have h2 := hB.finLe
        have h3 : ([r].countP fun x => !x.fFinished) = 1 := by
          simp [List.countP_cons, hff]
        omega
      · show ((b0.tx.requests ++ [r]).map fun x => x.serial).Nodup
        rw [List.map_append]
        refine nodup_snoc hB.reqNodup ?_
        intro hmem
        simp only [List.map_cons, List.map_nil, List.mem_singleton] at hmem
        obtain ⟨r', hr', he'⟩ := List.mem_map.mp hmem
        have := hB.reqSnLt r' hr'
        omega
      · exact hB.queueNodup
      · intro r' hr'
        have hr2 : r' ∈ b0.tx.requests ++ [r] := hr'
        rw [hns]
        rcases mem_snoc_elim hr2 with h1 | h1
        · have := hB.reqSnLt r' h1
          omega
        · rw [h1]
          omega
      · intro r' hr'
        rw [hns]
        have := hB.queueSnLt r' hr'
        omega
      · intro r' hr'
        rw [hns]
        have := hB.waitSnLt r' hr'
        omega
      · intro r' hr' hf
        have hr2 : r' ∈ b0.tx.requests ++ [r] := hr'
        rcases mem_snoc_elim hr2 with h1 | h1
        · rw [hlog]
          exact completedL_append_left (hB.memFin r' h1 hf)
        · rw [h1, hff] at hf
          cases hf
      · intro r' hr'
        have hr2 : r' ∈ b0.tx.requests ++ [r] := hr'
        rcases mem_snoc_elim hr2 with h1 | h1
        · obtain ⟨tg, hm⟩ := hB.memIssued r' h1
          exact ⟨tg, by rw [hlog]; exact List.mem_append_left _ hm⟩
        · subst h1
          refine ⟨some b0.tx.tag, ?_⟩
          rw [hrop, hlog]
          exact List.mem_append_right _ (List.mem_singleton.mpr rfl)
      · intro r' hr'
        have hr2 : r' ∈ b0.tx.requests ++ [r] := hr'
        rcases mem_snoc_elim hr2 with h1 | h1
        · exact hB.memOp r' h1
        · rw [h1]
          exact Or.inl hrop
      · intro r' hr' hf
        rw [hlog]
        exact completedL_append_left (hB.queueFin r' hr' hf)
      · intro r' hr'
        rw [hlog]
        exact List.mem_append_left _ (hB.queueIssued r' hr')
      · exact hB.queueOp
      · intro kind sn hk hm hn
        have hm2 : LogEvent.issue kind sn (some b0.tx.tag) ∈ s'.log := hm
        rw [hlog] at hm2
        rcases issue_snoc_issue_elim hm2 with h1 | ⟨he1, he2, -⟩
        · obtain ⟨r', hr', e1, e2⟩ := hB.taggedMember kind sn hk h1 (hnT sn hn)
          exact ⟨r', List.mem_append_left _ hr', e1, e2⟩
        · subst he2
          exact ⟨r, List.mem_append_right _ (List.mem_singleton.mpr rfl), rfl, hff⟩
      · intro sn hm hn
        have hm2 : LogEvent.issue IoKind.bitmapWrite sn (some b0.tx.tag) ∈ s'.log := hm
        rw [hlog] at hm2
        rcases issue_snoc_issue_elim hm2 with h1 | ⟨he1, -, -⟩
        · exact absurd (by rw [hlog]; exact completedL_append_left (hnobmwpend sn h1)) hn
        · cases he1
      · intro sn sn' hm hn hm' hn'
        have hm2 : LogEvent.issue IoKind.bitmapWrite sn (some b0.tx.tag) ∈ s'.log := hm
        rw [hlog] at hm2
        rcases issue_snoc_issue_elim hm2 with h1 | ⟨he1, -, -⟩
        · exact absurd (by rw [hlog]; exact completedL_append_left (hnobmwpend sn h1)) hn
        · cases he1
      · intro sn hm hn
        have hm2 : LogEvent.issue IoKind.batWrite sn (some b0.tx.tag) ∈ s'.log := hm
        rw [hlog] at hm2
        rcases issue_snoc_issue_elim hm2 with h1 | ⟨he1, -, -⟩
        · obtain ⟨g1, g2, g3, g4⟩ := hB.batPend sn h1 (hnT sn hn)
          refine ⟨g1, ?_, ?_, ?_⟩
          · rw [hpb]
            exact g2
          · rw [hbws]
            exact g3
          · rw [hinfl]
            exact List.mem_append_left _ g4
        · cases he1
      · exact hB.wpClosed
    · have htagne : b0.tx.tag ≠ bm.tx.tag := by
        intro heq
        have hbne : b0 ≠ bm := by
          intro hbb
          rw [hbb] at hc
          exact hc hbc
        exact pairwise_both h.tagNodup (fun a b hx he => hx he.symm) hb0 hbmm hbne heq
      rw [txApply_neg blk r hc]
      refine bmInv_ext (h.bms b0 hb0)
        [LogEvent.issue IoKind.dataWrite r.serial (some bm.tx.tag)] hlog ?_ ?_ ?_ hpb hbws
      · intro ev hev kind sn heq
        simp only [List.mem_singleton] at hev
        rw [hev] at heq
        injection heq with e1 e2 e3
        exact htagne (Option.some.inj e3).symm
      · intro fl hfl _
        rw [hinfl]
        exact List.mem_append_left _ hfl
      · rw [hns]
        omega
  · rw [hlog]
    refine c1Log_append_issue h.c1 ?_ ?_
    · intro T' he
      rw [← Option.some.inj he]
      exact h.tagNoCb bm hbmm
    · intro a b c d T' snr hm heq
      have := h.cbSnLt a b c d (some T') snr hm
      omega
  · intro T sn hm
    rw [hlog] at hm
    rcases issue_snoc_issue_elim hm with hm | ⟨he1, -, -⟩
    · exact h.noTagRd T sn hm
    · cases he1
  · intro T sn hm
    rw [hlog] at hm
    rcases issue_snoc_issue_elim hm with hm | ⟨he1, -, -⟩
    · exact h.noTagBr T sn hm
    · cases he1

/-- `schedule_data_write` preserves the invariant in all three shapes: the
plain write, the queued write (transaction closed) and the transaction
member write. -/
theorem inv_scheduleDataWrite {s : VhdState} (h : Inv s) {sector nrSecs : Nat}
    {fB fM : Bool} {id : Nat} {s' : VhdState}
    (hs : scheduleDataWrite s sector nrSecs fB fM id = SRes.ok s') : Inv s' := by
  unfold scheduleDataWrite at hs
  simp only [SRes.bind] at hs
  split at hs
  · cases hs
  · cases hs
  · rename_i s1 hs1
    have h1 : Inv s1 := by
      split at hs1
      · cases hs1
        exact h
      · split at hs1
        · cases hs1
        · split at hs1
          · exact inv_updateBat h hs1
          · cases hs1
            exact h
    simp only at hs
    rcases hp : allocVhdRequest s1 with _ | ⟨r0, s2⟩ <;> rw [hp] at hs
    · cases hs
    · simp only at hs
      obtain ⟨ha1, ha2, ha3, ha4, ha5, ha6, ha7, ha8, ha9, ha10, ha11, ha12, ha13⟩ :=
        alloc_spec hp
      simp only at ha1 ha2 ha3 ha4 ha5 ha6 ha7 ha8 ha9 ha10 ha11 ha12 ha13
      by_cases hfm : fM = true
      · rw [if_pos hfm] at hs
        rcases hbm : getBitmap s2 (sector / s.spb) with _ | bm <;> rw [hbm] at hs
        · cases hs
        · simp only at hs
          obtain ⟨hbm2, hbmblk⟩ := mem_of_getBitmap hbm
          have hbm1 : bm ∈ s1.cache := ha4 ▸ hbm2
          by_cases hv : (!bitmapValid bm) = true
          · rw [if_pos hv] at hs
            cases hs
          · rw [if_neg hv] at hs
            by_cases hcl : bm.tx.closed = true
            · rw [if_pos hcl] at hs
              cases hs
              refine inv_issue_data_queued h1 (sector / s.spb)
                { r0 with
                    lsec := sector, nrSecs := nrSecs, id := id, op := VhdOp.dataWrite,
                    fUpdateBat := fB, fUpdateBitmap := fM, fQueued := true }
                ha1 ha13 rfl ?_ ?_ ?_ ha2 ha7 ha6 ha8 ha9 ha10 ha11
              · show s2.cache.map _ = _
                rw [ha4]
                rfl
              · show (updateBm s2 (sector / s.spb) _).log ++ _ = s1.log ++ _
                rw [show ∀ f, (updateBm s2 (sector / s.spb) f).log = s2.log
                  from fun f => rfl, ha3]
              · show (updateBm s2 (sector / s.spb) _).inflight ++ _ = s1.inflight ++ _
                rw [show ∀ f, (updateBm s2 (sector / s.spb) f).inflight = s2.inflight
                  from fun f => rfl, ha5]
            · rw [if_neg hcl] at hs
              cases hs
              refine inv_issue_data_member h1
                { r0 with
                    lsec := sector, nrSecs := nrSecs, id := id, op := VhdOp.dataWrite,
                    fUpdateBat := fB, fUpdateBitmap := fM }
                hbm1 hbmblk (Bool.eq_false_iff.mpr hcl)
                ha1 ha13 rfl ?_ ?_ ?_ ha2 ha7 ha6 ha8 ha9 ha10 ha11
              · show s2.cache.map _ = _
                rw [ha4]
                rfl
              · show (updateBm s2 (sector / s.spb) _).log ++ _ = s1.log ++ _
                rw [show ∀ f, (updateBm s2 (sector / s.spb) f).log = s2.log
                  from fun f => rfl, ha3]
              · show (updateBm s2 (sector / s.spb) _).inflight ++ _ = s1.inflight ++ _
                rw [show ∀ f, (updateBm s2 (sector / s.spb) f).inflight = s2.inflight
                  from fun f => rfl, ha5]
      · rw [if_neg hfm] at hs
        cases hs
        refine inv_issue_data_plain h1 (Or.inr rfl)
          { r0 with
              lsec := sector, nrSecs := nrSecs, id := id, op := VhdOp.dataWrite,
              fUpdateBat := fB, fUpdateBitmap := fM }
          ha1 ?_ ?_ ha2 ha7 ha4 ?_ ha8 ha9 ha10 ha11
        · show s2.log ++ _ = s1.log ++ _
          rw [ha3]
        · show s2.inflight ++ _ = s1.inflight ++ _
          rw [ha5]
        · show s2.plain ++ _ = s1.plain ++ _
          rw [ha6]

/-- The cache rewrite of `finish_bitmap_transaction` when the transaction
retires: record the transaction error, then `init_tx` with a fresh tag. -/
def rtApply (blk tg : Nat) (b : VhdBitmap) : VhdBitmap :=
  if b.blk == blk then { b with tx := initTx tg } else b

theorem rtApply_blk (blk tg : Nat) (b : VhdBitmap) : (rtApply blk tg b).blk = b.blk := by
  unfold rtApply; split <;> rfl

theorem rtApply_wp (blk tg : Nat) (b : VhdBitmap) :
    (rtApply blk tg b).writePending = b.writePending := by
  unfold rtApply; split <;> rfl

theorem rtApply_queue (blk tg : Nat) (b : VhdBitmap) :
    (rtApply blk tg b).queue = b.queue := by
  unfold rtApply; split <;> rfl

theorem rtApply_waiting (blk tg : Nat) (b : VhdBitmap) :
    (rtApply blk tg b).waiting = b.waiting := by
  unfold rtApply; split <;> rfl

theorem rtApply_pos (blk tg : Nat) {b : VhdBitmap} (hc : (b.blk == blk) = true) :
    rtApply blk tg b = { b with tx := initTx tg } := by
  unfold rtApply
  rw [if_pos hc]

theorem rtApply_neg (blk tg : Nat) {b : VhdBitmap} (hc : ¬ (b.blk == blk) = true) :
    rtApply blk tg b = b := by
  unfold rtApply
  rw [if_neg hc]

/-- The error-recording rewrite followed by the `init_tx` rewrite compose to
`rtApply`. -/
theorem map_rtApply (blk : Nat) (e : Int) (tg : Nat) (l : List VhdBitmap) :
    ((l.map (fun b => if b.blk == blk then
        { b with tx := { b.tx with error := e } } else b)).map
      (fun b => if b.blk == blk then { b with tx := initTx tg } else b))
    = l.map (rtApply blk tg) := by
  rw [List.map_map]
  refine List.map_congr_left ?_
  intro b _
  simp only [Function.comp_apply]
  by_cases hc : (b.blk == blk) = true
  · have hc2 : (({ b with tx := { b.tx with error := e } } :
        VhdBitmap).blk == blk) = true := hc
    rw [if_pos hc, if_pos hc2, rtApply_pos blk tg hc]
  · rw [if_neg hc, rtApply_neg blk tg hc, if_neg hc]

theorem issue_append_cb_elim {L : List LogEvent} {rs : List VhdRequest}
    {g : VhdRequest → Int} {t : Option Nat} {kind : IoKind} {sn : Nat} {tg : Option Nat}
    (h : LogEvent.issue kind sn tg ∈
      L ++ rs.map (fun r => LogEvent.callback (g r) r.lsec r.nrSecs r.id t r.serial)) :
    LogEvent.issue kind sn tg ∈ L := by
  rcases List.mem_append.mp h with h1 | h1
  · exact h1
  · obtain ⟨r, hr, he⟩ := List.mem_map.mp h1
    cases he

theorem complete_append_cb_elim {L : List LogEvent} {rs : List VhdRequest}
    {g : VhdRequest → Int} {t : Option Nat} {kind : IoKind} {sn : Nat} {e : Int}
    (h : LogEvent.complete kind sn e ∈
      L ++ rs.map (fun r => LogEvent.callback (g r) r.lsec r.nrSecs r.id t r.serial)) :
    LogEvent.complete kind sn e ∈ L := by
  rcases List.mem_append.mp h with h1 | h1
  · exact h1
  · obtain ⟨r, hr, he⟩ := List.mem_map.mp h1
    cases he

theorem completedL_append_cb {L : List LogEvent} {rs : List VhdRequest}
    {g : VhdRequest → Int} {t : Option Nat} {sn : Nat} :
    completedL (L ++ rs.map
      (fun r => LogEvent.callback (g r) r.lsec r.nrSecs r.id t r.serial)) sn ↔
    completedL L sn := by
  constructor
  · intro hc
    obtain ⟨k, e, hm⟩ := hc
    exact ⟨k, e, complete_append_cb_elim hm⟩
  · exact completedL_append_left

theorem cbTagged_append_cb {L : List LogEvent} {rs : List VhdRequest}
    {g : VhdRequest → Int} {t : Option Nat} {T : Nat}
    (h : cbTagged (L ++ rs.map
      (fun r => LogEvent.callback (g r) r.lsec r.nrSecs r.id t r.serial)) T) :
    cbTagged L T ∨ t = some T := by
  obtain ⟨a, b, c, d, f, hm⟩ := h
  rcases List.mem_append.mp hm with h1 | h1
  · exact Or.inl ⟨a, b, c, d, f, h1⟩
  · obtain ⟨r, hr, he⟩ := List.mem_map.mp h1
    injection he with e1 e2 e3 e4 e5 e6
    exact Or.inr e5

theorem cb_append_cb_elim {L : List LogEvent} {rs : List VhdRequest}
    {g : VhdRequest → Int} {t : Option Nat} {a : Int} {b c d : Nat} {tg : Option Nat}
    {snr : Nat}
    (h : LogEvent.callback a b c d tg snr ∈
      L ++ rs.map (fun r => LogEvent.callback (g r) r.lsec r.nrSecs r.id t r.serial)) :
    LogEvent.callback a b c d tg snr ∈ L ∨ ∃ r ∈ rs, tg = t ∧ snr = r.serial := by
  rcases List.mem_append.mp h with h1 | h1
  · exact Or.inl h1
  · obtain ⟨r, hr, he⟩ := List.mem_map.mp h1
    injection he with e1 e2 e3 e4 e5 e6
    exact Or.inr ⟨r, hr, e5.symm, e6.symm⟩

/-- Retiring a completed transaction — signalling every member with the
transaction error and resetting the transaction with a fresh tag (the
non-`TX_UPDATE_BAT` path of `finish_bitmap_transaction`) — preserves the
invariant. -/
theorem inv_retire {s : VhdState} (h : Inv s) {bm : VhdBitmap} {blk : Nat} {s' : VhdState}
    (g : VhdRequest → Int)
    (hbmm : bm ∈ s.cache) (hbmblk : bm.blk = blk)
    (hdone : bm.tx.started = bm.tx.finished)
    (hnoBat : bm.tx.updateBat = false)
    (hnoWp : bm.writePending = false)
    (hcache : s'.cache = s.cache.map (rtApply blk s.nextTag))
    (hlog : s'.log = s.log ++ bm.tx.requests.map
      (fun r => LogEvent.callback (g r) r.lsec r.nrSecs r.id (some bm.tx.tag) r.serial))
    (hinfl : s'.inflight = s.inflight)
    (hns : s'.nextSerial = s.nextSerial) (hnt : s'.nextTag = s.nextTag + 1)
    (hplain : s'.plain = s.plain) (hpb : s'.pbwBlk = s.pbwBlk)
    (hbl : s'.batLocked = s.batLocked) (hbws : s'.batWriteStarted = s.batWriteStarted)
    (hbr : s'.batReqTx = s.batReqTx) : Inv s' := by
  have hbc : (bm.blk == blk) = true := by simp [hbmblk]
  have htarget : ∀ b0 ∈ s.cache, (b0.blk == blk) = true → b0 = bm := by
    intro b0 hb0 hc
    by_contra hne
    have := pairwise_both h.blkNodup (fun a b hx he => hx he.symm) hb0 hbmm hne
    rw [hbmblk] at this
    exact this (beq_iff_eq.mp hc)
  have hB := h.bms bm hbmm
  have hallfin : ∀ r ∈ bm.tx.requests, r.fFinished = true := by
    have hc0 : bm.tx.requests.countP (fun x => !x.fFinished) = 0 := by
      rw [hB.cnt]
      omega
    intro r hr
    by_contra hnf
    refine List.countP_eq_zero.mp hc0 r hr ?_
    cases hx : r.fFinished
    · simp
    · exact absurd hx hnf
  have hmemC : ∀ r ∈ bm.tx.requests, completedL s.log r.serial :=
    fun r hr => hB.memFin r hr (hallfin r hr)
  have hissC : ∀ kind sn, LogEvent.issue kind sn (some bm.tx.tag) ∈ s.log →
      completedL s.log sn := by
    intro kind sn hm
    by_contra hnc
    cases kind with
    | dataRead => exact h.noTagRd _ _ hm
    | bitmapRead => exact h.noTagBr _ _ hm
    | dataWrite =>
      obtain ⟨r, hr, e1, e2⟩ := hB.taggedMember IoKind.dataWrite sn (Or.inl rfl) hm hnc
      rw [hallfin r hr] at e2
      cases e2
    | zeroBmWrite =>
      obtain ⟨r, hr, e1, e2⟩ := hB.taggedMember IoKind.zeroBmWrite sn (Or.inr rfl) hm hnc
      rw [hallfin r hr] at e2
      cases e2
    | bitmapWrite =>
      have := (hB.bmwPend sn hm hnc).1
      rw [hnoWp] at this
      cases this
    | batWrite =>
      have := (hB.batPend sn hm hnc).1
      rw [hnoBat] at this
      cases this
  refine ⟨?_, ?_, ?_, ?_, ?_, ?_, ?_, ?_, ?_, ?_, ?_, ?_, ?_, ?_, ?_, ?_, ?_, ?_,
    ?_, ?_, ?_, ?_, ?_⟩
  · rw [hns]
    exact h.snPos
  · rw [hcache, List.pairwise_map]
    refine h.blkNodup.imp ?_
    intro a b hne
    rw [rtApply_blk, rtApply_blk]
    exact hne
  · rw [hcache, List.pairwise_map]
    refine List.Pairwise.imp_of_mem ?_ h.tagNodup
    intro a b ha hb hne
    by_cases hca : (a.blk == blk) = true
    · by_cases hcb : (b.blk == blk) = true
      · exact absurd (by rw [htarget a ha hca, htarget b hb hcb]) hne
      · rw [rtApply_pos blk s.nextTag hca, rtApply_neg blk s.nextTag hcb]
        intro heq
        have h1 : s.nextTag = b.tx.tag := heq
        have := h.tagLt b hb
        omega
    · by_cases hcb : (b.blk == blk) = true
      · rw [rtApply_neg blk s.nextTag hca, rtApply_pos blk s.nextTag hcb]
        intro heq
        have h1 : a.tx.tag = s.nextTag := heq
        have := h.tagLt a ha
        omega
      · rw [rtApply_neg blk s.nextTag hca, rtApply_neg blk s.nextTag hcb]
        exact hne
  · intro b' hb'
    rw [hcache] at hb'
    obtain ⟨b0, hb0, he⟩ := List.mem_map.mp hb'
    rw [hnt, ← he]
    by_cases hc : (b0.blk == blk) = true
    · rw [rtApply_pos blk s.nextTag hc]
      show s.nextTag < s.nextTag + 1
      omega
    · rw [rtApply_neg blk s.nextTag hc]
      have := h.tagLt b0 hb0
      omega
  · intro b' hb' hcb
    rw [hcache] at hb'
    obtain ⟨b0, hb0, he⟩ := List.mem_map.mp hb'
    rw [← he] at hcb
    rw [hlog] at hcb
    by_cases hc : (b0.blk == blk) = true
    · rw [rtApply_pos blk s.nextTag hc] at hcb
      have hcb2 : cbTagged (s.log ++ bm.tx.requests.map
          (fun r => LogEvent.callback (g r) r.lsec r.nrSecs r.id
            (some bm.tx.tag) r.serial)) s.nextTag := hcb
      rcases cbTagged_append_cb hcb2 with h1 | h1
      · exact (h.futureTag s.nextTag (le_refl _)).1 h1
      · have h2 := Option.some.inj h1
        have := h.tagLt bm hbmm
        omega
    · rw [rtApply_neg blk s.nextTag hc] at hcb
      rcases cbTagged_append_cb hcb with h1 | h1
      · exact h.tagNoCb b0 hb0 h1
      · have hbne : b0 ≠ bm := by
          intro hbe
          rw [hbe] at hc
          exact hc hbc
        have htagne := pairwise_both h.tagNodup (fun a b hx he => hx he.symm) hb0 hbmm hbne
        exact htagne (Option.some.inj h1).symm
  · intro T' hT'
    rw [hnt] at hT'
    constructor
    · intro hcb
      rw [hlog] at hcb
      rcases cbTagged_append_cb hcb with h1 | h1
      · exact (h.futureTag T' (by omega)).1 h1
      · have h2 := Option.some.inj h1
        have := h.tagLt bm hbmm
        omega
    · intro kind sn hm
      rw [hlog] at hm
      exact (h.futureTag T' (by omega)).2 kind sn (issue_append_cb_elim hm)
  · intro kind sn tg hm
    rw [hlog] at hm
    rw [hns]
    exact h.issueSnLt kind sn tg (issue_append_cb_elim hm)
  · intro kind sn e hm
    rw [hlog] at hm
    rw [hns]
    exact h.completeSnLt kind sn e (complete_append_cb_elim hm)
  · intro a b c d tg snr hm
    rw [hlog] at hm
    rw [hns]
    rcases cb_append_cb_elim hm with h1 | ⟨r, hr, -, hsnr⟩
    · exact h.cbSnLt a b c d tg snr h1
    · rw [hsnr]
      exact hB.reqSnLt r hr
  · rw [hinfl]
    exact h.inflSnNodup
  · intro fl hfl
    rw [hinfl] at hfl
    rw [hlog]
    refine inflightIssued_ext (h.inflOk fl hfl) ?_
    intro sn hc
    exact completedL_append_cb.mp hc
  · intro r hr
    rw [hplain] at hr
    rw [hns]
    exact h.plainSnLt r hr
  · intro T' kind sn hm hn
    rw [hlog] at hm
    have hm2 := issue_append_cb_elim hm
    have hn2 : ¬ completedL s.log sn := by
      intro hc
      exact hn (by rw [hlog]; exact completedL_append_left hc)
    obtain ⟨bm0, hbm0, htg⟩ := h.pendLive T' kind sn hm2 hn2
    by_cases hc : (bm0.blk == blk) = true
    · have hbe := htarget bm0 hbm0 hc
      rw [hbe] at htg
      rw [← htg] at hm2
      exact absurd (hissC kind sn hm2) hn2
    · refine ⟨rtApply blk s.nextTag bm0, ?_, ?_⟩
      · rw [hcache]
        exact List.mem_map_of_mem _ hbm0
      · rw [rtApply_neg blk s.nextTag hc]
        exact htg
  · intro blk0 sn tg hm
    rw [hinfl] at hm
    obtain ⟨z1, z2, z3, z4, bmz, hbmz, e1, e2, e3, rz, hrz, f1, f2, f3⟩ :=
      h.zbMember blk0 sn tg hm
    have hbzne : bmz ≠ bm := by
      intro hbe
      rw [hbe, hnoBat] at e3
      cases e3
    have hcz : ¬ (bmz.blk == blk) = true := fun hc => hbzne (htarget bmz hbmz hc)
    have himg := rtApply_neg blk s.nextTag hcz
    refine ⟨by rw [hbl, z1], by rw [hpb, z2], by rw [hbws, z3], ?_,
      rtApply blk s.nextTag bmz, ?_, ?_, ?_, ?_, rz, ?_, f1, f2, f3⟩
    · intro sn' hm'
      rw [hlog] at hm' ⊢
      exact completedL_append_left (z4 sn' (issue_append_cb_elim hm'))
    · rw [hcache]
      exact List.mem_map_of_mem _ hbmz
    · rw [himg]
      exact e1
    · rw [himg]
      exact e2
    · rw [himg]
      exact e3
    · rw [himg]
      exact hrz
  · intro blk0 sn tg blk' sn' tg' hm hm'
    rw [hinfl] at hm hm'
    exact h.zbUniq _ _ _ _ _ _ hm hm'
  · intro sn tg hm
    rw [hinfl] at hm
    obtain ⟨z1, z2, bmw, hbmw, e1, e2, e3⟩ := h.bwBm sn tg hm
    have hbwne : bmw ≠ bm := by
      intro hbe
      rw [hbe, hnoBat] at e3
      cases e3
    have hcw : ¬ (bmw.blk == blk) = true := fun hc => hbwne (htarget bmw hbmw hc)
    have himg := rtApply_neg blk s.nextTag hcw
    refine ⟨by rw [hbl, z1], by rw [hbws, z2], rtApply blk s.nextTag bmw, ?_, ?_, ?_, ?_⟩
    · rw [hcache]
      exact List.mem_map_of_mem _ hbmw
    · rw [himg, hpb]
      exact e1
    · rw [himg]
      exact e2
    · rw [himg]
      exact e3
  · intro sn tg sn' tg' hm hm'
    rw [hinfl] at hm hm'
    exact h.bwUniq _ _ _ _ hm hm'
  · intro blk0 sn tg hm
    rw [hinfl] at hm
    obtain ⟨bmw, hbmw, e1, e2, e3, e4⟩ := h.bmwBm blk0 sn tg hm
    have hbwne : bmw ≠ bm := by
      intro hbe
      rw [hbe, hnoWp] at e3
      cases e3
    have hcw : ¬ (bmw.blk == blk) = true := fun hc => hbwne (htarget bmw hbmw hc)
    have himg := rtApply_neg blk s.nextTag hcw
    refine ⟨rtApply blk s.nextTag bmw, ?_, ?_, ?_, ?_, ?_⟩
    · rw [hcache]
      exact List.mem_map_of_mem _ hbmw
    · rw [himg]
      exact e1
    · rw [himg]
      exact e2
    · rw [himg]
      exact e3
    · rw [himg]
      exact e4
  · intro hbr'
    rw [hbr] at hbr'
    obtain ⟨p2, bmp, hbmp, e1, e2, e3, e4, e5⟩ := h.parkInv hbr'
    have hbpne : bmp ≠ bm := by
      intro hbe
      rw [hbe, hnoBat] at e4
      cases e4
    have hcp : ¬ (bmp.blk == blk) = true := fun hc => hbpne (htarget bmp hbmp hc)
    have himg := rtApply_neg blk s.nextTag hcp
    refine ⟨by rw [hbws, p2], rtApply blk s.nextTag bmp, ?_, ?_, ?_,
      ?_, ?_, ?_⟩
    · rw [hcache]
      exact List.mem_map_of_mem _ hbmp
    · rw [himg, hpb]
      exact e1
    · rw [himg]
      exact e2
    · rw [himg]
      exact e3
    · rw [himg]
      exact e4
    · rw [himg]
      exact e5
  · intro b' hb'
    rw [hcache] at hb'
    obtain ⟨b0, hb0, he⟩ := List.mem_map.mp hb'
    rw [← he]
    by_cases hc : (b0.blk == blk) = true
    · have hbe := htarget b0 hb0 hc
      subst hbe
      rw [rtApply_pos blk s.nextTag hc]
      refine ⟨?_, ?_, ?_, ?_, ?_, ?_, ?_, ?_, ?_, ?_, ?_, ?_, ?_, ?_, ?_, ?_, ?_, ?_, ?_⟩
      · intro hcc
        rfl
      · exact le_refl 0
      · rfl
      · exact List.nodup_nil
      · exact hB.queueNodup
      · intro r hr
        cases hr
      · intro r hr
        rw [hns]
        exact hB.queueSnLt r hr
      · intro r hr
        rw [hns]
        exact hB.waitSnLt r hr
      · intro r hr
        cases hr
      · intro r hr
        cases hr
      · intro r hr
        cases hr
      · intro r hr hf
        rw [hlog]
        exact completedL_append_left (hB.queueFin r hr hf)
      · intro r hr
        rw [hlog]
        exact List.mem_append_left _ (hB.queueIssued r hr)
      · exact hB.queueOp
      · intro kind sn hk hm hn
        have hm2 : LogEvent.issue kind sn (some s.nextTag) ∈ s'.log := hm
        rw [hlog] at hm2
        exact absurd (issue_append_cb_elim hm2)
          ((h.futureTag s.nextTag (le_refl _)).2 kind sn)
      · intro sn hm hn
        have hm2 : LogEvent.issue IoKind.bitmapWrite sn (some s.nextTag) ∈ s'.log := hm
        rw [hlog] at hm2
        exact absurd (issue_append_cb_elim hm2)
          ((h.futureTag s.nextTag (le_refl _)).2 IoKind.bitmapWrite sn)
      · intro sn sn' hm hn hm' hn'
        have hm2 : LogEvent.issue IoKind.bitmapWrite sn (some s.nextTag) ∈ s'.log := hm
        rw [hlog] at hm2
        exact absurd (issue_append_cb_elim hm2)
          ((h.futureTag s.nextTag (le_refl _)).2 IoKind.bitmapWrite sn)
      · intro sn hm hn
        have hm2 : LogEvent.issue IoKind.batWrite sn (some s.nextTag) ∈ s'.log := hm
        rw [hlog] at hm2
        exact absurd (issue_append_cb_elim hm2)
          ((h.futureTag s.nextTag (le_refl _)).2 IoKind.batWrite sn)
      · intro hw
        have hx : b0.writePending = true := hw
        rw [hnoWp] at hx
        cases hx
    · rw [rtApply_neg blk s.nextTag hc]
      refine bmInv_ext (h.bms b0 hb0) (bm.tx.requests.map
        (fun r => LogEvent.callback (g r) r.lsec r.nrSecs r.id (some bm.tx.tag) r.serial))
        hlog ?_ ?_ ?_ hpb hbws
      · intro ev hev kind sn heq
        obtain ⟨r, hr, he'⟩ := List.mem_map.mp hev
        rw [← he'] at heq
        cases heq
      · intro fl hfl _
        rw [hinfl]
        exact hfl
      · exact le_of_eq hns.symm
  · rw [hlog]
    exact c1Log_append_batch s.log bm.tx.tag bm.tx.requests g h.c1 (h.tagNoCb bm hbmm)
      hissC hmemC
  · intro T sn hm
    rw [hlog] at hm
    exact h.noTagRd T sn (issue_append_cb_elim hm)
  · intro T sn hm
    rw [hlog] at hm
    exact h.noTagBr T sn (issue_append_cb_elim hm)

/-- Field-wise congruence for the per-bitmap bookkeeping: only the tracked
components matter (`error`, `live`, `seqno`, `locked` and the buffers are
free). -/
theorem bmInv_fields {s : VhdState} {bm bm' : VhdBitmap} (h : BmInv s bm)
    (hblk : bm'.blk = bm.blk) (htag : bm'.tx.tag = bm.tx.tag)
    (hclosed : bm'.tx.closed = bm.tx.closed) (hsta : bm'.tx.started = bm.tx.started)
    (hfin : bm'.tx.finished = bm.tx.finished) (hreq : bm'.tx.requests = bm.tx.requests)
    (hupd : bm'.tx.updateBat = bm.tx.updateBat)
    (hwp : bm'.writePending = bm.writePending) (hq : bm'.queue = bm.queue)
    (hw : bm'.waiting = bm.waiting) : BmInv s bm' := by
  refine ⟨?_, ?_, ?_, ?_, ?_, ?_, ?_, ?_, ?_, ?_, ?_, ?_, ?_, ?_, ?_, ?_, ?_, ?_, ?_⟩
  · rw [hclosed, hsta, hfin]
    exact h.closedDone
  · rw [hsta, hfin]
    exact h.finLe
  · rw [hreq, hsta, hfin]
    exact h.cnt
  · rw [hreq]
    exact h.reqNodup
  · rw [hq]
    exact h.queueNodup
  · rw [hreq]
    exact h.reqSnLt
  · rw [hq]
    exact h.queueSnLt
  · rw [hw]
    exact h.waitSnLt
  · rw [hreq]
    exact h.memFin
  · rw [hreq]
    exact h.memIssued
  · rw [hreq]
    exact h.memOp
  · rw [hq]
    exact h.queueFin
  · rw [hq]
    exact h.queueIssued
  · rw [hq]
    exact h.queueOp
  · rw [htag, hreq]
    exact h.taggedMember
  · intro sn hm hn
    rw [htag] at hm
    obtain ⟨w1, w2, w3⟩ := h.bmwPend sn hm hn
    exact ⟨by rw [hwp]; exact w1, by rw [hclosed]; exact w2, by rw [hblk, htag]; exact w3⟩
  · rw [htag]
    exact h.bmwUniq
  · intro sn hm hn
    rw [htag] at hm
    obtain ⟨w1, w2, w3, w4⟩ := h.batPend sn hm hn
    exact ⟨by rw [hupd]; exact w1, by rw [hblk]; exact w2, w3, by rw [htag]; exact w4⟩
  · rw [hwp, hclosed]
    exact h.wpClosed

/-- Rewriting the cache through a map that keeps every tracked component
(block, write-pending bit, queue, waiting list and the transaction's tag,
closed bit, counters, request list and `TX_UPDATE_BAT`) preserves the
invariant; covers the error-recording, unlocking and LRU rewrites. -/
theorem inv_cache_map4 {s s' : VhdState} (h : Inv s) (f : VhdBitmap → VhdBitmap)
    (hf : ∀ b, (f b).blk = b.blk ∧ (f b).writePending = b.writePending ∧
      (f b).queue = b.queue ∧ (f b).waiting = b.waiting ∧ (f b).tx.tag = b.tx.tag ∧
      (f b).tx.closed = b.tx.closed ∧ (f b).tx.started = b.tx.started ∧
      (f b).tx.finished = b.tx.finished ∧ (f b).tx.requests = b.tx.requests ∧
      (f b).tx.updateBat = b.tx.updateBat)
    (hc : s'.cache = s.cache.map f) (hns : s.nextSerial ≤ s'.nextSerial)
    (hnt : s'.nextTag = s.nextTag) (hl : s'.log = s.log) (hi : s'.inflight = s.inflight)
    (hp : s'.plain = s.plain) (hpb : s'.pbwBlk = s.pbwBlk)
    (hbl : s'.batLocked = s.batLocked) (hbw : s'.batWriteStarted = s.batWriteStarted)
    (hbr : s'.batReqTx = s.batReqTx) : Inv s' := by
  have hbms : ∀ bm ∈ s'.cache, BmInv s' bm := by
    intro bm hbm
    rw [hc] at hbm
    obtain ⟨b0, hb0, he⟩ := List.mem_map.mp hbm
    rw [← he]
    refine bmInv_fields (bmInv_state_congr (h.bms b0 hb0) hl hi hns hpb hbw)
      (hf b0).1 (hf b0).2.2.2.2.1 (hf b0).2.2.2.2.2.1 (hf b0).2.2.2.2.2.2.1
      (hf b0).2.2.2.2.2.2.2.1 (hf b0).2.2.2.2.2.2.2.2.1 (hf b0).2.2.2.2.2.2.2.2.2
      (hf b0).2.1 (hf b0).2.2.1 (hf b0).2.2.2.1
  refine ⟨le_trans h.snPos hns, ?_, ?_, ?_, ?_, ?_, ?_, ?_, ?_, ?_, ?_, ?_, ?_, ?_, ?_,
    ?_, ?_, ?_, ?_, hbms, ?_, ?_, ?_⟩
  · rw [hc, List.pairwise_map]
    refine h.blkNodup.imp ?_
    intro a b hne
    rw [(hf a).1, (hf b).1]
    exact hne
  · rw [hc, List.pairwise_map]
    refine h.tagNodup.imp ?_
    intro a b hne
    rw [(hf a).2.2.2.2.1, (hf b).2.2.2.2.1]
    exact hne
  · intro bm hbm
    rw [hc] at hbm
    obtain ⟨b0, hb0, he⟩ := List.mem_map.mp hbm
    rw [hnt, ← he, (hf b0).2.2.2.2.1]
    exact h.tagLt b0 hb0
  · intro bm hbm hcb
    rw [hc] at hbm
    obtain ⟨b0, hb0, he⟩ := List.mem_map.mp hbm
    rw [← he, (hf b0).2.2.2.2.1] at hcb
    rw [hl] at hcb
    exact h.tagNoCb b0 hb0 hcb
  · intro T hT
    rw [hnt] at hT
    refine ⟨fun hcb => (h.futureTag T hT).1 (by rw [hl] at hcb; exact hcb), ?_⟩
    intro kind sn hm
    rw [hl] at hm
    exact (h.futureTag T hT).2 kind sn hm
  · intro kind sn tg hm
    rw [hl] at hm
    exact lt_of_lt_of_le (h.issueSnLt kind sn tg hm) hns
  · intro kind sn e hm
    rw [hl] at hm
    exact lt_of_lt_of_le (h.completeSnLt kind sn e hm) hns
  · intro a b c d tg snr hm
    rw [hl] at hm
    exact lt_of_lt_of_le (h.cbSnLt a b c d tg snr hm) hns
  · rw [hi]
    exact h.inflSnNodup
  · intro fl hfl
    rw [hi] at hfl
    rw [hl]
    exact h.inflOk fl hfl
  · intro r hr
    rw [hp] at hr
    exact lt_of_lt_of_le (h.plainSnLt r hr) hns
  · intro T kind sn hm hn
    rw [hl] at hm hn
    obtain ⟨b0, hb0, htg⟩ := h.pendLive T kind sn hm hn
    refine ⟨f b0, ?_, ?_⟩
    · rw [hc]
      exact List.mem_map_of_mem _ hb0
    · rw [(hf b0).2.2.2.2.1]
      exact htg
  · intro blk0 sn tg hm
    rw [hi] at hm
    obtain ⟨z1, z2, z3, z4, bmz, hbmz, e1, e2, e3, rz, hrz, f1, f2, f3⟩ :=
      h.zbMember blk0 sn tg hm
    refine ⟨by rw [hbl, z1], by rw [hpb, z2], by rw [hbw, z3], ?_,
      f bmz, ?_, ?_, ?_, ?_, rz, ?_, f1, f2, f3⟩
    · intro sn' hm'
      rw [hl] at hm' ⊢
      exact z4 sn' hm'
    · rw [hc]
      exact List.mem_map_of_mem _ hbmz
    · rw [(hf bmz).1]
      exact e1
    · rw [(hf bmz).2.2.2.2.1]
      exact e2
    · rw [(hf bmz).2.2.2.2.2.2.2.2.2]
      exact e3
    · rw [(hf bmz).2.2.2.2.2.2.2.2.1]
      exact hrz
  · intro blk0 sn tg blk' sn' tg' hm hm'
    rw [hi] at hm hm'
    exact h.zbUniq _ _ _ _ _ _ hm hm'
  · intro sn tg hm
    rw [hi] at hm
    obtain ⟨z1, z2, bmw, hbmw, e1, e2, e3⟩ := h.bwBm sn tg hm
    refine ⟨by rw [hbl, z1], by rw [hbw, z2], f bmw, ?_, ?_, ?_, ?_⟩
    · rw [hc]
      exact List.mem_map_of_mem _ hbmw
    · rw [(hf bmw).1, hpb]
      exact e1
    · rw [(hf bmw).2.2.2.2.1]
      exact e2
    · rw [(hf bmw).2.2.2.2.2.2.2.2.2]
      exact e3
  · intro sn tg sn' tg' hm hm'
    rw [hi] at hm hm'
    exact h.bwUniq _ _ _ _ hm hm'
  · intro blk0 sn tg hm
    rw [hi] at hm
    obtain ⟨bmw, hbmw, e1, e2, e3, e4⟩ := h.bmwBm blk0 sn tg hm
    refine ⟨f bmw, ?_, ?_, ?_, ?_, ?_⟩
    · rw [hc]
      exact List.mem_map_of_mem _ hbmw
    · rw [(hf bmw).1]
      exact e1
    · rw [(hf bmw).2.2.2.2.1]
      exact e2
    · rw [(hf bmw).2.1]
      exact e3
    · rw [(hf bmw).2.2.2.2.2.1]
      exact e4
  · intro hbr'
    rw [hbr] at hbr'
    obtain ⟨p2, bmp, hbmp, e1, e2, e3, e4, e5⟩ := h.parkInv hbr'
    refine ⟨by rw [hbw, p2], f bmp, ?_, ?_, ?_, ?_, ?_, ?_⟩
    · rw [hc]
      exact List.mem_map_of_mem _ hbmp
    · rw [(hf bmp).1, hpb]
      exact e1
    · rw [(hf bmp).2.2.2.2.2.2.1, (hf bmp).2.2.2.2.2.2.2.1]
      exact e2
    · rw [(hf bmp).2.2.2.2.2.1]
      exact e3
    · rw [(hf bmp).2.2.2.2.2.2.2.2.2]
      exact e4
    · rw [(hf bmp).2.1]
      exact e5
  · rw [hl]
    exact h.c1
  · intro T sn hm
    rw [hl] at hm
    exact h.noTagRd T sn hm
  · intro T sn hm
    rw [hl] at hm
    exact h.noTagBr T sn hm

/-- Parking a completed `TX_UPDATE_BAT` transaction on `bat.req.tx` (the
deferral branch of `finish_bitmap_transaction`) preserves the invariant. -/
theorem inv_park {s : VhdState} (h : Inv s) {bm : VhdBitmap}
    (hbmm : bm ∈ s.cache) (hblk : bm.blk = s.pbwBlk)
    (hsf : bm.tx.started = bm.tx.finished) (hcl : bm.tx.closed = true)
    (hupd : bm.tx.updateBat = true) (hwp : bm.writePending = false)
    (hbws : s.batWriteStarted = true) :
    Inv { s with batReqTx := true } := by
  refine ⟨h.snPos, h.blkNodup, h.tagNodup, h.tagLt, h.tagNoCb, h.futureTag, h.issueSnLt,
    h.completeSnLt, h.cbSnLt, h.inflSnNodup, h.inflOk, h.plainSnLt, h.pendLive,
    h.zbMember, h.zbUniq, h.bwBm, h.bwUniq, h.bmwBm, ?_, ?_, h.c1, h.noTagRd, h.noTagBr⟩
  · intro _
    exact ⟨hbws, bm, hbmm, hblk, hsf, hcl, hupd, hwp⟩
  · intro b hb
    exact bmInv_state_congr (h.bms b hb) rfl rfl (le_refl _) rfl rfl

/-- Emptying a bitmap's queue keeps its bookkeeping. -/
theorem bmInv_queue_nil {s : VhdState} {bm : VhdBitmap} (h : BmInv s bm) :
    BmInv s { bm with queue := [] } := by
  refine ⟨h.closedDone, h.finLe, h.cnt, h.reqNodup, List.nodup_nil, h.reqSnLt, ?_,
    h.waitSnLt, h.memFin, h.memIssued, h.memOp, ?_, ?_, ?_, h.taggedMember, h.bmwPend,
    h.bmwUniq, h.batPend, h.wpClosed⟩
  · intro r hr
    cases hr
  · intro r hr
    cases hr
  · intro r hr
    cases hr
  · intro r hr
    cases hr

/-- Draining a bitmap's queue (the promotion loop's first step) preserves
the invariant. -/
theorem inv_queue_clear {s : VhdState} (h : Inv s) (blk : Nat) :
    Inv (updateBm s blk (fun b => { b with queue := [] })) := by
  refine inv_cache_map2 h _ ?_ rfl ?_ (le_refl _) rfl rfl rfl rfl rfl rfl rfl rfl
  · intro b
    refine ⟨?_, ?_, ?_⟩ <;> (dsimp only; split <;> rfl)
  · intro b hb
    obtain ⟨b0, hb0, he⟩ := List.mem_map.mp hb
    rw [← he]
    by_cases hc : (b0.blk == blk) = true
    · rw [if_pos hc]
      exact bmInv_state_congr (bmInv_queue_nil (h.bms b0 hb0)) rfl rfl (le_refl _) rfl rfl
    · rw [if_neg hc]
      exact bmInv_state_congr (h.bms b0 hb0) rfl rfl (le_refl _) rfl rfl

theorem removeReq_sublist (l : List VhdRequest) (sn : Nat) :
    (removeReq l sn).Sublist l := by
  induction l with
  | nil => exact List.Sublist.refl []
  | cons a rest ih =>
    show (if a.serial = sn then rest else a :: removeReq rest sn).Sublist (a :: rest)
    split
    · exact List.sublist_cons_self a rest
    · exact List.Sublist.cons₂ a ih

theorem removeReq_subset {l : List VhdRequest} {sn : Nat} {r : VhdRequest}
    (h : r ∈ removeReq l sn) : r ∈ l :=
  (removeReq_sublist l sn).mem h

theorem mem_removeReq_of_ne {l : List VhdRequest} {sn : Nat} {r : VhdRequest}
    (hr : r ∈ l) (hne : r.serial ≠ sn) : r ∈ removeReq l sn := by
  induction l with
  | nil => cases hr
  | cons a rest ih =>
    show r ∈ (if a.serial = sn then rest else a :: removeReq rest sn)
    rcases List.mem_cons.mp hr with h1 | h1
    · split
      · rename_i ha
        rw [h1] at hne
        exact absurd ha hne
      · rw [h1]
        exact List.mem_cons_self a _
    · split
      · exact h1
      · exact List.mem_cons_of_mem a (ih h1)

theorem removeReq_countP {l : List VhdRequest} {sn : Nat}
    (hnd : (l.map (fun r => r.serial)).Nodup) {r0 : VhdRequest}
    (hr0 : r0 ∈ l) (hsn : r0.serial = sn) (p : VhdRequest → Bool) :
    l.countP p = (removeReq l sn).countP p + (if p r0 then 1 else 0) := by
  induction l with
  | nil => cases hr0
  | cons a rest ih =>
    simp only [List.map_cons, List.nodup_cons] at hnd
    by_cases ha : a.serial = sn
    · have hra : r0 = a := by
        rcases List.mem_cons.mp hr0 with h1 | h1
        · exact h1
        · exfalso
          refine hnd.1 ?_
          rw [ha, ← hsn]
          exact List.mem_map_of_mem _ h1
      subst hra
      rw [show removeReq (r0 :: rest) sn = rest from by
        show (if r0.serial = sn then rest else _) = rest
        rw [if_pos ha], List.countP_cons]
    · have hr1 : r0 ∈ rest := by
        rcases List.mem_cons.mp hr0 with h1 | h1
        · exfalso
          rw [h1] at hsn
          exact ha hsn
        · exact h1
      rw [show removeReq (a :: rest) sn = a :: removeReq rest sn from by
        show (if a.serial = sn then rest else _) = _
        rw [if_neg ha], List.countP_cons, List.countP_cons, ih hnd.2 hr1]
      omega

theorem countP_split {α : Type} (l : List α) (p q : α → Bool) :
    l.countP p = l.countP (fun a => p a && q a) + l.countP (fun a => p a && !q a) := by
  induction l with
  | nil => rfl
  | cons a rest ih =>
    simp only [List.countP_cons, ih]
    cases hp : p a <;> cases hq : q a <;> simp [hp, hq] <;> omega

/-- One step of the promotion loop. -/
def pqStep (ht : HdType) (spb : Nat)
    (acc : VhdTransaction × (Nat → Bool) × List VhdRequest) (r : VhdRequest) :
    VhdTransaction × (Nat → Bool) × List VhdRequest :=
  let r := { r with fQueued := false }
  if r.error ≠ 0 then (acc.1, acc.2.1, acc.2.2 ++ [r])
  else
    let tx1 := addToTransaction acc.1 r
    if r.fFinished then
      let sh := if ht = HdType.diff then setBits acc.2.1 (r.lsec % spb) r.nrSecs
        else acc.2.1
      ({ tx1 with finished := tx1.finished + 1 }, sh, acc.2.2)
    else (tx1, acc.2.1, acc.2.2)

theorem promoteQueue_aux (ht : HdType) (spb : Nat) (rs : List VhdRequest) :
    ∀ (tx : VhdTransaction) (sh : Nat → Bool) (ds : List VhdRequest),
    (rs.foldl (pqStep ht spb) (tx, sh, ds)).1.tag = tx.tag ∧
    (rs.foldl (pqStep ht spb) (tx, sh, ds)).1.error = tx.error ∧
    (rs.foldl (pqStep ht spb) (tx, sh, ds)).1.closed = tx.closed ∧
    (rs.foldl (pqStep ht spb) (tx, sh, ds)).1.updateBat = tx.updateBat ∧
    (rs.foldl (pqStep ht spb) (tx, sh, ds)).1.started =
      tx.started + rs.countP (fun r => r.error == 0) ∧
    (rs.foldl (pqStep ht spb) (tx, sh, ds)).1.finished =
      tx.finished + rs.countP (fun r => (r.error == 0) && r.fFinished) ∧
    (rs.foldl (pqStep ht spb) (tx, sh, ds)).1.requests = tx.requests ++
      (rs.filter (fun r => r.error == 0)).map (fun r => { r with fQueued := false }) ∧
    (rs.foldl (pqStep ht spb) (tx, sh, ds)).2.2 = ds ++
      (rs.filter (fun r => !(r.error == 0))).map (fun r => { r with fQueued := false }) := by
  induction rs with
  | nil =>
    intro tx sh ds
    simp
  | cons r rest ih =>
    intro tx sh ds
    rw [List.foldl_cons]
    by_cases he : r.error = 0
    · have hb : (r.error == 0) = true := beq_iff_eq.mpr he
      have hnn : ¬ (({ r with fQueued := false } : VhdRequest).error ≠ 0) :=
        fun hh => hh he
      cases hf : r.fFinished
      · have hstep : pqStep ht spb (tx, sh, ds) r =
            (addToTransaction tx { r with fQueued := false }, sh, ds) := by
          unfold pqStep
          dsimp only
          rw [if_neg hnn, if_neg (show ¬ (({ r with fQueued := false } :
            VhdRequest).fFinished = true) from by
              show ¬ (r.fFinished = true)
              rw [hf]
              exact Bool.false_ne_true)]
        rw [hstep]
        obtain ⟨i1, i2, i3, i4, i5, i6, i7, i8⟩ :=
          ih (addToTransaction tx { r with fQueued := false }) sh ds
        refine ⟨i1, i2, i3, i4, ?_, ?_, ?_, ?_⟩
        · rw [i5]
          show tx.started + 1 + _ = _
          rw [List.countP_cons, hb]
          simp only [if_pos]
          omega
        · rw [i6]
          show tx.finished + _ = _
          rw [List.countP_cons]
          have hx : ((r.error == 0) && r.fFinished) = false := by
            simp [hb, hf]
          rw [hx]
          simp
        · rw [i7]
          show (tx.requests ++ [{ r with fQueued := false }]) ++ _ = _
          rw [List.filter_cons, if_pos hb, List.map_cons, List.append_assoc]
          rfl
        · rw [i8]
          rw [List.filter_cons]
          have hx : (!(r.error == 0)) = false := by simp [hb]
          rw [if_neg (by rw [hx]; exact Bool.false_ne_true)]
      · have hstep : pqStep ht spb (tx, sh, ds) r =
            ({ addToTransaction tx { r with fQueued := false } with
               finished := tx.finished + 1 },
             (if ht = HdType.diff then setBits sh (r.lsec % spb) r.nrSecs else sh), ds) := by
          unfold pqStep
          dsimp only
          rw [if_neg hnn, if_pos (show (({ r with fQueued := false } :
            VhdRequest).fFinished = true) from hf)]
          rfl
        rw [hstep]
        obtain ⟨i1, i2, i3, i4, i5, i6, i7, i8⟩ :=
          ih { addToTransaction tx { r with fQueued := false } with
               finished := tx.finished + 1 }
            (if ht = HdType.diff then setBits sh (r.lsec % spb) r.nrSecs else sh) ds
        refine ⟨i1, i2, i3, i4, ?_, ?_, ?_, ?_⟩
        · rw [i5]
          show tx.started + 1 + _ = _
          rw [List.countP_cons, hb]
          simp only [if_pos]
          omega
        · rw [i6]
          show tx.finished + 1 + _ = _
          rw [List.countP_cons]
          have hx : ((r.error == 0) && r.fFinished) = true := by
            simp [hb, hf]
          rw [hx]
          simp only [if_pos]
          omega
        · rw [i7]
          show (tx.requests ++ [{ r with fQueued := false }]) ++ _ = _
          rw [List.filter_cons, if_pos hb, List.map_cons, List.append_assoc]
          rfl
        · rw [i8]
          rw [List.filter_cons]
          have hx : (!(r.error == 0)) = false := by simp [hb]
          rw [if_neg (by rw [hx]; exact Bool.false_ne_true)]
    · have hb : (r.error == 0) = false := beq_eq_false_iff_ne.mpr he
      have hstep : pqStep ht spb (tx, sh, ds) r =
          (tx, sh, ds ++ [{ r with fQueued := false }]) := by
        unfold pqStep
        dsimp only
        rw [if_pos (show (({ r with fQueued := false } : VhdRequest).error ≠ 0) from he)]
      rw [hstep]
      obtain ⟨i1, i2, i3, i4, i5, i6, i7, i8⟩ :=
        ih tx sh (ds ++ [{ r with fQueued := false }])
      refine ⟨i1, i2, i3, i4, ?_, ?_, ?_, ?_⟩
      · rw [i5, List.countP_cons, hb]
        simp
      · rw [i6, List.countP_cons]
        have hx : ((r.error == 0) && r.fFinished) = false := by simp [hb]
        rw [hx]
        simp
      · rw [i7, List.filter_cons]
        rw [if_neg (by rw [hb]; exact Bool.false_ne_true)]
      · rw [i8, List.filter_cons]
        have hx : (!(r.error == 0)) = true := by simp [hb]
        rw [if_pos hx, List.map_cons, List.append_assoc]
        rfl

/-- Closed form of the promotion loop of `start_new_bitmap_transaction`. -/
theorem promoteQueue_spec (ht : HdType) (spb : Nat) (rs : List VhdRequest)
    (tx : VhdTransaction) (sh : Nat → Bool) :
    (promoteQueue ht spb rs tx sh).1.tag = tx.tag ∧
    (promoteQueue ht spb rs tx sh).1.error = tx.error ∧
    (promoteQueue ht spb rs tx sh).1.closed = tx.closed ∧
    (promoteQueue ht spb rs tx sh).1.updateBat = tx.updateBat ∧
    (promoteQueue ht spb rs tx sh).1.started =
      tx.started + rs.countP (fun r => r.error == 0) ∧
    (promoteQueue ht spb rs tx sh).1.finished =
      tx.finished + rs.countP (fun r => (r.error == 0) && r.fFinished) ∧
    (promoteQueue ht spb rs tx sh).1.requests = tx.requests ++
      (rs.filter (fun r => r.error == 0)).map (fun r => { r with fQueued := false }) ∧
    (promoteQueue ht spb rs tx sh).2.2 =
      (rs.filter (fun r => !(r.error == 0))).map (fun r => { r with fQueued := false }) := by
  have := promoteQueue_aux ht spb rs tx sh []
  obtain ⟨i1, i2, i3, i4, i5, i6, i7, i8⟩ := this
  refine ⟨i1, i2, i3, i4, i5, i6, i7, ?_⟩
  show (rs.foldl (pqStep ht spb) (tx, sh, [])).2.2 = _
  rw [i8]
  simp

/-- The cache rewrite of `start_new_bitmap_transaction`'s promotion:
install the promoted transaction and shadow. -/
def pmApply (blk : Nat) (tx' : VhdTransaction) (sh : Nat → Bool) (b : VhdBitmap) :
    VhdBitmap :=
  if b.blk == blk then { b with tx := tx', shadow := sh } else b

theorem pmApply_blk (blk : Nat) (tx' : VhdTransaction) (sh : Nat → Bool) (b : VhdBitmap) :
    (pmApply blk tx' sh b).blk = b.blk := by
  unfold pmApply; split <;> rfl

theorem pmApply_wp (blk : Nat) (tx' : VhdTransaction) (sh : Nat → Bool) (b : VhdBitmap) :
    (pmApply blk tx' sh b).writePending = b.writePending := by
  unfold pmApply; split <;> rfl

theorem pmApply_pos (blk : Nat) (tx' : VhdTransaction) (sh : Nat → Bool) {b : VhdBitmap}
    (hc : (b.blk == blk) = true) :
    pmApply blk tx' sh b = { b with tx := tx', shadow := sh } := by
  unfold pmApply
  rw [if_pos hc]

theorem pmApply_neg (blk : Nat) (tx' : VhdTransaction) (sh : Nat → Bool) {b : VhdBitmap}
    (hc : ¬ (b.blk == blk) = true) : pmApply blk tx' sh b = b := by
  unfold pmApply
  rw [if_neg hc]

/-- Promoting a drained queue into the fresh transaction (the successful
branch of `start_new_bitmap_transaction`) preserves the invariant. -/
theorem inv_promote {s : VhdState} (h : Inv s) {bm : VhdBitmap} {blk : Nat}
    {tx' : VhdTransaction} {sh : Nat → Bool} {rs : List VhdRequest} {s' : VhdState}
    (hbmm : bm ∈ s.cache) (hbmblk : bm.blk = blk)
    (hreq0 : bm.tx.requests = []) (hcl0 : bm.tx.closed = false)
    (hupd0 : bm.tx.updateBat = false) (hwp : bm.writePending = false)
    (hfresh : ∀ kind sn, LogEvent.issue kind sn (some bm.tx.tag) ∉ s.log)
    (hrsSn : ∀ r ∈ rs, r.serial < s.nextSerial)
    (hrsNodup : (rs.map (fun r => r.serial)).Nodup)
    (hrsFin : ∀ r ∈ rs, r.fFinished = true → completedL s.log r.serial)
    (hrsIss : ∀ r ∈ rs, LogEvent.issue IoKind.dataWrite r.serial none ∈ s.log)
    (hrsOp : ∀ r ∈ rs, r.op = VhdOp.dataWrite)
    (htag : tx'.tag = bm.tx.tag) (hclosed : tx'.closed = false)
    (hupd : tx'.updateBat = false)
    (hsta : tx'.started = rs.countP (fun r => r.error == 0))
    (hfin : tx'.finished = rs.countP (fun r => (r.error == 0) && r.fFinished))
    (hreqs : tx'.requests = (rs.filter (fun r => r.error == 0)).map
      (fun r => { r with fQueued := false }))
    (hcache : s'.cache = s.cache.map (pmApply blk tx' sh))
    (hlog : s'.log = s.log) (hinfl : s'.inflight = s.inflight)
    (hns : s'.nextSerial = s.nextSerial) (hnt : s'.nextTag = s.nextTag)
    (hplain : s'.plain = s.plain) (hpb : s'.pbwBlk = s.pbwBlk)
    (hbl : s'.batLocked = s.batLocked) (hbws : s'.batWriteStarted = s.batWriteStarted)
    (hbr : s'.batReqTx = s.batReqTx) : Inv s' := by
  have hbc : (bm.blk == blk) = true := by simp [hbmblk]
  have htarget : ∀ b0 ∈ s.cache, (b0.blk == blk) = true → b0 = bm := by
    intro b0 hb0 hc
    by_contra hne
    have := pairwise_both h.blkNodup (fun a b hx he => hx he.symm) hb0 hbmm hne
    rw [hbmblk] at this
    exact this (beq_iff_eq.mp hc)
  have hB := h.bms bm hbmm
  have hptag : ∀ b0 ∈ s.cache, (pmApply blk tx' sh b0).tx.tag = b0.tx.tag := by
    intro b0 hb0
    by_cases hc : (b0.blk == blk) = true
    · rw [pmApply_pos blk tx' sh hc, htarget b0 hb0 hc]
      exact htag
    · rw [pmApply_neg blk tx' sh hc]
  refine ⟨?_, ?_, ?_, ?_, ?_, ?_, ?_, ?_, ?_, ?_, ?_, ?_, ?_, ?_, ?_, ?_, ?_, ?_,
    ?_, ?_, ?_, ?_, ?_⟩
  · rw [hns]
    exact h.snPos
  · rw [hcache, List.pairwise_map]
    refine h.blkNodup.imp ?_
    intro a b hne
    rw [pmApply_blk, pmApply_blk]
    exact hne
  · rw [hcache, List.pairwise_map]
    refine List.Pairwise.imp_of_mem ?_ h.tagNodup
    intro a b ha hb hne
    rw [hptag a ha, hptag b hb]
    exact hne
  · intro b' hb'
    rw [hcache] at hb'
    obtain ⟨b0, hb0, he⟩ := List.mem_map.mp hb'
    rw [hnt, ← he, hptag b0 hb0]
    exact h.tagLt b0 hb0
  · intro b' hb' hcb
    rw [hcache] at hb'
    obtain ⟨b0, hb0, he⟩ := List.mem_map.mp hb'
    rw [← he, hptag b0 hb0, hlog] at hcb
    exact h.tagNoCb b0 hb0 hcb
  · intro T hT
    rw [hnt] at hT
    refine ⟨fun hcb => (h.futureTag T hT).1 (by rw [hlog] at hcb; exact hcb), ?_⟩
    intro kind sn hm
    rw [hlog] at hm
    exact (h.futureTag T hT).2 kind sn hm
  · intro kind sn tg hm
    rw [hlog] at hm
    rw [hns]
    exact h.issueSnLt kind sn tg hm
  · intro kind sn e hm
    rw [hlog] at hm
    rw [hns]
    exact h.completeSnLt kind sn e hm
  · intro a b c d tg snr hm
    rw [hlog] at hm
    rw [hns]
    exact h.cbSnLt a b c d tg snr hm
  · rw [hinfl]
    exact h.inflSnNodup
  · intro fl hfl
    rw [hinfl] at hfl
    rw [hlog]
    exact h.inflOk fl hfl
  · intro r hr
    rw [hplain] at hr
    rw [hns]
    exact h.plainSnLt r hr
  · intro T kind sn hm hn
    rw [hlog] at hm hn
    obtain ⟨bm0, hbm0, htg⟩ := h.pendLive T kind sn hm hn
    refine ⟨pmApply blk tx' sh bm0, ?_, ?_⟩
    · rw [hcache]
      exact List.mem_map_of_mem _ hbm0
    · rw [hptag bm0 hbm0]
      exact htg
  · intro blk0 sn tg hm
    rw [hinfl] at hm
    obtain ⟨z1, z2, z3, z4, bmz, hbmz, e1, e2, e3, rz, hrz, f1, f2, f3⟩ :=
      h.zbMember blk0 sn tg hm
    have hbzne : bmz ≠ bm := by
      intro hbe
      rw [hbe, hreq0] at hrz
      cases hrz
    have hcz : ¬ (bmz.blk == blk) = true := fun hc => hbzne (htarget bmz hbmz hc)
    have himg := pmApply_neg blk tx' sh hcz
    refine ⟨by rw [hbl, z1], by rw [hpb, z2], by rw [hbws, z3], ?_,
      pmApply blk tx' sh bmz, ?_, ?_, ?_, ?_, rz, ?_, f1, f2, f3⟩
    · intro sn' hm'
      rw [hlog] at hm' ⊢
      exact z4 sn' hm'
    · rw [hcache]
      exact List.mem_map_of_mem _ hbmz
    · rw [himg]
      exact e1
    · rw [himg]
      exact e2
    · rw [himg]
      exact e3
    · rw [himg]
      exact hrz
  · intro blk0 sn tg blk' sn' tg' hm hm'
    rw [hinfl] at hm hm'
    exact h.zbUniq _ _ _ _ _ _ hm hm'
  · intro sn tg hm
    rw [hinfl] at hm
    obtain ⟨z1, z2, bmw, hbmw, e1, e2, e3⟩ := h.bwBm sn tg hm
    have hbwne : bmw ≠ bm := by
      intro hbe
      rw [hbe, hupd0] at e3
      cases e3
    have hcw : ¬ (bmw.blk == blk) = true := fun hc => hbwne (htarget bmw hbmw hc)
    have himg := pmApply_neg blk tx' sh hcw
    refine ⟨by rw [hbl, z1], by rw [hbws, z2], pmApply blk tx' sh bmw, ?_, ?_, ?_, ?_⟩
    · rw [hcache]
      exact List.mem_map_of_mem _ hbmw
    · rw [himg, hpb]
      exact e1
    · rw [himg]
      exact e2
    · rw [himg]
      exact e3
  · intro sn tg sn' tg' hm hm'
    rw [hinfl] at hm hm'
    exact h.bwUniq _ _ _ _ hm hm'
  · intro blk0 sn tg hm
    rw [hinfl] at hm
    obtain ⟨bmw, hbmw, e1, e2, e3, e4⟩ := h.bmwBm blk0 sn tg hm
    have hbwne : bmw ≠ bm := by
      intro hbe
      rw [hbe, hwp] at e3
      cases e3
    have hcw : ¬ (bmw.blk == blk) = true := fun hc => hbwne (htarget bmw hbmw hc)
    have himg := pmApply_neg blk tx' sh hcw
    refine ⟨pmApply blk tx' sh bmw, ?_, ?_, ?_, ?_, ?_⟩
    · rw [hcache]
      exact List.mem_map_of_mem _ hbmw
    · rw [himg]
      exact e1
    · rw [himg]
      exact e2
    · rw [himg]
      exact e3
    · rw [himg]
      exact e4
  · intro hbr'
    rw [hbr] at hbr'
    obtain ⟨p2, bmp, hbmp, e1, e2, e3, e4, e5⟩ := h.parkInv hbr'
    have hbpne : bmp ≠ bm := by
      intro hbe
      rw [hbe, hupd0] at e4
      cases e4
    have hcp : ¬ (bmp.blk == blk) = true := fun hc => hbpne (htarget bmp hbmp hc)
    have himg := pmApply_neg blk tx' sh hcp
    refine ⟨by rw [hbws, p2], pmApply blk tx' sh bmp, ?_, ?_, ?_, ?_, ?_, ?_⟩
    · rw [hcache]
      exact List.mem_map_of_mem _ hbmp
    · rw [himg, hpb]
      exact e1
    · rw [himg]
      exact e2
    · rw [himg]
      exact e3
    · rw [himg]
      exact e4
    · rw [himg]
      exact e5
  · intro b' hb'
    rw [hcache] at hb'
    obtain ⟨b0, hb0, he⟩ := List.mem_map.mp hb'
    rw [← he]
    by_cases hc : (b0.blk == blk) = true
    · have hbe := htarget b0 hb0 hc
      subst hbe
      rw [pmApply_pos blk tx' sh hc]
      have hmemD : ∀ r' ∈ tx'.requests, ∃ r ∈ rs, (r.error == 0) = true ∧
          r' = { r with fQueued := false } := by
        intro r' hr'
        rw [hreqs] at hr'
        obtain ⟨r, hrf, he'⟩ := List.mem_map.mp hr'
        exact ⟨r, List.mem_of_mem_filter hrf, (List.mem_filter.mp hrf).2, he'.symm⟩
      refine ⟨?_, ?_, ?_, ?_, ?_, ?_, ?_, ?_, ?_, ?_, ?_, ?_, ?_, ?_, ?_, ?_, ?_, ?_, ?_⟩
      · intro hcc
        have hx : tx'.closed = true := hcc
        rw [hclosed] at hx
        cases hx
      · show tx'.finished ≤ tx'.started
        rw [hsta, hfin]
        refine List.countP_mono_left ?_
        intro r hr hx
        cases he0 : (r.error == 0)
        · rw [he0] at hx
          cases hx
        · rfl
      · show (tx'.requests.countP fun r => !r.fFinished) = tx'.started - tx'.finished
        rw [hreqs, hsta, hfin, List.countP_map,
          show (((fun (r : VhdRequest) => !r.fFinished) ∘
            (fun r => { r with fQueued := false })) = fun (r : VhdRequest) => !r.fFinished)
            from rfl,
          List.countP_filter]
        have hsplit := countP_split rs (fun r => r.error == 0) (fun r => r.fFinished)
        have hcomm : (rs.countP fun a => !a.fFinished && (a.error == 0)) =
            rs.countP fun a => (a.error == 0) && !a.fFinished := by
          refine List.countP_congr ?_
          intro a ha
          rw [Bool.and_comm]
        rw [hcomm]
        omega
      · show ((tx'.requests.map fun r => r.serial)).Nodup
        rw [hreqs, List.map_map,
          show (((fun (r : VhdRequest) => r.serial) ∘
            (fun r => { r with fQueued := false })) = fun (r : VhdRequest) => r.serial)
            from rfl]
        exact hrsNodup.sublist (List.Sublist.map _ (List.filter_sublist rs))
      · exact hB.queueNodup
      · intro r' hr'
        obtain ⟨r, hr, -, he'⟩ := hmemD r' hr'
        rw [hns, he']
        exact hrsSn r hr
      · intro r' hr'
        rw [hns]
        exact hB.queueSnLt r' hr'
      · intro r' hr'
        rw [hns]
        exact hB.waitSnLt r' hr'
      · intro r' hr' hf
        obtain ⟨r, hr, -, he'⟩ := hmemD r' hr'
        rw [hlog]
        rw [he'] at hf
        have hf2 : r.fFinished = true := hf
        rw [he']
        exact hrsFin r hr hf2
      · intro r' hr'
        obtain ⟨r, hr, -, he'⟩ := hmemD r' hr'
        refine ⟨none, ?_⟩
        rw [hlog, he']
        have hop : ({ r with fQueued := false } : VhdRequest).op = VhdOp.dataWrite :=
          hrsOp r hr
        rw [hop]
        exact hrsIss r hr
      · intro r' hr'
        obtain ⟨r, hr, -, he'⟩ := hmemD r' hr'
        rw [he']
        exact Or.inl (hrsOp r hr)
      · intro r' hr' hf
        rw [hlog]
        exact hB.queueFin r' hr' hf
      · intro r' hr'
        rw [hlog]
        exact hB.queueIssued r' hr'
      · exact hB.queueOp
      · intro kind sn hk hm hn
        have hm2 : LogEvent.issue kind sn (some b0.tx.tag) ∈ s'.log := by
          have hx : LogEvent.issue kind sn (some tx'.tag) ∈ s'.log := hm
          rw [htag] at hx
          exact hx
        rw [hlog] at hm2
        exact absurd hm2 (hfresh kind sn)
      · intro sn hm hn
        have hm2 : LogEvent.issue IoKind.bitmapWrite sn (some b0.tx.tag) ∈ s'.log := by
          have hx : LogEvent.issue IoKind.bitmapWrite sn (some tx'.tag) ∈ s'.log := hm
          rw [htag] at hx
          exact hx
        rw [hlog] at hm2
        exact absurd hm2 (hfresh IoKind.bitmapWrite sn)
      · intro sn sn' hm hn hm' hn'
        have hm2 : LogEvent.issue IoKind.bitmapWrite sn (some b0.tx.tag) ∈ s'.log := by
          have hx : LogEvent.issue IoKind.bitmapWrite sn (some tx'.tag) ∈ s'.log := hm
          rw [htag] at hx
          exact hx
        rw [hlog] at hm2
        exact absurd hm2 (hfresh IoKind.bitmapWrite sn)
      · intro sn hm hn
        have hm2 : LogEvent.issue IoKind.batWrite sn (some b0.tx.tag) ∈ s'.log := by
          have hx : LogEvent.issue IoKind.batWrite sn (some tx'.tag) ∈ s'.log := hm
          rw [htag] at hx
          exact hx
        rw [hlog] at hm2
        exact absurd hm2 (hfresh IoKind.batWrite sn)
      · intro hw
        have hx : b0.writePending = true := hw
        rw [hwp] at hx
        cases hx
    · rw [pmApply_neg blk tx' sh hc]
      exact bmInv_state_congr (h.bms b0 hb0) hlog hinfl (le_of_eq hns.symm) hpb hbws
  · rw [hlog]
    exact h.c1
  · intro T sn hm
    rw [hlog] at hm
    exact h.noTagRd T sn hm
  · intro T sn hm
    rw [hlog] at hm
    exact h.noTagBr T sn hm

theorem touchBitmap_frame (s : VhdState) (blk : Nat) :
    (touchBitmap s blk).log = s.log ∧ (touchBitmap s blk).inflight = s.inflight ∧
    (touchBitmap s blk).nextSerial = s.nextSerial ∧
    (touchBitmap s blk).nextTag = s.nextTag ∧ (touchBitmap s blk).plain = s.plain ∧
    (touchBitmap s blk).pbwBlk = s.pbwBlk ∧
    (touchBitmap s blk).batLocked = s.batLocked ∧
    (touchBitmap s blk).batWriteStarted = s.batWriteStarted ∧
    (touchBitmap s blk).batReqTx = s.batReqTx := by
  unfold touchBitmap bitmapLruSeqno updateBm
  split <;> exact ⟨rfl, rfl, rfl, rfl, rfl, rfl, rfl, rfl, rfl⟩

theorem touchBitmap_mem {s : VhdState} {b : VhdBitmap} (hb : b ∈ s.cache) (blk : Nat) :
    ∃ b' ∈ (touchBitmap s blk).cache, b'.blk = b.blk ∧ b'.tx = b.tx ∧
      b'.writePending = b.writePending ∧ b'.queue = b.queue ∧ b'.waiting = b.waiting := by
  unfold touchBitmap bitmapLruSeqno updateBm
  by_cases hov : (s.bmLru == 0xffffffff) = true
  · rw [if_pos hov]
    simp only
    rw [List.map_map]
    refine ⟨_, List.mem_map_of_mem _ hb, ?_, ?_, ?_, ?_, ?_⟩ <;>
      (dsimp only [Function.comp]; split <;> rfl)
  · rw [if_neg hov]
    simp only
    refine ⟨_, List.mem_map_of_mem _ hb, ?_, ?_, ?_, ?_, ?_⟩ <;>
      (dsimp only; split <;> rfl)

/-- The cache rewrite of `schedule_bitmap_write`: lock the bitmap and mark
the write pending. -/
def wpApply (blk : Nat) (b : VhdBitmap) : VhdBitmap :=
  if b.blk == blk then { b with locked := true, writePending := true } else b

theorem wpApply_blk (blk : Nat) (b : VhdBitmap) : (wpApply blk b).blk = b.blk := by
  unfold wpApply; split <;> rfl

theorem wpApply_tx (blk : Nat) (b : VhdBitmap) : (wpApply blk b).tx = b.tx := by
  unfold wpApply; split <;> rfl

theorem wpApply_queue (blk : Nat) (b : VhdBitmap) : (wpApply blk b).queue = b.queue := by
  unfold wpApply; split <;> rfl

theorem wpApply_waiting (blk : Nat) (b : VhdBitmap) :
    (wpApply blk b).waiting = b.waiting := by
  unfold wpApply; split <;> rfl

theorem wpApply_wp_true (blk : Nat) {b : VhdBitmap} (h : b.writePending = true) :
    (wpApply blk b).writePending = true := by
  unfold wpApply
  split
  · rfl
  · exact h

theorem wpApply_pos (blk : Nat) {b : VhdBitmap} (hc : (b.blk == blk) = true) :
    wpApply blk b = { b with locked := true, writePending := true } := by
  unfold wpApply
  rw [if_pos hc]

theorem wpApply_neg (blk : Nat) {b : VhdBitmap} (hc : ¬ (b.blk == blk) = true) :
    wpApply blk b = b := by
  unfold wpApply
  rw [if_neg hc]

/-- Marking the bitmap write pending on a closed transaction's bitmap
preserves the invariant. -/
theorem inv_set_wp {s : VhdState} (h : Inv s) {bm : VhdBitmap} {blk : Nat} {s' : VhdState}
    (hbmm : bm ∈ s.cache) (hbmblk : bm.blk = blk)
    (hcl : bm.tx.closed = true) (hwp0 : bm.writePending = false)
    (hpk : s.batReqTx = true → s.pbwBlk ≠ blk)
    (hcache : s'.cache = s.cache.map (wpApply blk))
    (hlog : s'.log = s.log) (hinfl : s'.inflight = s.inflight)
    (hns : s.nextSerial ≤ s'.nextSerial) (hnt : s'.nextTag = s.nextTag)
    (hplain : s'.plain = s.plain) (hpb : s'.pbwBlk = s.pbwBlk)
    (hbl : s'.batLocked = s.batLocked) (hbws : s'.batWriteStarted = s.batWriteStarted)
    (hbr : s'.batReqTx = s.batReqTx) : Inv s' := by
  have hbc : (bm.blk == blk) = true := by simp [hbmblk]
  have htarget : ∀ b0 ∈ s.cache, (b0.blk == blk) = true → b0 = bm := by
    intro b0 hb0 hc
    by_contra hne
    have := pairwise_both h.blkNodup (fun a b hx he => hx he.symm) hb0 hbmm hne
    rw [hbmblk] at this
    exact this (beq_iff_eq.mp hc)
  have hB := h.bms bm hbmm
  have hnobmwpend : ∀ sn, LogEvent.issue IoKind.bitmapWrite sn (some bm.tx.tag) ∈ s.log →
      completedL s.log sn := by
    intro sn hiss
    by_contra hnc
    have := (hB.bmwPend sn hiss hnc).1
    rw [hwp0] at this
    cases this
  refine ⟨?_, ?_, ?_, ?_, ?_, ?_, ?_, ?_, ?_, ?_, ?_, ?_, ?_, ?_, ?_, ?_, ?_, ?_,
    ?_, ?_, ?_, ?_, ?_⟩
  · exact le_trans h.snPos hns
  · rw [hcache, List.pairwise_map]
    refine h.blkNodup.imp ?_
    intro a b hne
    rw [wpApply_blk, wpApply_blk]
    exact hne
  · rw [hcache, List.pairwise_map]
    refine h.tagNodup.imp ?_
    intro a b hne
    rw [wpApply_tx, wpApply_tx]
    exact hne
  · intro b' hb'
    rw [hcache] at hb'
    obtain ⟨b0, hb0, he⟩ := List.mem_map.mp hb'
    rw [hnt, ← he, wpApply_tx]
    exact h.tagLt b0 hb0
  · intro b' hb' hcb
    rw [hcache] at hb'
    obtain ⟨b0, hb0, he⟩ := List.mem_map.mp hb'
    rw [← he, wpApply_tx, hlog] at hcb
    exact h.tagNoCb b0 hb0 hcb
  · intro T hT
    rw [hnt] at hT
    refine ⟨fun hcb => (h.futureTag T hT).1 (by rw [hlog] at hcb; exact hcb), ?_⟩
    intro kind sn hm
    rw [hlog] at hm
    exact (h.futureTag T hT).2 kind sn hm
  · intro kind sn tg hm
    rw [hlog] at hm
    exact lt_of_lt_of_le (h.issueSnLt kind sn tg hm) hns
  · intro kind sn e hm
    rw [hlog] at hm
    exact lt_of_lt_of_le (h.completeSnLt kind sn e hm) hns
  · intro a b c d tg snr hm
    rw [hlog] at hm
    exact lt_of_lt_of_le (h.cbSnLt a b c d tg snr hm) hns
  · rw [hinfl]
    exact h.inflSnNodup
  · intro fl hfl
    rw [hinfl] at hfl
    rw [hlog]
    exact h.inflOk fl hfl
  · intro r hr
    rw [hplain] at hr
    exact lt_of_lt_of_le (h.plainSnLt r hr) hns
  · intro T kind sn hm hn
    rw [hlog] at hm hn
    obtain ⟨bm0, hbm0, htg⟩ := h.pendLive T kind sn hm hn
    refine ⟨wpApply blk bm0, ?_, ?_⟩
    · rw [hcache]
      exact List.mem_map_of_mem _ hbm0
    · rw [wpApply_tx]
      exact htg
  · intro blk0 sn tg hm
    rw [hinfl] at hm
    obtain ⟨z1, z2, z3, z4, bmz, hbmz, e1, e2, e3, rz, hrz, f1, f2, f3⟩ :=
      h.zbMember blk0 sn tg hm
    refine ⟨by rw [hbl, z1], by rw [hpb, z2], by rw [hbws, z3], ?_,
      wpApply blk bmz, ?_, ?_, ?_, ?_, rz, ?_, f1, f2, f3⟩
    · intro sn' hm'
      rw [hlog] at hm' ⊢
      exact z4 sn' hm'
    · rw [hcache]
      exact List.mem_map_of_mem _ hbmz
    · rw [wpApply_blk]
      exact e1
    · rw [wpApply_tx]
      exact e2
    · rw [wpApply_tx]
      exact e3
    · rw [wpApply_tx]
      exact hrz
  · intro blk0 sn tg blk' sn' tg' hm hm'
    rw [hinfl] at hm hm'
    exact h.zbUniq _ _ _ _ _ _ hm hm'
  · intro sn tg hm
    rw [hinfl] at hm
    obtain ⟨z1, z2, bmw, hbmw, e1, e2, e3⟩ := h.bwBm sn tg hm
    refine ⟨by rw [hbl, z1], by rw [hbws, z2], wpApply blk bmw, ?_, ?_, ?_, ?_⟩
    · rw [hcache]
      exact List.mem_map_of_mem _ hbmw
    · rw [wpApply_blk, hpb]
      exact e1
    · rw [wpApply_tx]
      exact e2
    · rw [wpApply_tx]
      exact e3
  · intro sn tg sn' tg' hm hm'
    rw [hinfl] at hm hm'
    exact h.bwUniq _ _ _ _ hm hm'
  · intro blk0 sn tg hm
    rw [hinfl] at hm
    obtain ⟨bmw, hbmw, e1, e2, e3, e4⟩ := h.bmwBm blk0 sn tg hm
    refine ⟨wpApply blk bmw, ?_, ?_, ?_, ?_, ?_⟩
    · rw [hcache]
      exact List.mem_map_of_mem _ hbmw
    · rw [wpApply_blk]
      exact e1
    · rw [wpApply_tx]
      exact e2
    · exact wpApply_wp_true blk e3
    · rw [wpApply_tx]
      exact e4
  · intro hbr'
    rw [hbr] at hbr'
    obtain ⟨p2, bmp, hbmp, e1, e2, e3, e4, e5⟩ := h.parkInv hbr'
    have hbpne : bmp ≠ bm := by
      intro hbe
      refine hpk hbr' ?_
      rw [← e1, hbe, hbmblk]
    have hcp : ¬ (bmp.blk == blk) = true := fun hc => hbpne (htarget bmp hbmp hc)
    have himg := wpApply_neg blk hcp
    refine ⟨by rw [hbws, p2], wpApply blk bmp, ?_, ?_, ?_, ?_, ?_, ?_⟩
    · rw [hcache]
      exact List.mem_map_of_mem _ hbmp
    · rw [himg, hpb]
      exact e1
    · rw [himg]
      exact e2
    · rw [himg]
      exact e3
    · rw [himg]
      exact e4
    · rw [himg]
      exact e5
  · intro b' hb'
    rw [hcache] at hb'
    obtain ⟨b0, hb0, he⟩ := List.mem_map.mp hb'
    rw [← he]
    have hB0 : BmInv s' b0 :=
      bmInv_state_congr (h.bms b0 hb0) hlog hinfl hns hpb hbws
    by_cases hc : (b0.blk == blk) = true
    · have hbe := htarget b0 hb0 hc
      subst hbe
      rw [wpApply_pos blk hc]
      refine ⟨hB0.closedDone, hB0.finLe, hB0.cnt, hB0.reqNodup, hB0.queueNodup,
        hB0.reqSnLt, hB0.queueSnLt, hB0.waitSnLt, hB0.memFin, hB0.memIssued, hB0.memOp,
        hB0.queueFin, hB0.queueIssued, hB0.queueOp, hB0.taggedMember, ?_, hB0.bmwUniq,
        hB0.batPend, ?_⟩
      · intro sn hm hn
        have hm2 : LogEvent.issue IoKind.bitmapWrite sn (some b0.tx.tag) ∈ s.log := by
          rw [hlog] at hm
          exact hm
        exact absurd (by rw [hlog]; exact hnobmwpend sn hm2) hn
      · intro _
        exact hcl
    · rw [wpApply_neg blk hc]
      exact hB0
  · rw [hlog]
    exact h.c1
  · intro T sn hm
    rw [hlog] at hm
    exact h.noTagRd T sn hm
  · intro T sn hm
    rw [hlog] at hm
    exact h.noTagBr T sn hm

/-- Enqueuing the bitmap write of a pending, closed bitmap (the final step
of `schedule_bitmap_write`) preserves the invariant. -/
theorem inv_issue_bmw {s : VhdState} (h : Inv s) {bm : VhdBitmap} {blk sn : Nat}
    {s' : VhdState}
    (hbmm : bm ∈ s.cache) (hbmblk : bm.blk = blk)
    (hcl : bm.tx.closed = true) (hwp : bm.writePending = true)
    (hnopend : ∀ sn', LogEvent.issue IoKind.bitmapWrite sn' (some bm.tx.tag) ∈ s.log →
      completedL s.log sn')
    (hsnlt : sn < s.nextSerial)
    (hsnInfl : ∀ fl ∈ s.inflight, snI fl ≠ sn)
    (hsnComp : ¬ completedL s.log sn)
    (hsnCb : ∀ a b c d tg, LogEvent.callback a b c d tg sn ∉ s.log)
    (hcache : s'.cache = s.cache)
    (hlog : s'.log = s.log ++ [LogEvent.issue IoKind.bitmapWrite sn (some bm.tx.tag)])
    (hinfl : s'.inflight = s.inflight ++ [Inflight.bitmapWrite blk sn bm.tx.tag])
    (hns : s'.nextSerial = s.nextSerial) (hnt : s'.nextTag = s.nextTag)
    (hplain : s'.plain = s.plain) (hpb : s'.pbwBlk = s.pbwBlk)
    (hbl : s'.batLocked = s.batLocked) (hbws : s'.batWriteStarted = s.batWriteStarted)
    (hbr : s'.batReqTx = s.batReqTx) : Inv s' := by
  refine ⟨?_, ?_, ?_, ?_, ?_, ?_, ?_, ?_, ?_, ?_, ?_, ?_, ?_, ?_, ?_, ?_, ?_, ?_,
    ?_, ?_, ?_, ?_, ?_⟩
  · rw [hns]
    exact h.snPos
  · rw [hcache]
    exact h.blkNodup
  · rw [hcache]
    exact h.tagNodup
  · intro b hb
    rw [hcache] at hb
    rw [hnt]
    exact h.tagLt b hb
  · intro b hb hcb
    rw [hcache] at hb
    rw [hlog] at hcb
    exact h.tagNoCb b hb (cbTagged_snoc_issue.mp hcb)
  · intro T' hT'
    rw [hnt] at hT'
    have hf := h.futureTag T' hT'
    constructor
    · intro hcb
      rw [hlog] at hcb
      exact hf.1 (cbTagged_snoc_issue.mp hcb)
    · intro kind sn' hm
      rw [hlog] at hm
      rcases issue_snoc_issue_elim hm with hm | ⟨-, -, he⟩
      · exact hf.2 kind sn' hm
      · have he2 := Option.some.inj he
        have := h.tagLt bm hbmm
        omega
  · intro kind sn' tg hm
    rw [hlog] at hm
    rw [hns]
    rcases issue_snoc_issue_elim hm with hm | ⟨-, he, -⟩
    · exact h.issueSnLt kind sn' tg hm
    · rw [he]
      exact hsnlt
  · intro kind sn' e hm
    rw [hlog] at hm
    rw [hns]
    exact h.completeSnLt kind sn' e (complete_snoc_issue_elim hm)
  · intro a b c d tg snr hm
    rw [hlog] at hm
    rw [hns]
    exact h.cbSnLt a b c d tg snr (cb_snoc_issue_elim hm)
  · rw [hinfl]
    exact pairwise_snoc h.inflSnNodup (fun fl hfl => hsnInfl fl hfl)
  · intro fl hfl
    rw [hinfl] at hfl
    rcases mem_snoc_elim hfl with hfl | hfl
    · have hold := h.inflOk fl hfl
      rw [hlog]
      refine inflightIssued_ext hold ?_
      intro sn' hc
      exact completedL_snoc_issue.mp hc
    · rw [hfl]
      refine ⟨?_, ?_⟩
      · rw [hlog]
        exact List.mem_append_right _ (List.mem_singleton.mpr rfl)
      · intro hc
        rw [hlog] at hc
        exact hsnComp (completedL_snoc_issue.mp hc)
  · intro r hr
    rw [hplain] at hr
    rw [hns]
    exact h.plainSnLt r hr
  · intro T' kind sn' hm hn
    rw [hlog] at hm
    rcases issue_snoc_issue_elim hm with hm | ⟨-, -, he⟩
    · have hn2 : ¬ completedL s.log sn' := by
        intro hc
        exact hn (by rw [hlog]; exact completedL_append_left hc)
      obtain ⟨bm0, hbm0, htg⟩ := h.pendLive T' kind sn' hm hn2
      refine ⟨bm0, ?_, htg⟩
      rw [hcache]
      exact hbm0
    · refine ⟨bm, ?_, (Option.some.inj he).symm⟩
      rw [hcache]
      exact hbmm
  · intro blk0 sn' tg hm
    rw [hinfl] at hm
    rcases mem_snoc_elim hm with hm | hm
    · obtain ⟨z1, z2, z3, z4, bmz, hbmz, e1, e2, e3, rz, hrz, f1, f2, f3⟩ :=
        h.zbMember blk0 sn' tg hm
      refine ⟨by rw [hbl, z1], by rw [hpb, z2], by rw [hbws, z3], ?_,
        bmz, by rw [hcache]; exact hbmz, e1, e2, e3, rz, hrz, f1, f2, f3⟩
      intro sn'' hm'
      rw [hlog] at hm' ⊢
      rcases issue_snoc_issue_elim hm' with hm' | ⟨he1, -, -⟩
      · exact completedL_append_left (z4 sn'' hm')
      · cases he1
    · cases hm
  · intro blk0 sn1 tg blk' sn2 tg' hm hm'
    rw [hinfl] at hm hm'
    rcases mem_snoc_elim hm with hm | hm
    · rcases mem_snoc_elim hm' with hm' | hm'
      · exact h.zbUniq _ _ _ _ _ _ hm hm'
      · cases hm'
    · cases hm
  · intro sn1 tg hm
    rw [hinfl] at hm
    rcases mem_snoc_elim hm with hm | hm
    · obtain ⟨z1, z2, bmw, hbmw, e1, e2, e3⟩ := h.bwBm sn1 tg hm
      exact ⟨by rw [hbl, z1], by rw [hbws, z2], bmw, by rw [hcache]; exact hbmw,
        by rw [hpb]; exact e1, e2, e3⟩
    · cases hm
  · intro sn1 tg sn2 tg' hm hm'
    rw [hinfl] at hm hm'
    rcases mem_snoc_elim hm with hm | hm
    · rcases mem_snoc_elim hm' with hm' | hm'
      · exact h.bwUniq _ _ _ _ hm hm'
      · cases hm'
    · cases hm
  · intro blk0 sn1 tg hm
    rw [hinfl] at hm
    rcases mem_snoc_elim hm with hm | hm
    · obtain ⟨bmw, hbmw, e1, e2, e3, e4⟩ := h.bmwBm blk0 sn1 tg hm
      exact ⟨bmw, by rw [hcache]; exact hbmw, e1, e2, e3, e4⟩
    · injection hm with e1 e2 e3
      subst e1
      subst e2
      subst e3
      exact ⟨bm, by rw [hcache]; exact hbmm, hbmblk, rfl, hwp, hcl⟩
  · intro hbr'
    rw [hbr] at hbr'
    obtain ⟨p2, bmp, hbmp, e1, e2, e3, e4, e5⟩ := h.parkInv hbr'
    exact ⟨by rw [hbws, p2], bmp, by rw [hcache]; exact hbmp, by rw [hpb]; exact e1,
      e2, e3, e4, e5⟩
  · intro b0 hb0
    rw [hcache] at hb0
    by_cases hbe : b0 = bm
    · subst hbe
      have hB := h.bms b0 hb0
      refine ⟨hB.closedDone, hB.finLe, hB.cnt, hB.reqNodup, hB.queueNodup, ?_, ?_, ?_,
        ?_, ?_, hB.memOp, ?_, ?_, hB.queueOp, ?_, ?_, ?_, ?_, hB.wpClosed⟩
      · intro r hr
        rw [hns]
        exact hB.reqSnLt r hr
      · intro r hr
        rw [hns]
        exact hB.queueSnLt r hr
      · intro r hr
        rw [hns]
        exact hB.waitSnLt r hr
      · intro r hr hf
        rw [hlog]
        exact completedL_append_left (hB.memFin r hr hf)
      · intro r hr
        obtain ⟨tg, hm⟩ := hB.memIssued r hr
        exact ⟨tg, by rw [hlog]; exact List.mem_append_left _ hm⟩
      · intro r hr hf
        rw [hlog]
        exact completedL_append_left (hB.queueFin r hr hf)
      · intro r hr
        rw [hlog]
        exact List.mem_append_left _ (hB.queueIssued r hr)
      · intro kind sn' hk hm hn
        rw [hlog] at hm
        rcases issue_snoc_issue_elim hm with hm | ⟨he1, -, -⟩
        · have hn2 : ¬ completedL s.log sn' := by
            intro hc
            exact hn (by rw [hlog]; exact completedL_append_left hc)
          exact hB.taggedMember kind sn' hk hm hn2
        · rcases hk with hk | hk <;> (rw [hk] at he1; cases he1)
      · intro sn' hm hn
        rw [hlog] at hm
        rcases issue_snoc_issue_elim hm with hm | ⟨-, he2, -⟩
        · exact absurd (by rw [hlog]; exact completedL_append_left (hnopend sn' hm)) hn
        · subst he2
          refine ⟨hwp, hcl, ?_⟩
          rw [hinfl, hbmblk]
          exact List.mem_append_right _ (List.mem_singleton.mpr rfl)
      · intro sn1 sn2 hm hn hm' hn'
        rw [hlog] at hm hm'
        rcases issue_snoc_issue_elim hm with hm | ⟨-, he2, -⟩
        · exact absurd (by rw [hlog]; exact completedL_append_left (hnopend sn1 hm)) hn
        · rcases issue_snoc_issue_elim hm' with hm' | ⟨-, he3, -⟩
          · refine absurd ?_ hn'
            rw [hlog]
            exact completedL_append_left (hnopend sn2 hm')
          · rw [he2, he3]
      · intro sn' hm hn
        rw [hlog] at hm
        rcases issue_snoc_issue_elim hm with hm | ⟨he1, -, -⟩
        · have hn2 : ¬ completedL s.log sn' := by
            intro hc
            exact hn (by rw [hlog]; exact completedL_append_left hc)
          obtain ⟨g1, g2, g3, g4⟩ := hB.batPend sn' hm hn2
          refine ⟨g1, by rw [hpb]; exact g2, by rw [hbws]; exact g3, ?_⟩
          rw [hinfl]
          exact List.mem_append_left _ g4
        · cases he1
    · have htagne : b0.tx.tag ≠ bm.tx.tag :=
        pairwise_both h.tagNodup (fun a b hx he => hx he.symm) hb0 hbmm hbe
      refine bmInv_ext (h.bms b0 hb0)
        [LogEvent.issue IoKind.bitmapWrite sn (some bm.tx.tag)] hlog ?_ ?_ ?_ hpb hbws
      · intro ev hev kind sn' heq
        simp only [List.mem_singleton] at hev
        rw [hev] at heq
        injection heq with e1 e2 e3
        exact htagne (Option.some.inj e3).symm
      · intro fl hfl _
        rw [hinfl]
        exact List.mem_append_left _ hfl
      · exact le_of_eq hns.symm
  · rw [hlog]
    refine c1Log_append_issue h.c1 ?_ ?_
    · intro T' he
      rw [← Option.some.inj he]
      exact h.tagNoCb bm hbmm
    · intro a b c d T' snr hm heq
      rw [heq] at hm
      exact hsnCb a b c d (some T') hm
  · intro T sn' hm
    rw [hlog] at hm
    rcases issue_snoc_issue_elim hm with hm | ⟨he1, -, -⟩
    · exact h.noTagRd T sn' hm
    · cases he1
  · intro T sn' hm
    rw [hlog] at hm
    rcases issue_snoc_issue_elim hm with hm | ⟨he1, -, -⟩
    · exact h.noTagBr T sn' hm
    · cases he1

/-- `schedule_bitmap_write` preserves the invariant: the bitmap is cached
and valid with no write pending, the transaction was closed by the caller,
and any parked transaction belongs to a different block. -/
theorem inv_scheduleBitmapWrite {s : VhdState} (h : Inv s) {blk : Nat} {s' : VhdState}
    (hclh : ∀ bm, getBitmap s blk = some bm → bm.tx.closed = true)
    (hpk : s.batReqTx = true → s.pbwBlk ≠ blk)
    (hs : scheduleBitmapWrite s blk = SRes.ok s') : Inv s' := by
  unfold scheduleBitmapWrite at hs
  rcases hg : getBitmap s blk with _ | bm <;> rw [hg] at hs
  · cases hs
  · rcases hbe : batEntry s blk with _ | off <;> rw [hbe] at hs
    · cases hs
    · simp only at hs
      by_cases h1 : s.hdType = HdType.fixed
      · rw [if_pos h1] at hs
        cases hs
      · rw [if_neg h1] at hs
        by_cases h2 : (!bitmapValid bm || bm.writePending) = true
        · rw [if_pos h2] at hs
          cases hs
        · rw [if_neg h2] at hs
          by_cases h3 : off = DD_BLK_UNUSED ∧ s.pbwBlk ≠ blk
          · rw [if_pos h3] at hs
            cases hs
          · rw [if_neg h3] at hs
            cases hs
            obtain ⟨hbmm, hbmblk⟩ := mem_of_getBitmap hg
            have hcl : bm.tx.closed = true := hclh bm hg
            have hwp0 : bm.writePending = false := by
              simp only [Bool.or_eq_true, not_or, Bool.not_eq_true] at h2
              exact h2.2
            have hInv2 : Inv (updateBm { s with nextSerial := s.nextSerial + 1 } blk
                (fun b => { b with locked := true, writePending := true })) := by
              refine inv_set_wp h hbmm hbmblk hcl hwp0 hpk ?_ rfl rfl ?_ rfl rfl rfl
                rfl rfl rfl
              · rfl
              · show s.nextSerial ≤ s.nextSerial + 1
                omega
            have hInv3 := inv_touchBitmap hInv2 blk
            have hwm : wpApply blk bm ∈ (updateBm { s with
                nextSerial := s.nextSerial + 1 } blk
                (fun b => { b with locked := true, writePending := true })).cache :=
              List.mem_map_of_mem (wpApply blk) hbmm
            obtain ⟨bm3, hbm3, j1, j2, j3, j4, j5⟩ := touchBitmap_mem hwm blk
            have hf := touchBitmap_frame (updateBm { s with
              nextSerial := s.nextSerial + 1 } blk
              (fun b => { b with locked := true, writePending := true })) blk
            have hbc : (bm.blk == blk) = true := by simp [hbmblk]
            have htx3 : bm3.tx = bm.tx := by rw [j2, wpApply_tx]
            have hblk3 : bm3.blk = blk := by rw [j1, wpApply_blk, hbmblk]
            have hwp3 : bm3.writePending = true := by rw [j3, wpApply_pos blk hbc]
            refine @inv_issue_bmw _ hInv3 bm3 blk s.nextSerial _ hbm3 hblk3 ?_ hwp3
              ?_ ?_ ?_ ?_ ?_ rfl ?_ ?_ rfl rfl rfl rfl rfl rfl rfl
            · rw [htx3]
              exact hcl
            · intro sn' hm
              rw [hf.1] at hm ⊢
              rw [htx3] at hm
              by_cases hc : completedL s.log sn'
              · exact hc
              · have hB := h.bms bm hbmm
                obtain ⟨hw, -, -⟩ := hB.bmwPend sn' hm hc
                rw [hwp0] at hw
                cases hw
            · rw [hf.2.2.1]
              show s.nextSerial < s.nextSerial + 1
              omega
            · intro fl hfl
              rw [hf.2.1] at hfl
              exact Nat.ne_of_lt (inflight_sn_lt h hfl)
            · intro hc
              rw [hf.1] at hc
              obtain ⟨k, e, hm⟩ := hc
              have := h.completeSnLt k s.nextSerial e hm
              omega
            · intro a b c d tg hm
              rw [hf.1] at hm
              have := h.cbSnLt a b c d tg s.nextSerial hm
              omega
            · rw [htx3]
            · rw [htx3]

end BlkVhd
